import Mathlib

/-!
# Shortest-path engine: min-priority queue, vertices, directed graph, Dijkstra

A shallow embedding of `MinPriorityQueue.tpp`, `Vertex.tpp` and
`DirectedGraph.tpp`.

* Objects that the C++ code handles through pointers (`Vertex<T>*`) live in an
  explicit store, a function from addresses (`Nat`) to objects.
* `std::unordered_map` is a partial function; `m[k]` on a missing key inserts a
  value-initialised entry, which the embedding keeps (`HMap.touch`).
* A thrown exception is a value of `Exn`; every operation returns its outcome
  together with the state it leaves behind, so the state after a throw is
  observable.
* `double` is idealised as an ordered additive monoid with a top element
  (`+infinity`); no rounding, overflow or NaN.
-/

set_option autoImplicit false
set_option linter.unusedSectionVars false
set_option linter.unusedVariables false

/-- The exceptions thrown by the code, one constructor per message. -/
inductive Exn where
  /-- Thrown as `out_of_range("The queue is empty.")` -/
  | queueEmpty
  /-- Thrown as `out_of_range("Value is not in the queue.")` -/
  | valueNotInQueue
  /-- Thrown as `out_of_range("Old key is LESS THAN new key.")` -/
  | oldKeyLess
  /-- Thrown as `overflow_error("The queue is full")` -/
  | queueFull
  /-- Thrown as `runtime_error("Start vertex not found in the graph.")` -/
  | startNotFound
  /-- Thrown as `runtime_error("Edge does not exist")` -/
  | edgeNotExist
  deriving DecidableEq, Repr

/-- Outcome of a call: what was returned or thrown. -/
inductive Outcome (α : Type) where
  | ret (a : α)
  | throw (e : Exn)
  deriving DecidableEq, Repr

/-- Model of `std::unordered_map<α, β>`. -/
abbrev HMap (α β : Type) := α → Option β

namespace HMap

variable {α β : Type} [DecidableEq α]

/-- The empty map. -/
def emp : HMap α β := fun _ => none

/-- Assignment `m[a] = b`. -/
def set (m : HMap α β) (a : α) (b : β) : HMap α β :=
  fun x => if x = a then some b else m x

/-- Removal `m.erase(a)`. -/
def erase (m : HMap α β) (a : α) : HMap α β :=
  fun x => if x = a then none else m x

/-- Membership test `m.find(a) != m.end()`. -/
def contains (m : HMap α β) (a : α) : Bool := (m a).isSome

/-- The value that the expression `m[a]` yields: the stored one, or the
value-initialised one (zero for arithmetic types) when `a` is missing. -/
def read [Zero β] (m : HMap α β) (a : α) : β := (m a).getD 0

/-- The map after the expression `m[a]` was evaluated: a missing `a` has been
inserted with the value-initialised entry. -/
def touch [Zero β] (m : HMap α β) (a : α) : HMap α β :=
  fun x => if x = a then some (read m a) else m x

end HMap

/-- The queue object of `MinPriorityQueue.hpp`: the heap array `arr`, the two
hash maps, the capacity and the number of stored elements. -/
structure minPQ (K V : Type) where
  arr : Nat → V
  indexOf : HMap V Nat
  keyOf : HMap V K
  capacity : Nat
  numElements : Nat

namespace minPQ

variable {K V : Type} [DecidableEq V] [LinearOrder K] [Zero K]

/-- Index of the left child. -/
def left (i : Nat) : Nat := 2 * i + 1

/-- Index of the right child. -/
def right (i : Nat) : Nat := 2 * i + 2

/-- Index of the parent. -/
def parent (i : Nat) : Nat := (i - 1) / 2

/-- The statement `swap(arr[i], arr[j])`. -/
def swapArr (a : Nat → V) (i j : Nat) : Nat → V :=
  fun k => if k = i then a j else if k = j then a i else a k

/-- The array write `arr[i] = v`. -/
def setArr (a : Nat → V) (i : Nat) (v : V) : Nat → V :=
  fun k => if k = i then v else a k

/-- The queue after the two reads `keyOf[x]` and `keyOf[y]` of a comparison. -/
def touch2 (q : minPQ K V) (x y : V) : minPQ K V :=
  { q with keyOf := (q.keyOf.touch x).touch y }

/-- The index `smallest` that `heapify(i, size)` computes with its two tests
`l < size && keyOf[arr[l]] < keyOf[arr[i]]` and
`r < size && keyOf[arr[r]] < keyOf[arr[smallest]]`. -/
def smallestOf (i size : Nat) (q : minPQ K V) : Nat :=
  let l := left i
  let r := right i
  let smallest := if l < size ∧ q.keyOf.read (q.arr l) < q.keyOf.read (q.arr i) then l else i
  if r < size ∧ q.keyOf.read (q.arr r) < q.keyOf.read (q.arr smallest) then r else smallest

/-- The queue after the two tests of `heapify(i, size)`: each test whose bound
check passes has read `keyOf` at two array slots. -/
def heapifyReads (i size : Nat) (q : minPQ K V) : minPQ K V :=
  let l := left i
  let r := right i
  let smallest := if l < size ∧ q.keyOf.read (q.arr l) < q.keyOf.read (q.arr i) then l else i
  let q1 := if l < size then touch2 q (q.arr l) (q.arr i) else q
  if r < size then touch2 q1 (q1.arr r) (q1.arr smallest) else q1

/-- Body of `heapify(i, size)`; `fuel` bounds the depth of the recursion. -/
def heapifyAux : Nat → Nat → Nat → minPQ K V → minPQ K V
  | 0, _, _, q => q
  | fuel + 1, i, size, q =>
    let q2 := heapifyReads i size q
    let smallest := smallestOf i size q
    if smallest ≠ i then
      heapifyAux fuel smallest size { q2 with arr := swapArr q2.arr i smallest }
    else q2

/-- The method `heapify(i, size)`: each recursive call moves to a child, so
`size` calls are never exceeded. -/
def heapify (i size : Nat) (q : minPQ K V) : minPQ K V :=
  heapifyAux (size + 1) i size q

/-- The method `buildHeap(n)`: `heapify(i, n)` for `i = n/2 - 1` down to `0`. -/
def buildHeap (n : Nat) (q : minPQ K V) : minPQ K V :=
  (List.range (n / 2)).reverse.foldl (fun s i => heapify i n s) q

/-- The constructor `minPQ(capacity)`; the fresh array holds default values. -/
def new [Inhabited V] (capacity : Nat) : minPQ K V :=
  { arr := fun _ => default, indexOf := HMap.emp, keyOf := HMap.emp,
    capacity := capacity, numElements := 0 }

/-- The method `empty()`. -/
def empty (q : minPQ K V) : Bool := q.numElements == 0

/-- The loop `while (i > 0 && keyOf[arr[parent(i)]] > keyOf[arr[i]])` shared by
`insert` and `updateKey`; `fuel` bounds the number of iterations. -/
def siftUpAux : Nat → Nat → minPQ K V → minPQ K V
  | 0, _, q => q
  | fuel + 1, i, q =>
    if 0 < i then
      let q1 := touch2 q (q.arr (parent i)) (q.arr i)
      if q.keyOf.read (q.arr (parent i)) > q.keyOf.read (q.arr i) then
        let a := swapArr q1.arr i (parent i)
        let ix := (q1.indexOf.set (a i) i).set (a (parent i)) (parent i)
        siftUpAux fuel (parent i) { q1 with arr := a, indexOf := ix }
      else q1
    else q

/-- The sift-up loop started at index `i`: the index strictly decreases, so
`i` iterations are never exceeded. -/
def siftUp (i : Nat) (q : minPQ K V) : minPQ K V := siftUpAux (i + 1) i q

/-- The method `top()`. -/
def top (q : minPQ K V) : Outcome (K × V) × minPQ K V :=
  if q.numElements = 0 then (.throw .queueEmpty, q)
  else
    let minVal := q.arr 0
    (.ret (q.keyOf.read minVal, minVal), { q with keyOf := q.keyOf.touch minVal })

/-- The method `pop()`. -/
def pop (q : minPQ K V) : Outcome (K × V) × minPQ K V :=
  if q.numElements = 0 then (.throw .queueEmpty, q)
  else
    let minVal := q.arr 0
    let minKey := q.keyOf.read minVal
    let keyOf1 := q.keyOf.touch minVal
    let arr1 := setArr q.arr 0 (q.arr (q.numElements - 1))
    let indexOf1 := q.indexOf.set (arr1 0) 0
    let n1 := q.numElements - 1
    let keyOf2 := keyOf1.erase minVal
    let indexOf2 := indexOf1.erase minVal
    (.ret (minKey, minVal),
      heapify 0 n1 { q with arr := arr1, indexOf := indexOf2, keyOf := keyOf2, numElements := n1 })

/-- The method `updateKey(newKey, value)`. -/
def updateKey (newKey : K) (value : V) (q : minPQ K V) : Outcome Unit × minPQ K V :=
  if ¬ q.keyOf.contains value then (.throw .valueNotInQueue, q)
  else if newKey > q.keyOf.read value then (.throw .oldKeyLess, q)
  else
    match q.indexOf value with
    | some i => (.ret (), siftUp i { q with keyOf := q.keyOf.set value newKey })
    | none => (.throw .valueNotInQueue, { q with keyOf := q.keyOf.set value newKey })

/-- The method `insert(key, value)`. -/
def insert (key : K) (value : V) (q : minPQ K V) : Outcome Unit × minPQ K V :=
  if q.numElements = q.capacity then (.throw .queueFull, q)
  else
    let q1 := { q with
      arr := setArr q.arr q.numElements value
      keyOf := q.keyOf.set value key
      indexOf := q.indexOf.set value q.numElements
      numElements := q.numElements + 1 }
    (.ret (), siftUp q.numElements q1)

/-- The loop of `fromArrays` that copies the first `n` entries. -/
def fromArraysFill (keys : Nat → K) (values : Nat → V) : List Nat → minPQ K V → minPQ K V
  | [], q => q
  | i :: is, q =>
    fromArraysFill keys values is { q with
      arr := setArr q.arr i (values i)
      indexOf := q.indexOf.set (values i) i
      keyOf := q.keyOf.set (values i) (keys i) }

/-- The method `fromArrays(keys, values, n)`. -/
def fromArrays (keys : Nat → K) (values : Nat → V) (n : Nat) (q : minPQ K V) : minPQ K V :=
  buildHeap n (fromArraysFill keys values (List.range n)
    { q with numElements := n, indexOf := HMap.emp, keyOf := HMap.emp })

end minPQ

/-- The vertex object of `Vertex.hpp`. Edge targets and the parent link are
addresses of vertex objects; `none` is the null pointer. -/
structure Vertex (T D : Type) where
  value : T
  visited : Bool
  distance : D
  finishTime : Int
  parent : Option Nat
  adjacencyList : List (Nat × D × String)

/-- The vertex objects in memory, by address. -/
abbrev Store (T D : Type) := Nat → Vertex T D

namespace Vertex

variable {T D : Type}

/-- The call `p->setDistance(d)`. -/
def setDistance (d : D) (p : Nat) (mem : Store T D) : Store T D :=
  fun x => if x = p then { mem p with distance := d } else mem x

/-- The call `p->setParent(q)`. -/
def setParent (q : Option Nat) (p : Nat) (mem : Store T D) : Store T D :=
  fun x => if x = p then { mem p with parent := q } else mem x

/-- The call `p->setVisited(b)`. -/
def setVisited (b : Bool) (p : Nat) (mem : Store T D) : Store T D :=
  fun x => if x = p then { mem p with visited := b } else mem x

end Vertex

/-- Modelled from the spec: `DoublyLinkedList.tpp` is not among the sources; the
auxiliary ordered list of section 4.4 is a sequence. -/
abbrev DoublyLinkedList (α : Type) := List α

/-- Modelled from the spec: `push_back` appends at the back of the ordered list. -/
def DoublyLinkedList.push_back {α : Type} (l : DoublyLinkedList α) (x : α) : DoublyLinkedList α :=
  l ++ [x]

/-- The graph object of `DirectedGraph.hpp`: the vector of owned vertices. -/
structure DirectedGraph where
  vertices : List Nat

namespace DirectedGraph

variable {T D : Type} [DecidableEq T] [LinearOrderedAddCommMonoidWithTop D]

/-- Step 1 of `Dijkstra`: the loop that resets every vertex. -/
def resetAll : List Nat → Store T D → Store T D
  | [], mem => mem
  | v :: vs, mem =>
    resetAll vs (Vertex.setVisited false v (Vertex.setParent none v (Vertex.setDistance ⊤ v mem)))

/-- The search for `actualStart`: the first owned vertex that is `startVertex`
itself or carries the same value. -/
def findStart (startVertex : Nat) (mem : Store T D) : List Nat → Option Nat
  | [] => none
  | v :: vs =>
    if v = startVertex ∨ (mem v).value = (mem startVertex).value then some v
    else findStart startVertex mem vs

/-- Step 2 of `Dijkstra`: `pq.insert(v->getDistance(), v)` for every vertex. -/
def insertAll (mem : Store T D) : List Nat → minPQ D Nat → Outcome Unit × minPQ D Nat
  | [], pq => (.ret (), pq)
  | v :: vs, pq =>
    match minPQ.insert (mem v).distance v pq with
    | (.ret _, pq1) => insertAll mem vs pq1
    | (.throw e, pq1) => (.throw e, pq1)

/-- The edge loop of `Dijkstra` for the extracted vertex `u` with key `du`. -/
def relax (du : D) (u : Nat) :
    List (Nat × D × String) → Store T D × minPQ D Nat → Outcome Unit × (Store T D × minPQ D Nat)
  | [], s => (.ret (), s)
  | (nbr, w, _) :: es, (mem, pq) =>
    if (mem nbr).visited = false then
      let alt := du + w
      if alt < (mem nbr).distance then
        let mem1 := Vertex.setParent (some u) nbr (Vertex.setDistance alt nbr mem)
        match minPQ.updateKey alt nbr pq with
        | (.ret _, pq1) => relax du u es (mem1, pq1)
        | (.throw e, pq1) => (.throw e, (mem1, pq1))
      else relax du u es (mem, pq)
    else relax du u es (mem, pq)

/-- Step 3 of `Dijkstra`: the loop `while (!pq.empty())`. Every iteration pops
one element, so `fuel` = number of queued elements is never exceeded. -/
def dijkstraLoop : Nat → Store T D × minPQ D Nat → Outcome Unit × (Store T D × minPQ D Nat)
  | 0, s => (.ret (), s)
  | fuel + 1, (mem, pq) =>
    if pq.empty then (.ret (), (mem, pq))
    else
      match minPQ.pop pq with
      | (.throw e, pq1) => (.throw e, (mem, pq1))
      | (.ret (du, u), pq1) =>
        if du = ⊤ then (.ret (), (mem, pq1))
        else if (mem u).visited then dijkstraLoop fuel (mem, pq1)
        else
          let mem1 := Vertex.setVisited true u mem
          match relax du u (mem1 u).adjacencyList (mem1, pq1) with
          | (.throw e, s) => (.throw e, s)
          | (.ret _, s) => dijkstraLoop fuel s

/-- Step 4 of `Dijkstra`: collect `(v, v->getDistance())` for every vertex. -/
def collect (mem : Store T D) : List Nat → DoublyLinkedList (Nat × D) → DoublyLinkedList (Nat × D)
  | [], out => out
  | v :: vs, out => collect mem vs (out.push_back (v, (mem v).distance))

/-- The method `Dijkstra(startVertex)`: the outcome and the store it leaves. -/
def Dijkstra (g : DirectedGraph) (startVertex : Nat) (mem : Store T D) :
    Outcome (DoublyLinkedList (Nat × D)) × Store T D :=
  let mem1 := resetAll g.vertices mem
  match findStart startVertex mem1 g.vertices with
  | none => (.throw .startNotFound, mem1)
  | some actualStart =>
    let mem2 := Vertex.setDistance 0 actualStart mem1
    match insertAll mem2 g.vertices (minPQ.new g.vertices.length) with
    | (.throw e, _) => (.throw e, mem2)
    | (.ret _, pq) =>
      match dijkstraLoop pq.numElements (mem2, pq) with
      | (.throw e, (mem3, _)) => (.throw e, mem3)
      | (.ret _, (mem3, _)) => (.ret (collect mem3 g.vertices []), mem3)

end DirectedGraph

/-! ## Specification vocabulary -/

/-- The exceptions that come out of the queue. -/
def Exn.isQueueError : Exn → Bool
  | .queueEmpty | .valueNotInQueue | .oldKeyLess | .queueFull => true
  | _ => false

namespace minPQ

variable {K V : Type} [DecidableEq V] [LinearOrder K] [Zero K]

/-- What sift-up and sift-down leave alone: the size, the capacity, every key
already stored, and the presence of every index entry. -/
structure Frame (q q' : minPQ K V) : Prop where
  num : q'.numElements = q.numElements
  cap : q'.capacity = q.capacity
  key : ∀ x k, q.keyOf x = some k → q'.keyOf x = some k
  idx : ∀ x, (q.indexOf x).isSome = true → (q'.indexOf x).isSome = true

/-- Bounds on the queue: every recorded index is below `m` and every array
slot below `m` holds a value of `S`. -/
structure Bounded (S : V → Prop) (m : Nat) (q : minPQ K V) : Prop where
  idx : ∀ x j, q.indexOf x = some j → j < m
  arr : ∀ j, j < m → S (q.arr j)

end minPQ

namespace Vertex

variable {T D : Type}

/-- Two stores describe the same graph: values and adjacency lists agree. -/
def SameGraph (mem mem' : Store T D) : Prop :=
  ∀ x, (mem' x).value = (mem x).value ∧ (mem' x).adjacencyList = (mem x).adjacencyList

/-- The vertex `v` can be reached from `s` along edge records of the store. -/
inductive Reach (mem : Store T D) (s : Nat) : Nat → Prop where
  | refl : Reach mem s s
  | step {u v : Nat} {w : D} {name : String} :
      Reach mem s u → (v, w, name) ∈ (mem u).adjacencyList → Reach mem s v

end Vertex

namespace DirectedGraph

open Vertex

variable {T D : Type} [DecidableEq T] [LinearOrderedAddCommMonoidWithTop D]

/-- What holds of the vertex fields at every point of a run of `Dijkstra` from
the source `s` over the owned vertices `vs`, `mem0` being the store at the call:
the graph itself is untouched, a finite distance is only given to vertices
reachable from `s`, and only a vertex with a finite distance has a parent. -/
structure MemInv (mem0 : Store T D) (s : Nat) (vs : List Nat) (mem : Store T D) : Prop where
  same : SameGraph mem0 mem
  reach : ∀ x, x ∈ vs → (mem x).distance ≠ ⊤ → Reach mem0 s x
  par : ∀ x, x ∈ vs → (mem x).parent ≠ none → (mem x).distance ≠ ⊤

/-- The invariant of the main loop of `Dijkstra`: the fields invariant, the
bounds of the queue, and every owned vertex not yet visited is recorded in both
maps of the queue with its current distance as key. -/
structure LoopInv (mem0 : Store T D) (s : Nat) (vs : List Nat) (m : Nat)
    (st : Store T D × minPQ D Nat) : Prop where
  mem : MemInv mem0 s vs st.1
  bnd : minPQ.Bounded (fun x => x ∈ vs) m st.2
  num : st.2.numElements ≤ m
  queued : ∀ x, x ∈ vs → (st.1 x).visited = false →
    st.2.keyOf x = some (st.1 x).distance ∧ (st.2.indexOf x).isSome = true

/-- Every edge record of every owned vertex targets an owned vertex. -/
def TargetsOwned (mem : Store T D) (vs : List Nat) : Prop :=
  ∀ u, u ∈ vs → ∀ e, e ∈ (mem u).adjacencyList → e.1 ∈ vs

end DirectedGraph

namespace Vertex

variable {T D : Type}

/-- The constructor `Vertex(T val)`: its body assigns `distance = 0.0`. -/
def new [Zero D] (val : T) : Vertex T D :=
  { value := val, visited := false, distance := 0, finishTime := 0, parent := none,
    adjacencyList := [] }

/-- The method `Vertex::addEdge(v, w, name)` called on the vertex object `r`. -/
def addEdge (v : Nat) (w : D) (name : String) (r : Vertex T D) : Vertex T D :=
  { r with adjacencyList := r.adjacencyList ++ [(v, w, name)] }

end Vertex

/-! ## Concrete graphs used to exercise the theorems -/

/-- Three vertices at addresses 0, 1, 2 with values 10, 11, 12 and the edges
0 -> 1 (weight 2) and 2 -> 0 (weight 1); vertex 2 cannot be reached from 0. -/
def memA : Store Nat (WithTop Nat) := fun p =>
  match p with
  | 0 => (Vertex.new 10).addEdge 1 2 "a"
  | 1 => Vertex.new 11
  | 2 => (Vertex.new 12).addEdge 0 1 "b"
  | _ => Vertex.new 0

/-- The graph owning the vertices 0, 1, 2. -/
def gA : DirectedGraph := ⟨[0, 1, 2]⟩

/-- Two distinct vertices (addresses 0 and 1) share the value 7; 0 has the edge
0 -> 2 of weight 1, 1 has no edge; vertex 2 has value 9. The object at address 3
also has value 9 but belongs to no graph. -/
def memB : Store Nat (WithTop Nat) := fun p =>
  match p with
  | 0 => (Vertex.new 7).addEdge 2 1 "e"
  | 1 => Vertex.new 7
  | 2 => Vertex.new 9
  | 3 => Vertex.new 9
  | _ => Vertex.new 0

/-- The graph owning the vertices 0, 1, 2. -/
def gB : DirectedGraph := ⟨[0, 1, 2]⟩

namespace minPQ

variable {K V : Type} [DecidableEq V] [LinearOrder K] [Zero K]

/-- One call on the queue by a client. -/
inductive QOp (K V : Type) where
  | insert (key : K) (value : V)
  | pop
  | updateKey (newKey : K) (value : V)

/-- Whether a call returned normally. -/
def returned {α σ : Type} (r : Outcome α × σ) : Bool :=
  match r.1 with
  | .ret _ => true
  | .throw _ => false

/-- Performs one call; the flag tells whether it returned normally. -/
def QOp.apply (op : QOp K V) (q : minPQ K V) : Bool × minPQ K V :=
  match op with
  | .insert key value => (returned (minPQ.insert key value q), (minPQ.insert key value q).2)
  | .pop => (returned (minPQ.pop q), (minPQ.pop q).2)
  | .updateKey newKey value =>
    (returned (minPQ.updateKey newKey value q), (minPQ.updateKey newKey value q).2)

/-- Performs a sequence of calls; the flag tells whether all of them returned
normally. -/
def runOps : List (QOp K V) → minPQ K V → Bool × minPQ K V
  | [], q => (true, q)
  | op :: ops, q =>
    let r := op.apply q
    let rs := runOps ops r.2
    (r.1 && rs.1, rs.2)

/-- Calls `pop` until the queue is empty and lists what the calls return. -/
def drainAux : Nat → minPQ K V → List (K × V)
  | 0, _ => []
  | fuel + 1, q =>
    if q.empty then []
    else
      match pop q with
      | (.ret kv, q1) => kv :: drainAux fuel q1
      | (.throw _, _) => []

/-- Calls `pop` until the queue is empty (at most `numElements` calls). -/
def drain (q : minPQ K V) : List (K × V) := drainAux q.numElements q

end minPQ

namespace Vertex

variable {T D : Type} [DecidableEq D]

/-- Whether `steps` is a walk in the graph starting at `u`: each step names the
target and the weight of an edge record of the vertex reached so far. -/
def isWalk (mem : Store T D) : Nat → List (Nat × D) → Bool
  | _, [] => true
  | u, (v, w) :: rest =>
    (mem u).adjacencyList.any (fun e => decide (e.1 = v) && decide (e.2.1 = w)) && isWalk mem v rest

/-- Total weight of a walk. -/
def walkWeight [Add D] [Zero D] (steps : List (Nat × D)) : D :=
  (steps.map (fun st => st.2)).sum

/-- The vertex at which a walk from `u` ends. -/
def walkEnd (u : Nat) (steps : List (Nat × D)) : Nat :=
  match steps.getLast? with
  | some st => st.1
  | none => u

end Vertex

/-- The graph of test 5 in `studentTests.cpp`: vertices with the ids 0, 1, 2
(at the addresses 10, 11, 12) and the edges 0 -> 1 (1.5), 1 -> 2 (2.5),
2 -> 0 (3.5). -/
def memC3 : Store Nat (WithTop ℚ) := fun p =>
  match p with
  | 10 => (Vertex.new 0).addEdge 11 ((3 / 2 : ℚ) : WithTop ℚ) "Edge A street"
  | 11 => (Vertex.new 1).addEdge 12 ((5 / 2 : ℚ) : WithTop ℚ) "['Edge B road', 'Edge B avenue']"
  | 12 => (Vertex.new 2).addEdge 10 ((7 / 2 : ℚ) : WithTop ℚ) "Edge C avenue"
  | _ => Vertex.new 0

/-- The graph owning the three vertices of `memC3`, in file order. -/
def gC3 : DirectedGraph := ⟨[10, 11, 12]⟩

/-- Four vertices 0..3 (address = value) with the edges 0 -> 1 (1), 0 -> 3 (5),
1 -> 2 (1), 2 -> 3 (2), added in this order. -/
def memC1 : Store Nat (WithTop Nat) := fun p =>
  match p with
  | 0 => ((Vertex.new 0).addEdge 1 1 "").addEdge 3 5 ""
  | 1 => (Vertex.new 1).addEdge 2 1 ""
  | 2 => (Vertex.new 2).addEdge 3 2 ""
  | _ => Vertex.new 3

/-- The graph owning the vertices 0, 1, 2, 3. -/
def gC1 : DirectedGraph := ⟨[0, 1, 2, 3]⟩

/-- The queue of capacity 3 after `insert(1,"a")`, `insert(2,"b")`,
`insert(3,"c")` and one `pop`. -/
def opsC10 : List (minPQ.QOp Nat String) :=
  [.insert 1 "a", .insert 2 "b", .insert 3 "c", .pop]

/-- The calls of `opsC10` followed by `updateKey(0,"c")`. -/
def opsC7 : List (minPQ.QOp Nat String) :=
  [.insert 1 "a", .insert 2 "b", .insert 3 "c", .pop, .updateKey 0 "c"]

/-- Ten calls on a queue of capacity 6 with integer keys. -/
def opsC9 : List (minPQ.QOp Int Nat) :=
  [.insert 4 3, .insert 1 0, .insert 2 1, .insert 1 2, .insert 5 5, .pop, .updateKey 0 5,
    .pop, .updateKey 1 3, .pop]

namespace minPQ

variable {K V : Type} [DecidableEq V] [LinearOrder K] [Zero K]

/-- The min-heap property of the first `n` slots of an array under a key
function: no slot has a smaller key than its parent slot. -/
def HeapArr (key : V → K) (a : Nat → V) (n : Nat) : Prop :=
  ∀ j, 0 < j → j < n → key (a (parent j)) ≤ key (a j)

/-- The min-heap property everywhere except below slot `i`: the children of `i`
are only known not to be smaller than the parent of `i`. -/
def HeapAt (key : V → K) (a : Nat → V) (n i : Nat) : Prop :=
  (∀ j, 0 < j → j < n → parent j ≠ i → key (a (parent j)) ≤ key (a j)) ∧
    (0 < i → ∀ j, 0 < j → j < n → parent j = i → key (a (parent i)) ≤ key (a j))

/-- The array of the queue satisfies the min-heap property. -/
def IsHeap (q : minPQ K V) : Prop :=
  HeapArr q.keyOf.read q.arr q.numElements

/-- The value `x` is stored in the queue (in one of the first `numElements`
slots). -/
def Holds (q : minPQ K V) (x : V) : Prop :=
  ∃ j, j < q.numElements ∧ q.arr j = x

/-- The stored entries form a set of (key, value) pairs: the values in the
first `numElements` slots are pairwise distinct and each has a key. -/
structure Stored (q : minPQ K V) : Prop where
  inj : ∀ i j, i < q.numElements → j < q.numElements → q.arr i = q.arr j → i = j
  keyed : ∀ j, j < q.numElements → (q.keyOf (q.arr j)).isSome = true

end minPQ

/-- The calls of the scenario: `insert(5,"a")`, `insert(2,"b")`, `insert(8,"c")`. -/
def opsC8 : List (minPQ.QOp Nat String) :=
  [.insert 5 "a", .insert 2 "b", .insert 8 "c"]

namespace minPQ

/-- The index permutation behind `swapArr`: it exchanges `i` and `j`. -/
def swapIdx (i j k : Nat) : Nat := if k = i then j else if k = j then i else k

end minPQ

namespace minPQ

variable {K V : Type} [DecidableEq V] [LinearOrder K] [Zero K]

/-- The value `x` is in the queue in the sense of `updateKey`, which throws
"Value is not in the queue." when `keyOf` or `indexOf` has no entry for it. -/
def InQueue (q : minPQ K V) (x : V) : Prop :=
  (q.keyOf x).isSome = true ∧ (q.indexOf x).isSome = true

end minPQ

/-- The call of the scenario: `insert(3,"x")`. -/
def opsC9x : List (minPQ.QOp Nat String) := [.insert 3 "x"]

/-! ## Mutators of `Vertex` and `DirectedGraph` -/

namespace Vertex

variable {T D : Type}

/-- The loop of `Vertex::removeEdge(v)`: the first record whose target is `v` is
erased and the loop is left. -/
def eraseFirstTo (v : Nat) : List (Nat × D × String) → List (Nat × D × String)
  | [] => []
  | e :: es => if e.1 = v then es else e :: eraseFirstTo v es

/-- The method `Vertex::removeEdge(v)` called on the vertex object `r`: it throws
when the adjacency list is empty. -/
def removeEdge (v : Nat) (r : Vertex T D) : Outcome Unit × Vertex T D :=
  if r.adjacencyList.isEmpty then (.throw .edgeNotExist, r)
  else (.ret (), { r with adjacencyList := eraseFirstTo v r.adjacencyList })

/-- The store in which the object at address `p` is `r`. -/
def put (p : Nat) (r : Vertex T D) (mem : Store T D) : Store T D :=
  fun x => if x = p then r else mem x

end Vertex

namespace DirectedGraph

variable {T D : Type}

/-- The method `getVertices()`. -/
def getVertices (g : DirectedGraph) : List Nat := g.vertices

/-- The method `getAdjacencyList(v)`. -/
def getAdjacencyList (_g : DirectedGraph) (v : Nat) (mem : Store T D) : List (Nat × D × String) :=
  (mem v).adjacencyList

/-- The method `addVertex(v)`: `vertices.push_back(v)`. -/
def addVertex (g : DirectedGraph) (v : Nat) (mem : Store T D) : DirectedGraph × Store T D :=
  (⟨g.vertices ++ [v]⟩, mem)

/-- The method `addEdge(u, v, w, name)`: `u->addEdge(v, w, name)`. -/
def addEdge (g : DirectedGraph) (u v : Nat) (w : D) (name : String) (mem : Store T D) :
    DirectedGraph × Store T D :=
  (g, Vertex.put u ((mem u).addEdge v w name) mem)

/-- The method `DirectedGraph::removeEdge(u, v)`: it throws when `u` has an empty
adjacency list and otherwise calls `u->removeEdge(v)`. -/
def removeEdge (g : DirectedGraph) (u v : Nat) (mem : Store T D) :
    Outcome Unit × (DirectedGraph × Store T D) :=
  if (mem u).adjacencyList.isEmpty then (.throw .edgeNotExist, (g, mem))
  else ((Vertex.removeEdge v (mem u)).1, (g, Vertex.put u (Vertex.removeEdge v (mem u)).2 mem))

/-- The first loop of `removeVertex(v)`: the first entry equal to `v` is erased
from the vector and the loop is left. (The `delete` of the object is not
modelled: the store keeps what the freed memory held.) -/
def eraseFirstVertex (v : Nat) : List Nat → List Nat
  | [] => []
  | x :: xs => if x = v then xs else x :: eraseFirstVertex v xs

/-- The second loop of `removeVertex(v)`: `vertex->removeEdge(v)` for every
remaining vertex; an exception leaves the loop. -/
def removeEdgesTo (v : Nat) : List Nat → Store T D → Outcome Unit × Store T D
  | [], mem => (.ret (), mem)
  | x :: xs, mem =>
    match (Vertex.removeEdge v (mem x)).1 with
    | .throw e => (.throw e, Vertex.put x (Vertex.removeEdge v (mem x)).2 mem)
    | .ret _ => removeEdgesTo v xs (Vertex.put x (Vertex.removeEdge v (mem x)).2 mem)

/-- The method `removeVertex(v)`. -/
def removeVertex (g : DirectedGraph) (v : Nat) (mem : Store T D) :
    Outcome Unit × (DirectedGraph × Store T D) :=
  ((removeEdgesTo v (eraseFirstVertex v g.vertices) mem).1,
    (⟨eraseFirstVertex v g.vertices⟩, (removeEdgesTo v (eraseFirstVertex v g.vertices) mem).2))

end DirectedGraph

/-- Vertex 0 has two edge records to vertex 1; the graph owns 0 and 1. -/
def memC14a : Store Nat (WithTop Nat) := fun p =>
  match p with
  | 0 => ((Vertex.new 0).addEdge 1 1 "first").addEdge 1 2 "second"
  | _ => Vertex.new 1

/-- The graph owning the vertices 0 and 1. -/
def gC14a : DirectedGraph := ⟨[0, 1]⟩

/-- Vertex 0 has no edge, vertex 1 has the edge 1 -> 2; the graph owns 0, 1, 2. -/
def memC14b : Store Nat (WithTop Nat) := fun p =>
  match p with
  | 0 => Vertex.new 0
  | 1 => (Vertex.new 1).addEdge 2 1 "e"
  | _ => Vertex.new 2

/-- The graph owning the vertices 0, 1 and 2. -/
def gC14b : DirectedGraph := ⟨[0, 1, 2]⟩

/-- The graph of test 4 in `studentTests.cpp` after its `removeEdge`: two
vertices with the values 1 and 2 (addresses 0 and 1) and no edge. -/
def memC15 : Store Nat (WithTop Nat) := fun p =>
  match p with
  | 0 => Vertex.new 1
  | _ => Vertex.new 2

/-- The graph owning the two vertices of `memC15`. -/
def gC15 : DirectedGraph := ⟨[0, 1]⟩

/-- Vertex 0 has the single edge 0 -> 2; vertex 1 is not among its targets. -/
def memC18 : Store Nat (WithTop Nat) := fun p =>
  match p with
  | 0 => (Vertex.new 0).addEdge 2 5 "Edge1"
  | 1 => Vertex.new 1
  | _ => Vertex.new 2

/-- The graph owning the vertices 0, 1 and 2. -/
def gC18 : DirectedGraph := ⟨[0, 1, 2]⟩

namespace minPQ

variable {K V : Type} [DecidableEq V] [LinearOrder K] [Zero K]

/-- The min-heap property everywhere except above slot `i`: slot `i` may have a
smaller key than its parent, and its children are only known not to be smaller
than the parent of `i`. -/
def HeapUp (key : V → K) (a : Nat → V) (n i : Nat) : Prop :=
  (∀ j, 0 < j → j < n → j ≠ i → key (a (parent j)) ≤ key (a j)) ∧
    (0 < i → ∀ j, 0 < j → j < n → parent j = i → key (a (parent i)) ≤ key (a j))

/-- The copy constructor `minPQ(const minPQ&)`: capacity, size and both maps are
copied, and the first `numElements` slots are copied into a fresh array. -/
def copy [Inhabited V] (q : minPQ K V) : minPQ K V :=
  { arr := fun i => if i < q.numElements then q.arr i else default
    indexOf := q.indexOf
    keyOf := q.keyOf
    capacity := q.capacity
    numElements := q.numElements }

/-- The method `heapSort()`: a copy of the queue is popped until it is empty and
the popped values are returned in that order; the queue itself is not touched. -/
def heapSort [Inhabited V] (q : minPQ K V) : List V × minPQ K V :=
  ((drain (copy q)).map (fun kv => kv.2), q)

end minPQ

/-- Five calls on a queue of capacity 5. -/
def opsC13 : List (minPQ.QOp Nat String) :=
  [.insert 5 "a", .insert 2 "b", .insert 8 "c", .insert 1 "d", .insert 3 "e"]

/-! ## Construction of a graph vertex by vertex, and copies of a graph -/

namespace DirectedGraph

variable {T D : Type}

/-- The calls `addVertex(v)` for the vertices of a list, one after the other. -/
def addVertices : List Nat → DirectedGraph × Store T D → DirectedGraph × Store T D
  | [], s => s
  | v :: vs, s => addVertices vs (addVertex s.1 v s.2)

end DirectedGraph

namespace Vertex

variable {T D : Type}

/-- The copy constructor `Vertex(const Vertex& v)`: value, visited, distance,
parent and finishTime are assigned from `v`; the adjacency list is not, it
starts empty. -/
def copy (r : Vertex T D) : Vertex T D :=
  { value := r.value, visited := r.visited, distance := r.distance,
    finishTime := r.finishTime, parent := r.parent, adjacencyList := [] }

end Vertex

namespace DirectedGraph

variable {T D : Type}

/-- The first loop of the copy constructor: for every vertex `v` of the source
graph, `v2 = new Vertex<T>(*v); vertices.push_back(v2); remap[v] = v2`. The
address returned by the `k`-th `new` is `alloc k`; the state is the vector
of the new graph, the map `remap` and the store. -/
def cloneVertices (alloc : Nat → Nat) :
    List Nat → Nat → List Nat × HMap Nat Nat × Store T D → List Nat × HMap Nat Nat × Store T D
  | [], _, s => s
  | v :: vs, k, (out, remap, mem) =>
    cloneVertices alloc vs (k + 1)
      (out ++ [alloc k], remap.set v (alloc k), Vertex.put (alloc k) (Vertex.copy (mem v)) mem)

/-- The inner loop of the second step: `v2->addEdge(remap[oldNbr], w, name)` for
every record of the source vertex. `remap[oldNbr]` on a missing key yields the
null pointer (address 0); the entry this inserts reads as the null pointer
again, so the map is not threaded through the loop. -/
def cloneEdgesOf (remap : HMap Nat Nat) (v2 : Nat) :
    List (Nat × D × String) → Store T D → Store T D
  | [], mem => mem
  | (oldNbr, w, name) :: es, mem =>
    cloneEdgesOf remap v2 es (Vertex.put v2 ((mem v2).addEdge (remap.read oldNbr) w name) mem)

/-- The second loop of the copy constructor: for every vertex `v` of the source
graph, the records of `v->getAdjacencyList()` are added to `remap[v]`. -/
def cloneEdges (remap : HMap Nat Nat) : List Nat → Store T D → Store T D
  | [], mem => mem
  | v :: vs, mem =>
    cloneEdges remap vs (cloneEdgesOf remap (remap.read v) (mem v).adjacencyList mem)

/-- The copy constructor `DirectedGraph(const DirectedGraph& g)`: the new graph
and the store with its vertices. -/
def copy (alloc : Nat → Nat) (g : DirectedGraph) (mem : Store T D) : DirectedGraph × Store T D :=
  (⟨(cloneVertices alloc g.vertices 0 ([], HMap.emp, mem)).1⟩,
    cloneEdges (cloneVertices alloc g.vertices 0 ([], HMap.emp, mem)).2.1 g.vertices
      (cloneVertices alloc g.vertices 0 ([], HMap.emp, mem)).2.2)

/-- The assignment `*this = g`. The argument is `none` when it is `*this`
itself (`this == &g`), for which nothing is done; otherwise the own vertices are
deleted, the vector is cleared and the two steps of the copy constructor are
run. (The `delete` is not modelled: the store keeps what the freed memory
held.) -/
def assign (alloc : Nat → Nat) (self : DirectedGraph) (arg : Option DirectedGraph)
    (mem : Store T D) : DirectedGraph × Store T D :=
  match arg with
  | none => (self, mem)
  | some g => copy alloc g mem

/-- A call of one of the four mutators of a graph. -/
inductive GOp (D : Type) where
  | addEdge (u v : Nat) (w : D) (name : String)
  | removeEdge (u v : Nat)
  | addVertex (v : Nat)
  | removeVertex (v : Nat)

/-- The state after the call `op` on the graph `s.1`; an exception is caught by
the caller, who goes on with the state the call left. -/
def GOp.apply (op : GOp D) (s : DirectedGraph × Store T D) : DirectedGraph × Store T D :=
  match op with
  | .addEdge u v w name => DirectedGraph.addEdge s.1 u v w name s.2
  | .removeEdge u v => (DirectedGraph.removeEdge s.1 u v s.2).2
  | .addVertex v => DirectedGraph.addVertex s.1 v s.2
  | .removeVertex v => (DirectedGraph.removeVertex s.1 v s.2).2

/-- A sequence of calls, one after the other. -/
def runGOps : List (GOp D) → DirectedGraph × Store T D → DirectedGraph × Store T D
  | [], s => s
  | op :: ops, s => runGOps ops (op.apply s)

/-- The call is not given a vertex of `vs` to change or to own: the source of
an added or removed edge and an added vertex are not in `vs`. -/
def GOp.Avoids (vs : List Nat) : GOp D → Prop
  | .addEdge u _ _ _ => u ∉ vs
  | .removeEdge u _ => u ∉ vs
  | .addVertex v => v ∉ vs
  | .removeVertex _ => True

instance (vs : List Nat) (op : GOp D) : Decidable (GOp.Avoids vs op) := by
  cases op <;> unfold GOp.Avoids <;> infer_instance

end DirectedGraph

namespace minPQ

variable {K V : Type} [DecidableEq V] [LinearOrder K] [Zero K]

/-- The index map sends every stored value to the slot that holds it. -/
def IndexOK (q : minPQ K V) : Prop :=
  ∀ j, j < q.numElements → q.indexOf (q.arr j) = some j

end minPQ

/-- Five vertices 0..4 (address = value) with the edges 0 -> 1 (4), 0 -> 4 (5),
3 -> 2 (3), 3 -> 1 (2), 4 -> 3 (1), added in this order. -/
def memC25 : Store Nat (WithTop Nat) := fun p =>
  match p with
  | 0 => ((Vertex.new 0).addEdge 1 4 "").addEdge 4 5 ""
  | 1 => Vertex.new 1
  | 2 => Vertex.new 2
  | 3 => ((Vertex.new 3).addEdge 2 3 "").addEdge 1 2 ""
  | _ => (Vertex.new 4).addEdge 3 1 ""

/-- The graph owning the vertices 0, 1, 2, 3, 4. -/
def gC25 : DirectedGraph := ⟨[0, 1, 2, 3, 4]⟩

/-- Two vertices 0 and 1 with the edges 0 -> 1 and 1 -> 0. -/
def memC30 : Store Nat (WithTop Nat) := fun p =>
  match p with
  | 0 => (Vertex.new 0).addEdge 1 1 "a"
  | _ => (Vertex.new 1).addEdge 0 1 "b"

/-- The graph owning the vertices 0 and 1. -/
def gC30 : DirectedGraph := ⟨[0, 1]⟩

/-- The state in which the run of `Dijkstra` from vertex 0 on `gC25` enters its
main loop: every vertex reset, the source at distance 0, all five vertices
inserted into a queue of capacity 5. -/
def loopC25 : Store Nat (WithTop Nat) × minPQ (WithTop Nat) Nat :=
  (Vertex.setDistance 0 0 (DirectedGraph.resetAll gC25.vertices memC25),
    (DirectedGraph.insertAll (Vertex.setDistance 0 0 (DirectedGraph.resetAll gC25.vertices memC25))
      gC25.vertices (minPQ.new gC25.vertices.length)).2)

/-- Three vertices with the values 0, 1, 2 at the addresses 10, 11, 12 and the
edges 10 -> 11 (2, "a b"), 10 -> 12 (4, "c"), 12 -> 10 (1, "d"), added in this
order. -/
def memC23 : Store Nat (WithTop Nat) := fun p =>
  match p with
  | 10 => ((Vertex.new 0).addEdge 11 2 "a b").addEdge 12 4 "c"
  | 11 => Vertex.new 1
  | 12 => (Vertex.new 2).addEdge 10 1 "d"
  | _ => Vertex.new 0

/-- The graph owning the vertices 10, 11, 12. -/
def gC23 : DirectedGraph := ⟨[10, 11, 12]⟩

/-- An allocator: the `k`-th `new` returns the address `20 + k`. -/
def allocC23 : Nat → Nat := fun k => 20 + k

/-- Calls on a copy of `gC23` whose vertices are 20, 21, 22; 30 is a new vertex. -/
def opsC22 : List (DirectedGraph.GOp (WithTop Nat)) :=
  [.addEdge 21 20 7 "x", .removeEdge 20 21, .addVertex 30, .removeVertex 22]

namespace Vertex

variable {T D : Type}

/-- The stores `mem` and `mem'` hold the same objects except for the scratch
fields `visited`, `distance` and `parent` of the vertices of `vs`. -/
def ScratchEq (vs : List Nat) (mem mem' : Store T D) : Prop :=
  ∀ x, (mem' x).value = (mem x).value ∧ (mem' x).adjacencyList = (mem x).adjacencyList ∧
    (mem' x).finishTime = (mem x).finishTime ∧ (x ∉ vs → mem' x = mem x)

end Vertex

/-- Vertex 0 (value 0) with the edge 0 -> 1 of weight 3; the object at address 1
(value 1) belongs to no graph and has the distance 5. -/
def memC27 : Store Nat (WithTop Nat) := fun p =>
  match p with
  | 0 => (Vertex.new 0).addEdge 1 3 "e"
  | _ => { (Vertex.new 1 : Vertex Nat (WithTop Nat)) with distance := 5 }

/-- The graph owning vertex 0 only. -/
def gC27 : DirectedGraph := ⟨[0]⟩

/-! ## Reading a graph from the text of a file -/

namespace ifstream

/-- The test `std::isspace` in the "C" locale: the space and the characters
`\t`, `\n`, `\v`, `\f`, `\r`. -/
def isSpace (c : Char) : Bool :=
  c.toNat == 32 || (decide (9 ≤ c.toNat) && decide (c.toNat ≤ 13))

/-- The manipulator `ws`: leading whitespace is discarded. -/
def skipWs (s : List Char) : List Char := s.dropWhile isSpace

/-- The text of the next field, as a formatted extraction `>>` finds it:
leading whitespace is skipped and the characters up to the next whitespace
character are taken. (For a number, `>>` stops earlier at a character that
cannot continue the number; in the descriptions read here whitespace follows
every number.) -/
def fieldText (s : List Char) : List Char := (skipWs s).takeWhile (fun c => !isSpace c)

/-- The stream after the extraction of the next field. -/
def afterField (s : List Char) : List Char := (skipWs s).dropWhile (fun c => !isSpace c)

/-- The value of an unsigned decimal numeral; `none` for any other text. -/
def decimal : List Char → Option Nat
  | [] => none
  | c :: cs =>
    if (c :: cs).all Char.isDigit then
      some ((c :: cs).foldl (fun a d => 10 * a + (d.toNat - 48)) 0)
    else none

/-- The extraction `file >> k` of an integer below `bound` (`2 ^ 31` for `int`,
`2 ^ 64` for `size_t`): `none` when the extraction fails, after which the code
goes on with indeterminate values. Signed numerals are not modelled. -/
def extractNat (bound : Nat) (s : List Char) : Option (Nat × List Char) :=
  match decimal (fieldText s) with
  | some k => if k < bound then some (k, afterField s) else none
  | none => none

/-- The extraction `file >> x` of a `double`; the conversion `toD` of the text
of a numeral to its value is a parameter. -/
def extractDouble {D : Type} (toD : List Char → Option D) (s : List Char) :
    Option (D × List Char) :=
  match toD (fieldText s) with
  | some d => some (d, afterField s)
  | none => none

/-- The call `getline(file, line)`: the characters up to the next newline are
the line, and the newline is consumed. At the end of the input the line is
empty (and the stream fails: nothing is left to read). -/
def getline (s : List Char) : String × List Char :=
  (String.mk (s.takeWhile (fun c => c != '\n')), (s.dropWhile (fun c => c != '\n')).drop 1)

end ifstream

/-- The ways `readFromFile` ends on the text of an opened file. -/
inductive Parsed (α : Type) where
  /-- Returned normally. -/
  | ok (a : α)
  /-- Thrown by `idToVertex.at(...)`: `std::out_of_range`. -/
  | outOfRange
  /-- An extraction of a number failed: the code goes on with indeterminate
  values, which is not modelled. -/
  | badRead

/-- The result of a normal return. -/
def Parsed.result {α : Type} : Parsed α → Option α
  | .ok a => some a
  | _ => none

namespace DirectedGraph

variable {T D : Type} [Zero D]

/-- The extractions `file >> vid >> x >> y`: the id and the rest of the
stream. -/
def readVertexLine (toD : List Char → Option D) (s : List Char) : Option (Nat × List Char) :=
  match ifstream.extractNat (2 ^ 64) s with
  | none => none
  | some (vid, s1) =>
    match ifstream.extractDouble toD s1 with
    | none => none
    | some (_, s2) =>
      match ifstream.extractDouble toD s2 with
      | none => none
      | some (_, s3) => some (vid, s3)

/-- The vertex loop of `readFromFile`: `cnt` iterations are left, `k` objects
have been allocated; the state is the stream, the graph, the map `idToVertex`
and the store. In each iteration a vertex with the value `static_cast<T>(vid)`
(the conversion `cast` of the vertex value type `T`) is constructed at the
address `alloc k`, added to the graph and recorded under `vid`. -/
def readVertices (alloc : Nat → Nat) (cast : Nat → T) (toD : List Char → Option D) :
    Nat → Nat → List Char × DirectedGraph × HMap Nat Nat × Store T D →
      Option (List Char × DirectedGraph × HMap Nat Nat × Store T D)
  | 0, _, st => some st
  | cnt + 1, k, (s, g, ids, mem) =>
    match readVertexLine toD s with
    | none => none
    | some (vid, s1) =>
      readVertices alloc cast toD cnt (k + 1)
        (s1, (g.addVertex (alloc k) (Vertex.put (alloc k) (Vertex.new (cast vid)) mem)).1,
          ids.set vid (alloc k), Vertex.put (alloc k) (Vertex.new (cast vid)) mem)

/-- The extractions `file >> uid >> vid >> weight` followed by
`getline(file >> ws, edgeName)`. -/
def readEdgeLine (toD : List Char → Option D) (s : List Char) :
    Option (Nat × Nat × D × String × List Char) :=
  match ifstream.extractNat (2 ^ 64) s with
  | none => none
  | some (uid, s1) =>
    match ifstream.extractNat (2 ^ 64) s1 with
    | none => none
    | some (vid, s2) =>
      match ifstream.extractDouble toD s2 with
      | none => none
      | some (w, s3) =>
        some (uid, vid, w, (ifstream.getline (ifstream.skipWs s3)).1,
          (ifstream.getline (ifstream.skipWs s3)).2)

/-- The edge loop of `readFromFile`: `cnt` iterations are left. In each
iteration both ids are looked up with `idToVertex.at` and the edge is added. -/
def readEdges (toD : List Char → Option D) (ids : HMap Nat Nat) :
    Nat → List Char × DirectedGraph × Store T D → Parsed (DirectedGraph × Store T D)
  | 0, (_, g, mem) => .ok (g, mem)
  | cnt + 1, (s, g, mem) =>
    match readEdgeLine toD s with
    | none => .badRead
    | some (uid, vid, w, name, s1) =>
      match ids uid with
      | none => .outOfRange
      | some u =>
        match ids vid with
        | none => .outOfRange
        | some v => readEdges toD ids cnt (s1, (g.addEdge u v w name mem).1, (g.addEdge u v w name mem).2)

/-- The method `readFromFile(filename)` on the text of the opened file (a file
that cannot be opened makes it throw before anything is read). The address
returned by the `k`-th `new` is `alloc k`; the vertex values are
`static_cast<T>(vid)`, with `cast` the conversion of the vertex value type `T`;
the local graph is returned as it is built. -/
def readFromFile (alloc : Nat → Nat) (cast : Nat → T) (toD : List Char → Option D)
    (text : List Char) (mem : Store T D) : Parsed (DirectedGraph × Store T D) :=
  match ifstream.extractNat (2 ^ 31) text with
  | none => .badRead
  | some (n, s1) =>
    match ifstream.extractNat (2 ^ 31) s1 with
    | none => .badRead
    | some (m, s2) =>
      match readVertices alloc cast toD n 0 (s2, ⟨[]⟩, HMap.emp, mem) with
      | none => .badRead
      | some (s3, g, ids, mem1) => readEdges toD ids m (s3, g, mem1)

end DirectedGraph

/-- The conversion `static_cast<int>(vid)` of a `size_t` to a 32-bit `int`, the
vertex value type of the caller in `studentTests.cpp`: the value modulo
`2 ^ 32`, read in two's complement. -/
def staticCastInt (vid : Nat) : Int :=
  if vid % 2 ^ 32 < 2 ^ 31 then ((vid % 2 ^ 32 : Nat) : Int)
  else ((vid % 2 ^ 32 : Nat) : Int) - 2 ^ 32

/-- A store of `Vertex<int>` objects before any graph is read. -/
def memInt : Store Int (WithTop ℚ) := fun _ => Vertex.new 0

/-- The value of a plain decimal numeral with an optional fractional part, such
as `12` or `1.5`: a conversion with which the reading of a description can be
run. -/
def decimalPoint (t : List Char) : Option (WithTop ℚ) :=
  match ifstream.decimal (t.takeWhile (fun c => c != '.')) with
  | none => none
  | some a =>
    match t.dropWhile (fun c => c != '.') with
    | [] => some ((a : ℚ) : WithTop ℚ)
    | _ :: frac =>
      match ifstream.decimal frac with
      | none => none
      | some b => some (((a : ℚ) + (b : ℚ) / (10 : ℚ) ^ frac.length : ℚ) : WithTop ℚ)

/-- The text written by test 5 of `studentTests.cpp`. -/
def textC24 : List Char :=
  ("3 3\n0 0.0 0.0\n1 1.0 1.0\n2 2.0 2.0\n0 1 1.5 Edge A street\n" ++
    "1 2 2.5 ['Edge B road', 'Edge B avenue']\n2 0 3.5 Edge C avenue\n").toList

/-! ## Graph descriptions -/

/-- A vertex line of a graph description: the texts of the id and of the two
coordinates. -/
structure VertexLine where
  id : List Char
  x : List Char
  y : List Char

/-- An edge line of a graph description: the texts of the two ids and of the
weight, and the label. -/
structure EdgeLine where
  u : List Char
  v : List Char
  weight : List Char
  label : List Char

namespace Description

/-- A field of a line: a non-empty text without whitespace. -/
def isField (t : List Char) : Bool := !t.isEmpty && t.all (fun c => !ifstream.isSpace c)

/-- A label that is not empty, does not begin with whitespace and stays within
its line (it may contain spaces). -/
def isLabel : List Char → Bool
  | [] => false
  | c :: cs => !ifstream.isSpace c && (c :: cs).all (fun d => d != '\n')

/-- The text of a vertex line, followed by `rest`. -/
def vertexLineText (l : VertexLine) (rest : List Char) : List Char :=
  l.id ++ ' ' :: (l.x ++ ' ' :: (l.y ++ '\n' :: rest))

/-- The text of an edge line, followed by `rest`. -/
def edgeLineText (l : EdgeLine) (rest : List Char) : List Char :=
  l.u ++ ' ' :: (l.v ++ ' ' :: (l.weight ++ ' ' :: (l.label ++ '\n' :: rest)))

/-- The text of the vertex lines, followed by `rest`. -/
def vertexText : List VertexLine → List Char → List Char
  | [], rest => rest
  | l :: ls, rest => vertexLineText l (vertexText ls rest)

/-- The text of the edge lines, followed by `rest`. -/
def edgeText : List EdgeLine → List Char → List Char
  | [], rest => rest
  | l :: ls, rest => edgeLineText l (edgeText ls rest)

/-- The text of a description: the line `n m`, the vertex lines, the edge
lines. -/
def text (n m : List Char) (vls : List VertexLine) (els : List EdgeLine) : List Char :=
  n ++ ' ' :: (m ++ '\n' :: vertexText vls (edgeText els []))

/-- The id written by a text. -/
def idOf (t : List Char) : Nat := (ifstream.decimal t).getD 0

/-- The weight written by a text. -/
def weightOf {D : Type} [Zero D] (toD : List Char → Option D) (t : List Char) : D :=
  (toD t).getD 0

/-- The ids of the vertex lines, in file order. -/
def ids (vls : List VertexLine) : List Nat := vls.map (fun l => idOf l.id)

/-- A well-formed description: the counts `n` and `m` are those of the lines;
every field is a text without whitespace that writes a number of its type; the
ids of the vertex lines are pairwise different; the edge lines refer to ids of
vertex lines, and their labels are not empty and do not begin with
whitespace. -/
structure WellFormed {D : Type} (toD : List Char → Option D) (n m : List Char)
    (vls : List VertexLine) (els : List EdgeLine) : Prop where
  nField : isField n = true
  nValue : ifstream.decimal n = some vls.length
  nBound : vls.length < 2 ^ 31
  mField : isField m = true
  mValue : ifstream.decimal m = some els.length
  mBound : els.length < 2 ^ 31
  vertexLines : ∀ l, l ∈ vls →
    isField l.id = true ∧ isField l.x = true ∧ isField l.y = true ∧
      (ifstream.decimal l.id).isSome = true ∧ idOf l.id < 2 ^ 64 ∧
      (toD l.x).isSome = true ∧ (toD l.y).isSome = true
  unique : (ids vls).Nodup
  edgeLines : ∀ l, l ∈ els →
    isField l.u = true ∧ isField l.v = true ∧ isField l.weight = true ∧
      (ifstream.decimal l.u).isSome = true ∧ idOf l.u ∈ ids vls ∧
      (ifstream.decimal l.v).isSome = true ∧ idOf l.v ∈ ids vls ∧
      (toD l.weight).isSome = true ∧ isLabel l.label = true

end Description

namespace DirectedGraph

variable {T D : Type} [Zero D]

/-- The effect of the vertex loop of `readFromFile` for the ids it reads. -/
def buildVertices (alloc : Nat → Nat) (cast : Nat → T) :
    List Nat → Nat → DirectedGraph × HMap Nat Nat × Store T D →
      DirectedGraph × HMap Nat Nat × Store T D
  | [], _, st => st
  | vid :: rest, k, (g, ids, mem) =>
    buildVertices alloc cast rest (k + 1)
      ((g.addVertex (alloc k) (Vertex.put (alloc k) (Vertex.new (cast vid)) mem)).1,
        ids.set vid (alloc k), Vertex.put (alloc k) (Vertex.new (cast vid)) mem)

/-- The effect of the edge loop of `readFromFile` for the edges it reads. -/
def buildEdges (ids : HMap Nat Nat) :
    List (Nat × Nat × D × String) → DirectedGraph × Store T D →
      Parsed (DirectedGraph × Store T D)
  | [], st => .ok st
  | (uid, vid, w, name) :: es, (g, mem) =>
    match ids uid with
    | none => .outOfRange
    | some u =>
      match ids vid with
      | none => .outOfRange
      | some v => buildEdges ids es ((g.addEdge u v w name mem).1, (g.addEdge u v w name mem).2)

end DirectedGraph

/-- The vertex lines written by test 5 of `studentTests.cpp`. -/
def vlsC24 : List VertexLine :=
  [⟨"0".toList, "0.0".toList, "0.0".toList⟩, ⟨"1".toList, "1.0".toList, "1.0".toList⟩,
    ⟨"2".toList, "2.0".toList, "2.0".toList⟩]

/-- The edge lines written by test 5 of `studentTests.cpp`. -/
def elsC24 : List EdgeLine :=
  [⟨"0".toList, "1".toList, "1.5".toList, "Edge A street".toList⟩,
    ⟨"1".toList, "2".toList, "2.5".toList, "['Edge B road', 'Edge B avenue']".toList⟩,
    ⟨"2".toList, "0".toList, "3.5".toList, "Edge C avenue".toList⟩]

namespace DirectedGraph

variable {T D : Type} [Zero D]

/-- The stream at the point where `readFromFile` enters its edge loop: what is
left after the two counts and the vertex lines have been read. -/
def streamAtEdges (alloc : Nat → Nat) (cast : Nat → T) (toD : List Char → Option D)
    (text : List Char) (mem : Store T D) : Option (List Char) :=
  match ifstream.extractNat (2 ^ 31) text with
  | none => none
  | some (n, s1) =>
    match ifstream.extractNat (2 ^ 31) s1 with
    | none => none
    | some (_, s2) =>
      (readVertices alloc cast toD n 0 (s2, ⟨[]⟩, HMap.emp, mem)).map (fun st => st.1)

end DirectedGraph

/-- Two vertex lines with the ids 0 and 1. -/
def vlsC31 : List VertexLine :=
  [⟨"0".toList, "0".toList, "0".toList⟩, ⟨"1".toList, "1".toList, "1".toList⟩]

/-- Two edge lines: 0 -> 1 of weight 1.5 without label, then 1 -> 0 of weight
2.5 with the label "back". -/
def elsC31 : List EdgeLine :=
  [⟨"0".toList, "1".toList, "1.5".toList, []⟩,
    ⟨"1".toList, "0".toList, "2.5".toList, "back".toList⟩]

/-- The same description with no blank after the weight of the unlabelled
line. -/
def textC31 : List Char := "2 2\n0 0 0\n1 1 1\n0 1 1.5\n1 0 2.5 back\n".toList

/-- A description whose only unlabelled edge line is the last line. -/
def textC31last : List Char := "2 2\n0 0 0\n1 1 1\n0 1 1.5 x\n1 0 2.5\n".toList

/-! ## Parent links and the reconstructed route -/

namespace Vertex

variable {T D : Type}

/-- The vertex `x` is linked to `s` by parent links: every link leads to a
visited vertex. -/
inductive VChain (mem : Store T D) (s : Nat) : Nat → Prop where
  | root : VChain mem s s
  | step {x p : Nat} : (mem x).parent = some p → (mem p).visited = true → VChain mem s p →
      VChain mem s x

/-- The backtracking loop of `GraphMap::find_path`,
`for (auto cur = endV; cur; cur = cur->getParent()) route.push_back(...)`: the
vertices visited by the loop, in the order visited, or `none` when `fuel`
iterations do not reach a null parent. -/
def backtrack (mem : Store T D) : Nat → Option Nat → Option (List Nat)
  | _, none => some []
  | 0, some _ => none
  | fuel + 1, some cur => (backtrack mem fuel (mem cur).parent).map (fun l => cur :: l)

/-- The route of `GraphMap::find_path`: the values pushed by the backtracking
loop, reversed. -/
def route (mem : Store T D) (fuel : Nat) (endV : Nat) : Option (List T) :=
  (backtrack mem fuel (some endV)).map (fun l => (l.map (fun v => (mem v).value)).reverse)

end Vertex

namespace DirectedGraph

open Vertex

variable {T D : Type} [DecidableEq T] [LinearOrderedAddCommMonoidWithTop D]

/-- What holds of the parent links at every point of a run of `Dijkstra` from
the source `s` on a graph with non-negative weights, `mem0` being the store at
the call: the source keeps distance 0 and no parent; no owned vertex has a
negative distance; the parent `p` of an owned vertex `x` is a visited owned
vertex with an edge to `x` whose weight added to the distance of `p` is the
distance of `x`; every other owned vertex with a finite distance has a parent;
every visited owned vertex is linked to the source. -/
structure TreeInv (mem0 : Store T D) (s : Nat) (vs : List Nat) (mem : Store T D) : Prop where
  src : (mem s).distance = 0 ∧ (mem s).parent = none
  nonneg : ∀ x, x ∈ vs → 0 ≤ (mem x).distance
  par : ∀ x, x ∈ vs → ∀ p, (mem x).parent = some p →
    p ∈ vs ∧ (mem p).visited = true ∧
      ∃ w name, (x, w, name) ∈ (mem0 p).adjacencyList ∧ (mem x).distance = (mem p).distance + w
  fin : ∀ x, x ∈ vs → x ≠ s → (mem x).distance ≠ ⊤ → (mem x).parent ≠ none
  chain : ∀ x, x ∈ vs → (mem x).visited = true → VChain mem s x

/-- Every edge record of every owned vertex has a non-negative weight. -/
def NonNegWeights (mem : Store T D) (vs : List Nat) : Prop :=
  ∀ u, u ∈ vs → ∀ e, e ∈ (mem u).adjacencyList → 0 ≤ e.2.1

end DirectedGraph

/-- Nine calls on a queue of capacity 5 that insert five pairwise different
values. -/
def opsC8run : List (minPQ.QOp Nat Nat) :=
  [.insert 1 1, .insert 1 2, .insert 1 3, .insert 2 4, .insert 3 5, .pop, .updateKey 1 5,
    .pop, .updateKey 2 4]

/-- Eleven calls on a queue of capacity 5 that insert five pairwise different
values. -/
def opsC11run : List (minPQ.QOp Nat Nat) :=
  [.insert 1 1, .insert 1 2, .insert 1 3, .insert 2 4, .insert 3 5, .pop, .pop,
    .updateKey 1 5, .pop, .updateKey 2 4, .pop]

/-- Two vertex lines with the ids 1 and 4294967297 (which is `2 ^ 32 + 1`). -/
def vlsC24wrap : List VertexLine :=
  [⟨"1".toList, "0.0".toList, "0.0".toList⟩, ⟨"4294967297".toList, "1.0".toList, "1.0".toList⟩]

/-- One edge line from the id 1 to the id 4294967297. -/
def elsC24wrap : List EdgeLine :=
  [⟨"1".toList, "4294967297".toList, "1.5".toList, "Edge A street".toList⟩]

/-! ## Basic facts about the store and the queue operations -/

namespace Vertex

variable {T D : Type}

theorem SameGraph.reflG (mem : Store T D) : SameGraph mem mem := fun _ => ⟨rfl, rfl⟩

theorem SameGraph.transG {a b c : Store T D} (h1 : SameGraph a b) (h2 : SameGraph b c) :
    SameGraph a c := fun x => ⟨(h2 x).1.trans (h1 x).1, (h2 x).2.trans (h1 x).2⟩

theorem sameGraph_setDistance (d : D) (p : Nat) (mem : Store T D) :
    SameGraph mem (setDistance d p mem) := by
  intro x
  unfold setDistance
  by_cases h : x = p
  · subst h; simp
  · simp [h]

theorem sameGraph_setParent (q : Option Nat) (p : Nat) (mem : Store T D) :
    SameGraph mem (setParent q p mem) := by
  intro x
  unfold setParent
  by_cases h : x = p
  · subst h; simp
  · simp [h]

theorem sameGraph_setVisited (b : Bool) (p : Nat) (mem : Store T D) :
    SameGraph mem (setVisited b p mem) := by
  intro x
  unfold setVisited
  by_cases h : x = p
  · subst h; simp
  · simp [h]

end Vertex

namespace DirectedGraph

open Vertex

variable {T D : Type} [DecidableEq T] [LinearOrderedAddCommMonoidWithTop D]

theorem sameGraph_resetAll (vs : List Nat) (mem : Store T D) :
    SameGraph mem (resetAll vs mem) := by
  induction vs generalizing mem with
  | nil => exact SameGraph.reflG mem
  | cons v vs ih =>
    unfold resetAll
    exact (((sameGraph_setDistance ⊤ v mem).transG (sameGraph_setParent none v _)).transG
      (sameGraph_setVisited false v _)).transG (ih _)

theorem findStart_eq_none (startVertex : Nat) (mem : Store T D) (vs : List Nat) :
    findStart startVertex mem vs = none ↔
      ∀ v ∈ vs, v ≠ startVertex ∧ (mem v).value ≠ (mem startVertex).value := by
  induction vs with
  | nil => simp [findStart]
  | cons v vs ih =>
    unfold findStart
    by_cases h : v = startVertex ∨ (mem v).value = (mem startVertex).value
    · simp only [h, if_true, List.mem_cons, forall_eq_or_imp]
      constructor
      · intro h0; cases h0
      · rintro ⟨⟨h1, h2⟩, _⟩
        rcases h with h | h
        · exact absurd h h1
        · exact absurd h h2
    · simp only [h, if_false, List.mem_cons, forall_eq_or_imp, ih]
      push_neg at h
      constructor
      · intro h0; exact ⟨h, h0⟩
      · intro h0; exact h0.2

theorem findStart_mem {startVertex : Nat} {mem : Store T D} {vs : List Nat} {s : Nat}
    (h : findStart startVertex mem vs = some s) : s ∈ vs := by
  induction vs with
  | nil => simp [findStart] at h
  | cons v vs ih =>
    unfold findStart at h
    split at h
    · simp only [Option.some.injEq] at h; subst h; simp
    · exact List.mem_cons_of_mem _ (ih h)

theorem collect_eq (mem : Store T D) (vs : List Nat) (out : DoublyLinkedList (Nat × D)) :
    collect mem vs out = out ++ vs.map (fun v => (v, (mem v).distance)) := by
  induction vs generalizing out with
  | nil => simp [collect]
  | cons v vs ih =>
    unfold collect
    rw [ih]
    simp [DoublyLinkedList.push_back]

end DirectedGraph

namespace minPQ

variable {K V : Type} [DecidableEq V] [LinearOrder K] [Zero K]

theorem insert_throw {key : K} {value : V} {q : minPQ K V} {e : Exn}
    (h : (insert key value q).1 = .throw e) : e = .queueFull := by
  unfold insert at h
  split at h
  · simp only [Outcome.throw.injEq] at h; exact h.symm
  · cases h

theorem pop_throw {q : minPQ K V} {e : Exn} (h : (pop q).1 = .throw e) : e = .queueEmpty := by
  unfold pop at h
  split at h
  · simp only [Outcome.throw.injEq] at h; exact h.symm
  · cases h

theorem updateKey_throw {newKey : K} {value : V} {q : minPQ K V} {e : Exn}
    (h : (updateKey newKey value q).1 = .throw e) : e = .valueNotInQueue ∨ e = .oldKeyLess := by
  unfold updateKey at h
  split at h
  · simp only [Outcome.throw.injEq] at h; exact Or.inl h.symm
  · split at h
    · simp only [Outcome.throw.injEq] at h; exact Or.inr h.symm
    · split at h
      · cases h
      · simp only [Outcome.throw.injEq] at h; exact Or.inl h.symm

end minPQ

namespace DirectedGraph

variable {T D : Type} [DecidableEq T] [LinearOrderedAddCommMonoidWithTop D]

theorem insertAll_throw {mem : Store T D} {vs : List Nat} {pq : minPQ D Nat} {e : Exn}
    (h : (insertAll mem vs pq).1 = .throw e) : e.isQueueError = true := by
  induction vs generalizing pq with
  | nil => simp [insertAll] at h
  | cons v vs ih =>
    unfold insertAll at h
    cases hi : minPQ.insert (mem v).distance v pq with
    | mk o pq1 =>
      rw [hi] at h
      cases o with
      | ret a => exact ih h
      | throw e1 =>
        have h1 : (minPQ.insert (mem v).distance v pq).1 = .throw e1 := by rw [hi]
        simp only [Outcome.throw.injEq] at h
        subst h
        rw [minPQ.insert_throw h1]; rfl

theorem relax_throw {du : D} {u : Nat} {es : List (Nat × D × String)}
    {s : Store T D × minPQ D Nat} {e : Exn}
    (h : (relax du u es s).1 = .throw e) : e.isQueueError = true := by
  induction es generalizing s with
  | nil => simp [relax] at h
  | cons ed es ih =>
    obtain ⟨nbr, w, nm⟩ := ed
    obtain ⟨mem, pq⟩ := s
    unfold relax at h
    split at h
    · simp only at h
      split at h
      · cases hu : minPQ.updateKey (du + w) nbr pq with
        | mk o pq1 =>
          rw [hu] at h
          cases o with
          | ret a => exact ih h
          | throw e1 =>
            have h1 : (minPQ.updateKey (du + w) nbr pq).1 = .throw e1 := by rw [hu]
            simp only [Outcome.throw.injEq] at h
            subst h
            rcases minPQ.updateKey_throw h1 with h2 | h2 <;> rw [h2] <;> rfl
      · exact ih h
    · exact ih h

theorem dijkstraLoop_throw {fuel : Nat} {s : Store T D × minPQ D Nat} {e : Exn}
    (h : (dijkstraLoop fuel s).1 = .throw e) : e.isQueueError = true := by
  induction fuel generalizing s with
  | zero => simp [dijkstraLoop] at h
  | succ fuel ih =>
    obtain ⟨mem, pq⟩ := s
    unfold dijkstraLoop at h
    split at h
    · cases h
    · cases hp : minPQ.pop pq with
      | mk o pq1 =>
        rw [hp] at h
        cases o with
        | throw e1 =>
          have h1 : (minPQ.pop pq).1 = .throw e1 := by rw [hp]
          simp only [Outcome.throw.injEq] at h
          subst h
          rw [minPQ.pop_throw h1]; rfl
        | ret a =>
          obtain ⟨du, u⟩ := a
          simp only at h
          split at h
          · cases h
          · split at h
            · exact ih h
            · cases hr : relax du u ((Vertex.setVisited true u mem) u).adjacencyList
                  (Vertex.setVisited true u mem, pq1) with
              | mk o2 s2 =>
                rw [hr] at h
                cases o2 with
                | throw e2 =>
                  have h2 : (relax du u ((Vertex.setVisited true u mem) u).adjacencyList
                    (Vertex.setVisited true u mem, pq1)).1 = .throw e2 := by rw [hr]
                  simp only [Outcome.throw.injEq] at h
                  subst h
                  exact relax_throw h2
                | ret a2 => exact ih h

end DirectedGraph

/-! ## Frame properties of the queue operations

These hold in every state of the queue, whether or not the heap order or the
index map are intact. -/

namespace HMap

variable {α β : Type} [DecidableEq α]

theorem read_touch [Zero β] (m : HMap α β) (a x : α) : (m.touch a).read x = m.read x := by
  unfold touch read
  by_cases h : x = a
  · subst h; simp
  · simp [h]

theorem touch_of_some [Zero β] {m : HMap α β} {x : α} {k : β} (a : α) (h : m x = some k) :
    m.touch a x = some k := by
  unfold touch read
  by_cases hx : x = a
  · subst hx; simp [h]
  · simp [hx, h]

theorem read_of_some [Zero β] {m : HMap α β} {x : α} {k : β} (h : m x = some k) :
    m.read x = k := by
  unfold read; simp [h]

theorem set_eq_some {m : HMap α β} {a x : α} {b c : β} (h : m.set a b x = some c) :
    (x = a ∧ c = b) ∨ m x = some c := by
  unfold set at h
  by_cases hx : x = a
  · simp [hx] at h; exact Or.inl ⟨hx, h.symm⟩
  · simp [hx] at h; exact Or.inr h

theorem set_self (m : HMap α β) (a : α) (b : β) : m.set a b a = some b := by
  unfold set; simp

theorem set_of_ne (m : HMap α β) {a x : α} (b : β) (h : x ≠ a) : m.set a b x = m x := by
  unfold set; simp [h]

theorem set_isSome {m : HMap α β} {x : α} (a : α) (b : β) (h : (m x).isSome = true) :
    (m.set a b x).isSome = true := by
  unfold set
  by_cases hx : x = a
  · simp [hx]
  · simp [hx, h]

theorem erase_of_ne (m : HMap α β) {a x : α} (h : x ≠ a) : m.erase a x = m x := by
  unfold erase; simp [h]

theorem erase_eq_some {m : HMap α β} {a x : α} {c : β} (h : m.erase a x = some c) :
    m x = some c := by
  unfold erase at h
  by_cases hx : x = a
  · simp [hx] at h
  · simp [hx] at h; exact h

end HMap

namespace minPQ

variable {K V : Type} [DecidableEq V] [LinearOrder K] [Zero K]

theorem Frame.reflF (q : minPQ K V) : Frame q q :=
  ⟨rfl, rfl, fun _ _ h => h, fun _ h => h⟩

theorem Frame.transF {a b c : minPQ K V} (h1 : Frame a b) (h2 : Frame b c) : Frame a c :=
  ⟨h2.num.trans h1.num, h2.cap.trans h1.cap, fun x k h => h2.key x k (h1.key x k h),
    fun x h => h2.idx x (h1.idx x h)⟩

theorem frame_touch2 (q : minPQ K V) (x y : V) : Frame q (touch2 q x y) :=
  ⟨rfl, rfl, fun _ _ h => HMap.touch_of_some _ (HMap.touch_of_some _ h), fun _ h => h⟩

theorem bounded_touch2 {S : V → Prop} {m : Nat} {q : minPQ K V} (x y : V)
    (h : Bounded S m q) : Bounded S m (touch2 q x y) :=
  ⟨h.idx, h.arr⟩

theorem swapArr_mem {S : V → Prop} {m : Nat} {a : Nat → V} {i j : Nat}
    (h : ∀ k, k < m → S (a k)) (hi : i < m) (hj : j < m) :
    ∀ k, k < m → S (swapArr a i j k) := by
  intro k hk
  unfold swapArr
  split
  · exact h j hj
  · split
    · exact h i hi
    · exact h k hk

theorem parent_le (i : Nat) : parent i ≤ i := by
  unfold parent; omega

theorem parent_lt {i : Nat} (h : 0 < i) : parent i < i := by
  unfold parent; omega

theorem siftUpAux_frame (fuel i : Nat) (q : minPQ K V) : Frame q (siftUpAux fuel i q) := by
  induction fuel generalizing i q with
  | zero => exact Frame.reflF q
  | succ fuel ih =>
    unfold siftUpAux
    split
    · simp only
      split
      · refine (frame_touch2 q (q.arr (parent i)) (q.arr i)).transF (Frame.transF ?_ (ih _ _))
        exact ⟨rfl, rfl, fun _ _ h => h, fun x h => HMap.set_isSome _ _ (HMap.set_isSome _ _ h)⟩
      · exact frame_touch2 q _ _
    · exact Frame.reflF q

theorem siftUpAux_bounded {S : V → Prop} {m : Nat} (fuel i : Nat) (q : minPQ K V)
    (hi : i < m) (h : Bounded S m q) : Bounded S m (siftUpAux fuel i q) := by
  induction fuel generalizing i q with
  | zero => exact h
  | succ fuel ih =>
    unfold siftUpAux
    split
    · simp only
      split
      · apply ih _ _ (lt_of_le_of_lt (parent_le i) hi)
        have hp : parent i < m := lt_of_le_of_lt (parent_le i) hi
        constructor
        · intro x j hx
          rcases HMap.set_eq_some hx with ⟨_, rfl⟩ | hx
          · exact hp
          · rcases HMap.set_eq_some hx with ⟨_, rfl⟩ | hx
            · exact hi
            · exact h.idx x j hx
        · exact swapArr_mem h.arr hi hp
      · exact bounded_touch2 _ _ h
    · exact h

theorem heapifyReads_frame (i size : Nat) (q : minPQ K V) :
    Frame q (heapifyReads i size q) ∧ (heapifyReads i size q).indexOf = q.indexOf ∧
      (heapifyReads i size q).arr = q.arr := by
  unfold heapifyReads
  simp only
  split <;> split <;>
    first
    | exact ⟨Frame.reflF q, rfl, rfl⟩
    | exact ⟨frame_touch2 q _ _, rfl, rfl⟩
    | exact ⟨(frame_touch2 q _ _).transF (frame_touch2 _ _ _), rfl, rfl⟩

theorem smallestOf_cases (i size : Nat) (q : minPQ K V) :
    smallestOf i size q = i ∨
      (smallestOf i size q = left i ∧ left i < size) ∨
      (smallestOf i size q = right i ∧ right i < size) := by
  unfold smallestOf
  simp only
  by_cases h1 : left i < size ∧ q.keyOf.read (q.arr (left i)) < q.keyOf.read (q.arr i)
  · rw [if_pos h1]
    by_cases h2 : right i < size ∧
        q.keyOf.read (q.arr (right i)) < q.keyOf.read (q.arr (left i))
    · rw [if_pos h2]; exact Or.inr (Or.inr ⟨rfl, h2.1⟩)
    · rw [if_neg h2]; exact Or.inr (Or.inl ⟨rfl, h1.1⟩)
  · rw [if_neg h1]
    by_cases h2 : right i < size ∧ q.keyOf.read (q.arr (right i)) < q.keyOf.read (q.arr i)
    · rw [if_pos h2]; exact Or.inr (Or.inr ⟨rfl, h2.1⟩)
    · rw [if_neg h2]; exact Or.inl rfl

theorem smallestOf_lt {i size : Nat} {q : minPQ K V} (h : smallestOf i size q ≠ i) :
    smallestOf i size q < size ∧ i < smallestOf i size q := by
  rcases smallestOf_cases i size q with h1 | ⟨h1, h2⟩ | ⟨h1, h2⟩
  · exact absurd h1 h
  · rw [h1]; exact ⟨h2, by unfold left; omega⟩
  · rw [h1]; exact ⟨h2, by unfold right; omega⟩

theorem heapifyAux_frame (fuel i size : Nat) (q : minPQ K V) :
    Frame q (heapifyAux fuel i size q) ∧ (heapifyAux fuel i size q).indexOf = q.indexOf := by
  induction fuel generalizing i q with
  | zero => exact ⟨Frame.reflF q, rfl⟩
  | succ fuel ih =>
    unfold heapifyAux
    simp only
    obtain ⟨f1, f2, f3⟩ := heapifyReads_frame i size q
    split
    · obtain ⟨g1, g2⟩ := ih (smallestOf i size q)
        { heapifyReads i size q with
          arr := swapArr (heapifyReads i size q).arr i (smallestOf i size q) }
      refine ⟨f1.transF (Frame.transF ?_ g1), ?_⟩
      · exact ⟨rfl, rfl, fun _ _ h => h, fun _ h => h⟩
      · rw [g2]; exact f2
    · exact ⟨f1, f2⟩

theorem heapifyAux_bounded {S : V → Prop} {m : Nat} (fuel i size : Nat) (q : minPQ K V)
    (hs : size ≤ m) (h : Bounded S m q) : Bounded S m (heapifyAux fuel i size q) := by
  induction fuel generalizing i q with
  | zero => exact h
  | succ fuel ih =>
    unfold heapifyAux
    simp only
    obtain ⟨f1, f2, f3⟩ := heapifyReads_frame i size q
    have hb : Bounded S m (heapifyReads i size q) := ⟨by rw [f2]; exact h.idx, by rw [f3]; exact h.arr⟩
    split
    · rename_i hne
      have hlt := smallestOf_lt hne
      apply ih
      exact ⟨hb.idx, swapArr_mem hb.arr (by omega) (by omega)⟩
    · exact hb

end minPQ

namespace minPQ

variable {K V : Type} [DecidableEq V] [LinearOrder K] [Zero K]

theorem pop_of_ne {q : minPQ K V} (h : q.numElements ≠ 0) :
    pop q = (.ret (q.keyOf.read (q.arr 0), q.arr 0),
      heapify 0 (q.numElements - 1)
        { q with
          arr := setArr q.arr 0 (q.arr (q.numElements - 1))
          indexOf := ((q.indexOf.set (q.arr (q.numElements - 1)) 0).erase (q.arr 0))
          keyOf := ((q.keyOf.touch (q.arr 0)).erase (q.arr 0))
          numElements := q.numElements - 1 }) := by
  unfold pop
  rw [if_neg h]
  simp [setArr]

theorem pop_of_eq {q : minPQ K V} (h : q.numElements = 0) :
    pop q = (.throw .queueEmpty, q) := by
  unfold pop
  rw [if_pos h]

/-- What `pop` leaves alone on a non-empty queue. -/
theorem pop_frame {S : V → Prop} {m : Nat} {q : minPQ K V} (hne : q.numElements ≠ 0)
    (hle : q.numElements ≤ m) (hb : Bounded S m q) :
    Bounded S m (pop q).2 ∧ (pop q).2.numElements = q.numElements - 1 ∧
      (pop q).2.capacity = q.capacity ∧
      (∀ x k, x ≠ q.arr 0 → q.keyOf x = some k → (pop q).2.keyOf x = some k) ∧
      (∀ x, x ≠ q.arr 0 → (q.indexOf x).isSome = true → ((pop q).2.indexOf x).isSome = true) := by
  rw [pop_of_ne hne]
  simp only
  unfold heapify
  have hpos : 0 < m := by omega
  refine ⟨?_, ?_, ?_, ?_, ?_⟩
  · apply heapifyAux_bounded _ _ _ _ (by omega)
    constructor
    · intro x j hx
      have hx := HMap.erase_eq_some hx
      rcases HMap.set_eq_some hx with ⟨_, rfl⟩ | hx
      · exact hpos
      · exact hb.idx x j hx
    · intro j hj
      show S (setArr q.arr 0 (q.arr (q.numElements - 1)) j)
      unfold setArr
      split
      · exact hb.arr _ (by omega)
      · exact hb.arr _ hj
  · exact (heapifyAux_frame _ _ _ _).1.num
  · exact (heapifyAux_frame _ _ _ _).1.cap
  · intro x k hx hk
    apply (heapifyAux_frame _ _ _ _).1.key
    show ((q.keyOf.touch (q.arr 0)).erase (q.arr 0)) x = some k
    rw [HMap.erase_of_ne _ hx]
    exact HMap.touch_of_some _ hk
  · intro x hx hk
    apply (heapifyAux_frame _ _ _ _).1.idx
    show (((q.indexOf.set (q.arr (q.numElements - 1)) 0).erase (q.arr 0)) x).isSome = true
    rw [HMap.erase_of_ne _ hx]
    exact HMap.set_isSome _ _ hk

theorem updateKey_of_ok (newKey : K) (value : V) (q : minPQ K V) (i : Nat)
    (h1 : q.keyOf.contains value = true) (h2 : ¬ newKey > q.keyOf.read value)
    (h3 : q.indexOf value = some i) :
    updateKey newKey value q =
      (.ret (), siftUp i { q with keyOf := q.keyOf.set value newKey }) := by
  unfold updateKey
  rw [if_neg (by simp [h1]), if_neg h2, h3]

/-- What `updateKey` leaves alone, whatever its outcome. -/
theorem updateKey_frame {S : V → Prop} {m : Nat} (newKey : K) (value : V) {q : minPQ K V}
    (hb : Bounded S m q) :
    Bounded S m (updateKey newKey value q).2 ∧
      (updateKey newKey value q).2.numElements = q.numElements ∧
      (updateKey newKey value q).2.capacity = q.capacity ∧
      (∀ x k, x ≠ value → q.keyOf x = some k → (updateKey newKey value q).2.keyOf x = some k) ∧
      (∀ x, (q.indexOf x).isSome = true → ((updateKey newKey value q).2.indexOf x).isSome = true) ∧
      ((updateKey newKey value q).1 = .ret () →
        (updateKey newKey value q).2.keyOf value = some newKey) := by
  unfold updateKey
  split
  · exact ⟨hb, rfl, rfl, fun _ _ _ h => h, fun _ h => h, fun h => by cases h⟩
  · split
    · exact ⟨hb, rfl, rfl, fun _ _ _ h => h, fun _ h => h, fun h => by cases h⟩
    · split
      · rename_i i hi
        simp only
        unfold siftUp
        have hf := siftUpAux_frame (i + 1) i { q with keyOf := q.keyOf.set value newKey }
        refine ⟨?_, hf.num, hf.cap, ?_, ?_, ?_⟩
        · exact siftUpAux_bounded _ _ _ (hb.idx _ _ hi) ⟨hb.idx, hb.arr⟩
        · intro x k hx hk
          apply hf.key
          show q.keyOf.set value newKey x = some k
          rw [HMap.set_of_ne _ _ hx]; exact hk
        · intro x hx
          exact hf.idx x hx
        · intro _
          apply hf.key
          exact HMap.set_self _ _ _
      · refine ⟨⟨hb.idx, hb.arr⟩, rfl, rfl, ?_, fun _ h => h, fun h => by cases h⟩
        intro x k hx hk
        show q.keyOf.set value newKey x = some k
        rw [HMap.set_of_ne _ _ hx]; exact hk

/-- The effect of `insert` below the capacity. -/
theorem insert_frame {S : V → Prop} {m : Nat} (key : K) (value : V) {q : minPQ K V}
    (hb : Bounded S m q) (hn : q.numElements = m) (hc : m < q.capacity) (hS : S value) :
    (insert key value q).1 = .ret () ∧ Bounded S (m + 1) (insert key value q).2 ∧
      (insert key value q).2.numElements = m + 1 ∧
      (insert key value q).2.capacity = q.capacity ∧
      (insert key value q).2.keyOf value = some key ∧
      ((insert key value q).2.indexOf value).isSome = true ∧
      (∀ x k, x ≠ value → q.keyOf x = some k → (insert key value q).2.keyOf x = some k) ∧
      (∀ x, (q.indexOf x).isSome = true → ((insert key value q).2.indexOf x).isSome = true) := by
  unfold insert
  rw [if_neg (by omega)]
  simp only
  unfold siftUp
  have hf := siftUpAux_frame (q.numElements + 1) q.numElements
    { q with
      arr := setArr q.arr q.numElements value
      keyOf := q.keyOf.set value key
      indexOf := q.indexOf.set value q.numElements
      numElements := q.numElements + 1 }
  refine ⟨trivial, ?_, ?_, hf.cap, ?_, ?_, ?_, ?_⟩
  · apply siftUpAux_bounded _ _ _ (by omega)
    constructor
    · intro x j hx
      rcases HMap.set_eq_some hx with ⟨_, rfl⟩ | hx
      · omega
      · have := hb.idx x j hx; omega
    · intro j hj
      show S (setArr q.arr q.numElements value j)
      unfold setArr
      split
      · exact hS
      · exact hb.arr j (by omega)
  · rw [hf.num]; simp only; omega
  · apply hf.key; exact HMap.set_self _ _ _
  · apply hf.idx; show ((q.indexOf.set value q.numElements) value).isSome = true
    rw [HMap.set_self]; rfl
  · intro x k hx hk
    apply hf.key
    show q.keyOf.set value key x = some k
    rw [HMap.set_of_ne _ _ hx]; exact hk
  · intro x hx
    apply hf.idx
    exact HMap.set_isSome _ _ hx

end minPQ

/-! ## Invariants of a run of `Dijkstra` -/

namespace Vertex

variable {T D : Type}

theorem setVisited_self (b : Bool) (p : Nat) (mem : Store T D) :
    (setVisited b p mem p).visited = b ∧ (setVisited b p mem p).distance = (mem p).distance ∧
      (setVisited b p mem p).parent = (mem p).parent := by
  unfold setVisited; simp

theorem setVisited_of_ne (b : Bool) {p x : Nat} (mem : Store T D) (h : x ≠ p) :
    setVisited b p mem x = mem x := by
  unfold setVisited; simp [h]

theorem setDistance_self (d : D) (p : Nat) (mem : Store T D) :
    (setDistance d p mem p).distance = d ∧ (setDistance d p mem p).visited = (mem p).visited ∧
      (setDistance d p mem p).parent = (mem p).parent := by
  unfold setDistance; simp

theorem setDistance_of_ne (d : D) {p x : Nat} (mem : Store T D) (h : x ≠ p) :
    setDistance d p mem x = mem x := by
  unfold setDistance; simp [h]

theorem setParent_self (q : Option Nat) (p : Nat) (mem : Store T D) :
    (setParent q p mem p).parent = q ∧ (setParent q p mem p).visited = (mem p).visited ∧
      (setParent q p mem p).distance = (mem p).distance := by
  unfold setParent; simp

theorem setParent_of_ne (q : Option Nat) {p x : Nat} (mem : Store T D) (h : x ≠ p) :
    setParent q p mem x = mem x := by
  unfold setParent; simp [h]

/-- The fields of the relaxed neighbour after `setDistance` and `setParent`. -/
theorem relaxed_self (alt : D) (u nbr : Nat) (mem : Store T D) :
    (setParent (some u) nbr (setDistance alt nbr mem) nbr).distance = alt ∧
      (setParent (some u) nbr (setDistance alt nbr mem) nbr).parent = some u ∧
      (setParent (some u) nbr (setDistance alt nbr mem) nbr).visited = (mem nbr).visited := by
  refine ⟨?_, ?_, ?_⟩
  · rw [(setParent_self _ _ _).2.2, (setDistance_self _ _ _).1]
  · exact (setParent_self _ _ _).1
  · rw [(setParent_self _ _ _).2.1, (setDistance_self _ _ _).2.1]

theorem relaxed_of_ne (alt : D) (u : Nat) {nbr x : Nat} (mem : Store T D) (h : x ≠ nbr) :
    setParent (some u) nbr (setDistance alt nbr mem) x = mem x := by
  rw [setParent_of_ne _ _ h, setDistance_of_ne _ _ h]

end Vertex

namespace DirectedGraph

open Vertex

variable {T D : Type} [DecidableEq T] [LinearOrderedAddCommMonoidWithTop D]

theorem memInv_relaxed {mem0 : Store T D} {s : Nat} {vs : List Nat} {mem : Store T D}
    {u nbr : Nat} {w alt : D} {nm : String} (h : MemInv mem0 s vs mem) (hu : Reach mem0 s u)
    (he : (nbr, w, nm) ∈ (mem0 u).adjacencyList) (hlt : alt < (mem nbr).distance) :
    MemInv mem0 s vs (setParent (some u) nbr (setDistance alt nbr mem)) := by
  constructor
  · exact (h.same.transG (sameGraph_setDistance alt nbr mem)).transG (sameGraph_setParent _ _ _)
  · intro x hx hd
    by_cases hxn : x = nbr
    · subst hxn; exact Reach.step hu he
    · rw [relaxed_of_ne _ _ _ hxn] at hd; exact h.reach x hx hd
  · intro x hx hp
    by_cases hxn : x = nbr
    · subst hxn
      rw [(relaxed_self alt u x mem).1]
      exact ne_top_of_lt hlt
    · rw [relaxed_of_ne _ _ _ hxn] at hp ⊢; exact h.par x hx hp

theorem relax_inv {mem0 : Store T D} {s : Nat} {vs : List Nat} {m : Nat} (du : D) {u : Nat}
    (hu : Reach mem0 s u) (es : List (Nat × D × String))
    (hes : ∀ e, e ∈ es → e ∈ (mem0 u).adjacencyList)
    (st : Store T D × minPQ D Nat) (h : LoopInv mem0 s vs m st) :
    MemInv mem0 s vs (relax du u es st).2.1 ∧
      ((relax du u es st).1 = .ret () → LoopInv mem0 s vs m (relax du u es st).2) ∧
      ((∀ e, e ∈ es → e.1 ∈ vs) → (relax du u es st).1 = .ret ()) := by
  induction es generalizing st with
  | nil => exact ⟨h.mem, fun _ => h, fun _ => rfl⟩
  | cons ed es ih =>
    obtain ⟨nbr, w, nm⟩ := ed
    obtain ⟨mem, pq⟩ := st
    have hes' : ∀ e, e ∈ es → e ∈ (mem0 u).adjacencyList :=
      fun e he => hes e (List.mem_cons_of_mem _ he)
    have hown' : (∀ e, e ∈ (nbr, w, nm) :: es → e.1 ∈ vs) → ∀ e, e ∈ es → e.1 ∈ vs :=
      fun ho e he => ho e (List.mem_cons_of_mem _ he)
    have hrec := ih hes' (mem, pq) h
    unfold relax
    by_cases hv : (mem nbr).visited = false
    · rw [if_pos hv]
      simp only
      by_cases hlt : du + w < (mem nbr).distance
      · rw [if_pos hlt]
        have hM1 := memInv_relaxed h.mem hu (hes _ (List.mem_cons_self _ _)) hlt
        obtain ⟨f1, f2, f3, f4, f5, f6⟩ :=
          minPQ.updateKey_frame (du + w) nbr h.bnd
        cases hk : minPQ.updateKey (du + w) nbr pq with
        | mk o pq1 =>
          rw [hk] at f1 f2 f3 f4 f5 f6
          simp only at f1 f2 f3 f4 f5 f6
          cases o with
          | ret a =>
            simp only
            have hL : LoopInv mem0 s vs m
                (setParent (some u) nbr (setDistance (du + w) nbr mem), pq1) := by
              constructor
              · exact hM1
              · exact f1
              · show pq1.numElements ≤ m
                rw [f2]; exact h.num
              · intro x hx hxv
                by_cases hxn : x = nbr
                · subst hxn
                  refine ⟨?_, f5 x (h.queued x hx hv).2⟩
                  show pq1.keyOf x = some _
                  rw [(relaxed_self (du + w) u x mem).1]
                  exact f6 rfl
                · simp only [relaxed_of_ne _ _ _ hxn] at hxv ⊢
                  obtain ⟨g1, g2⟩ := h.queued x hx hxv
                  exact ⟨f4 x _ hxn g1, f5 x g2⟩
            obtain ⟨r1, r2, r3⟩ := ih hes' _ hL
            exact ⟨r1, r2, fun ho => r3 (hown' ho)⟩
          | throw e =>
            simp only
            refine ⟨hM1, (fun hc => by cases hc), fun ho => ?_⟩
            exfalso
            have hn : nbr ∈ vs := ho (nbr, w, nm) (List.mem_cons_self _ _)
            obtain ⟨g1, g2⟩ := h.queued nbr hn hv
            simp only at g1 g2
            obtain ⟨i, hi⟩ := Option.isSome_iff_exists.mp g2
            have hok := minPQ.updateKey_of_ok (du + w) nbr pq i
              (by unfold HMap.contains; rw [g1]; rfl)
              (by rw [HMap.read_of_some g1]; exact not_lt.mpr (le_of_lt hlt)) hi
            rw [hok] at hk
            cases hk
      · rw [if_neg hlt]
        exact ⟨hrec.1, hrec.2.1, fun ho => hrec.2.2 (hown' ho)⟩
    · rw [if_neg hv]
      exact ⟨hrec.1, hrec.2.1, fun ho => hrec.2.2 (hown' ho)⟩

end DirectedGraph

namespace DirectedGraph

open Vertex

variable {T D : Type} [DecidableEq T] [LinearOrderedAddCommMonoidWithTop D]

theorem memInv_setVisited {mem0 : Store T D} {s : Nat} {vs : List Nat} {mem : Store T D}
    (u : Nat) (h : MemInv mem0 s vs mem) : MemInv mem0 s vs (setVisited true u mem) := by
  have hd : ∀ x, (setVisited true u mem x).distance = (mem x).distance ∧
      (setVisited true u mem x).parent = (mem x).parent := by
    intro x
    by_cases hx : x = u
    · subst hx; exact ⟨(setVisited_self _ _ _).2.1, (setVisited_self _ _ _).2.2⟩
    · rw [setVisited_of_ne _ _ hx]; exact ⟨rfl, rfl⟩
  constructor
  · exact h.same.transG (sameGraph_setVisited true u mem)
  · intro x hx hdx
    rw [(hd x).1] at hdx; exact h.reach x hx hdx
  · intro x hx hp
    rw [(hd x).2] at hp; rw [(hd x).1]; exact h.par x hx hp

/-- One extraction keeps the loop invariant for the vertices still unvisited. -/
theorem loopInv_pop {mem0 : Store T D} {s : Nat} {vs : List Nat} {m : Nat}
    {mem mem1 : Store T D} {pq : minPQ D Nat} (h : LoopInv mem0 s vs m (mem, pq))
    (hne : pq.numElements ≠ 0) (hM : MemInv mem0 s vs mem1)
    (hv : ∀ x, (mem1 x).visited = false → x ≠ pq.arr 0 ∧ mem1 x = mem x) :
    LoopInv mem0 s vs m (mem1, (minPQ.pop pq).2) := by
  obtain ⟨f1, f2, f3, f4, f5⟩ := minPQ.pop_frame hne h.num h.bnd
  constructor
  · exact hM
  · exact f1
  · show (minPQ.pop pq).2.numElements ≤ m
    rw [f2]; have := h.num; simp only at this; omega
  · intro x hx hxv
    obtain ⟨g1, g2⟩ := hv x hxv
    simp only [g2] at hxv ⊢
    obtain ⟨k1, k2⟩ := h.queued x hx hxv
    exact ⟨f4 x _ g1 k1, f5 x g1 k2⟩

theorem dijkstraLoop_inv {mem0 : Store T D} {s : Nat} {vs : List Nat} {m : Nat} (fuel : Nat)
    (st : Store T D × minPQ D Nat) (h : LoopInv mem0 s vs m st) :
    MemInv mem0 s vs (dijkstraLoop fuel st).2.1 ∧
      (TargetsOwned mem0 vs → (dijkstraLoop fuel st).1 = .ret ()) := by
  induction fuel generalizing st with
  | zero => exact ⟨h.mem, fun _ => rfl⟩
  | succ fuel ih =>
    obtain ⟨mem, pq⟩ := st
    unfold dijkstraLoop
    by_cases he : pq.empty = true
    · rw [if_pos he]; exact ⟨h.mem, fun _ => rfl⟩
    · rw [if_neg he]
      have hne : pq.numElements ≠ 0 := by
        intro h0; apply he; unfold minPQ.empty; simp [h0]
      have hpop := minPQ.pop_of_ne hne
      have hpq1 : (minPQ.pop pq).2 = _ := congrArg Prod.snd hpop
      simp only at hpq1
      rw [hpop, ← hpq1]
      simp only
      have hm : 0 < m := by have := h.num; simp only at this; omega
      have huvs : pq.arr 0 ∈ vs := h.bnd.arr 0 hm
      by_cases hdu : pq.keyOf.read (pq.arr 0) = ⊤
      · rw [if_pos hdu]; exact ⟨h.mem, fun _ => rfl⟩
      · rw [if_neg hdu]
        by_cases hvis : (mem (pq.arr 0)).visited = true
        · rw [if_pos hvis]
          apply ih
          apply loopInv_pop h hne h.mem
          intro x hx
          refine ⟨?_, rfl⟩
          intro hxu; rw [hxu, hvis] at hx; cases hx
        · rw [if_neg hvis]
          have hvf : (mem (pq.arr 0)).visited = false := by
            cases hb : (mem (pq.arr 0)).visited with
            | true => exact absurd hb hvis
            | false => rfl
          have hL : LoopInv mem0 s vs m
              (setVisited true (pq.arr 0) mem, (minPQ.pop pq).2) := by
            apply loopInv_pop h hne (memInv_setVisited _ h.mem)
            intro x hx
            have hxu : x ≠ pq.arr 0 := by
              intro hxu; rw [hxu, (setVisited_self _ _ _).1] at hx; cases hx
            exact ⟨hxu, setVisited_of_ne _ _ hxu⟩
          have hkey := (h.queued _ huvs hvf).1
          simp only at hkey
          have hreach : Reach mem0 s (pq.arr 0) := by
            apply h.mem.reach _ huvs
            rw [HMap.read_of_some hkey] at hdu
            exact hdu
          have hadj : (setVisited true (pq.arr 0) mem (pq.arr 0)).adjacencyList
              = (mem0 (pq.arr 0)).adjacencyList :=
            (hL.mem.same (pq.arr 0)).2
          obtain ⟨r1, r2, r3⟩ := relax_inv (pq.keyOf.read (pq.arr 0)) hreach
            (setVisited true (pq.arr 0) mem (pq.arr 0)).adjacencyList
            (fun e he => by rw [hadj] at he; exact he) _ hL
          cases hr : relax (pq.keyOf.read (pq.arr 0)) (pq.arr 0)
              (setVisited true (pq.arr 0) mem (pq.arr 0)).adjacencyList
              (setVisited true (pq.arr 0) mem, (minPQ.pop pq).2) with
          | mk o s2 =>
            rw [hr] at r1 r2 r3
            cases o with
            | throw e =>
              simp only
              refine ⟨r1, fun ho => ?_⟩
              have := r3 (fun e he => ho _ huvs e (by rw [hadj] at he; exact he))
              cases this
            | ret a =>
              simp only
              exact ih s2 (r2 rfl)

end DirectedGraph

namespace DirectedGraph

open Vertex

variable {T D : Type} [DecidableEq T] [LinearOrderedAddCommMonoidWithTop D]

theorem resetAll_of_not_mem (vs : List Nat) (mem : Store T D) (x : Nat) (h : x ∉ vs) :
    resetAll vs mem x = mem x := by
  induction vs generalizing mem with
  | nil => rfl
  | cons v vs ih =>
    unfold resetAll
    have hxv : x ≠ v := fun e => h (by rw [e]; exact List.mem_cons_self _ _)
    rw [ih _ (fun hm => h (List.mem_cons_of_mem _ hm)), setVisited_of_ne _ _ hxv,
      setParent_of_ne _ _ hxv, setDistance_of_ne _ _ hxv]

/-- After the reset loop every owned vertex is unvisited, without parent and at
distance `+infinity`. -/
theorem resetAll_of_mem (vs : List Nat) (mem : Store T D) (x : Nat) (h : x ∈ vs) :
    (resetAll vs mem x).visited = false ∧ (resetAll vs mem x).parent = none ∧
      (resetAll vs mem x).distance = ⊤ := by
  induction vs generalizing mem with
  | nil => cases h
  | cons v vs ih =>
    unfold resetAll
    by_cases hx : x ∈ vs
    · exact ih _ hx
    · have hxv : x = v := by
        rcases List.mem_cons.mp h with h1 | h1
        · exact h1
        · exact absurd h1 hx
      subst hxv
      rw [resetAll_of_not_mem _ _ _ hx]
      refine ⟨(setVisited_self _ _ _).1, ?_, ?_⟩
      · rw [(setVisited_self _ _ _).2.2, (setParent_self _ _ _).1]
      · rw [(setVisited_self _ _ _).2.1, (setParent_self _ _ _).2.2, (setDistance_self _ _ _).1]

/-- The insertion loop below the capacity: nothing is thrown, every inserted
vertex is recorded in both maps with its distance as key. -/
theorem insertAll_spec {S : Nat → Prop} (mem : Store T D) (vs : List Nat) (m : Nat)
    (pq : minPQ D Nat) (hb : minPQ.Bounded S m pq) (hn : pq.numElements = m)
    (hc : m + vs.length ≤ pq.capacity) (hS : ∀ v, v ∈ vs → S v) :
    (insertAll mem vs pq).1 = .ret () ∧
      minPQ.Bounded S (m + vs.length) (insertAll mem vs pq).2 ∧
      (insertAll mem vs pq).2.numElements = m + vs.length ∧
      (∀ v, v ∈ vs → (insertAll mem vs pq).2.keyOf v = some (mem v).distance ∧
        ((insertAll mem vs pq).2.indexOf v).isSome = true) ∧
      (∀ x k, x ∉ vs → pq.keyOf x = some k → (insertAll mem vs pq).2.keyOf x = some k) ∧
      (∀ x, (pq.indexOf x).isSome = true → ((insertAll mem vs pq).2.indexOf x).isSome = true) := by
  induction vs generalizing m pq with
  | nil =>
    refine ⟨rfl, hb, hn, ?_, fun _ _ _ h => h, fun _ h => h⟩
    intro v hv; cases hv
  | cons v vs ih =>
    simp only [List.length_cons] at hc ⊢
    obtain ⟨f1, f2, f3, f4, f5, f6, f7, f8⟩ :=
      minPQ.insert_frame (mem v).distance v hb hn (by omega) (hS v (List.mem_cons_self _ _))
    unfold insertAll
    cases hi : minPQ.insert (mem v).distance v pq with
    | mk o pq1 =>
      rw [hi] at f1 f2 f3 f4 f5 f6 f7 f8
      simp only at f1 f2 f3 f4 f5 f6 f7 f8
      subst f1
      simp only
      obtain ⟨g1, g2, g3, g4, g5, g6⟩ := ih (m + 1) pq1 f2 f3 (by rw [f4]; omega)
        (fun x hx => hS x (List.mem_cons_of_mem _ hx))
      have harith : m + 1 + vs.length = m + (vs.length + 1) := by omega
      rw [harith] at g2 g3
      refine ⟨g1, g2, g3, ?_, ?_, ?_⟩
      · intro x hx
        by_cases hxs : x ∈ vs
        · exact g4 x hxs
        · have hxv : x = v := by
            rcases List.mem_cons.mp hx with h1 | h1
            · exact h1
            · exact absurd h1 hxs
          subst hxv
          exact ⟨g5 x _ hxs f5, g6 x f6⟩
      · intro x k hx hk
        have hxv : x ≠ v := fun e => hx (by rw [e]; exact List.mem_cons_self _ _)
        exact g5 x k (fun hm => hx (List.mem_cons_of_mem _ hm)) (f7 x k hxv hk)
      · intro x hx
        exact g6 x (f8 x hx)

theorem bounded_new (S : Nat → Prop) (capacity : Nat) :
    minPQ.Bounded S 0 (minPQ.new capacity : minPQ D Nat) := by
  constructor
  · intro x j h; cases h
  · intro j hj; omega

/-- The state in which the main loop of `Dijkstra` starts satisfies the loop
invariant, and the insertion loop has thrown nothing. -/
theorem loopInv_init (g : DirectedGraph) (mem : Store T D) (s : Nat) (hs : s ∈ g.vertices) :
    (insertAll (setDistance 0 s (resetAll g.vertices mem)) g.vertices
        (minPQ.new g.vertices.length)).1 = .ret () ∧
      LoopInv mem s g.vertices g.vertices.length
        (setDistance 0 s (resetAll g.vertices mem),
          (insertAll (setDistance 0 s (resetAll g.vertices mem)) g.vertices
            (minPQ.new g.vertices.length)).2) := by
  obtain ⟨f1, f2, f3, f4, _, _⟩ := insertAll_spec (S := fun x => x ∈ g.vertices)
    (setDistance 0 s (resetAll g.vertices mem)) g.vertices 0 (minPQ.new g.vertices.length)
    (bounded_new _ _) rfl (by simp [minPQ.new]) (fun v hv => hv)
  rw [Nat.zero_add] at f2 f3
  have hM : MemInv mem s g.vertices (setDistance 0 s (resetAll g.vertices mem)) := by
    constructor
    · exact (sameGraph_resetAll g.vertices mem).transG (sameGraph_setDistance _ _ _)
    · intro x hx hd
      by_cases hxs : x = s
      · subst hxs; exact Reach.refl
      · rw [setDistance_of_ne _ _ hxs] at hd
        exact absurd (resetAll_of_mem g.vertices mem x hx).2.2 hd
    · intro x hx hp
      exfalso; apply hp
      by_cases hxs : x = s
      · subst hxs
        rw [(setDistance_self _ _ _).2.2]
        exact (resetAll_of_mem g.vertices mem x hx).2.1
      · rw [setDistance_of_ne _ _ hxs]
        exact (resetAll_of_mem g.vertices mem x hx).2.1
  refine ⟨f1, hM, f2, le_of_eq f3, ?_⟩
  · intro x hx _
    exact f4 x hx

/-- Unfolding of `Dijkstra` once the source has been found. -/
theorem Dijkstra_of_found (g : DirectedGraph) (startVertex : Nat) (mem : Store T D) (s : Nat)
    (hf : findStart startVertex (resetAll g.vertices mem) g.vertices = some s) :
    Dijkstra g startVertex mem =
      (match dijkstraLoop g.vertices.length
          (setDistance 0 s (resetAll g.vertices mem),
            (insertAll (setDistance 0 s (resetAll g.vertices mem)) g.vertices
              (minPQ.new g.vertices.length)).2) with
        | (.throw e, (mem3, _)) => (.throw e, mem3)
        | (.ret _, (mem3, _)) => (.ret (collect mem3 g.vertices []), mem3)) := by
  obtain ⟨f1, f2⟩ := loopInv_init g mem s (findStart_mem hf)
  have hnum : (insertAll (setDistance 0 s (resetAll g.vertices mem)) g.vertices
      (minPQ.new g.vertices.length)).2.numElements = g.vertices.length := by
    obtain ⟨_, _, f3, _⟩ := insertAll_spec (S := fun x => x ∈ g.vertices)
      (setDistance 0 s (resetAll g.vertices mem)) g.vertices 0 (minPQ.new g.vertices.length)
      (bounded_new _ _) rfl (by simp [minPQ.new]) (fun v hv => hv)
    rw [f3, Nat.zero_add]
  unfold Dijkstra
  simp only [hf]
  cases hi : insertAll (setDistance 0 s (resetAll g.vertices mem)) g.vertices
      (minPQ.new g.vertices.length) with
  | mk o pq =>
    rw [hi] at f1 hnum
    simp only at f1 hnum
    subst f1
    simp only [hnum]

/-- The fields invariant holds in the store that `Dijkstra` leaves, and with
owned edge targets `Dijkstra` returns its list. -/
theorem Dijkstra_inv (g : DirectedGraph) (startVertex : Nat) (mem : Store T D) (s : Nat)
    (hf : findStart startVertex (resetAll g.vertices mem) g.vertices = some s) :
    MemInv mem s g.vertices (Dijkstra g startVertex mem).2 ∧
      (TargetsOwned mem g.vertices →
        (Dijkstra g startVertex mem).1 =
          .ret (collect (Dijkstra g startVertex mem).2 g.vertices [])) := by
  obtain ⟨f1, f2⟩ := loopInv_init g mem s (findStart_mem hf)
  obtain ⟨r1, r2⟩ := dijkstraLoop_inv g.vertices.length _ f2
  rw [Dijkstra_of_found g startVertex mem s hf]
  cases hl : dijkstraLoop g.vertices.length
      (setDistance 0 s (resetAll g.vertices mem),
        (insertAll (setDistance 0 s (resetAll g.vertices mem)) g.vertices
          (minPQ.new g.vertices.length)).2) with
  | mk o st =>
    obtain ⟨mem3, pq3⟩ := st
    rw [hl] at r1 r2
    cases o with
    | throw e =>
      simp only
      refine ⟨r1, fun ho => ?_⟩
      have := r2 ho
      cases this
    | ret a =>
      exact ⟨r1, fun _ => rfl⟩

end DirectedGraph

namespace DirectedGraph

open Vertex

variable {T D : Type} [DecidableEq T] [LinearOrderedAddCommMonoidWithTop D]

theorem findStart_sameGraph {mem mem' : Store T D} (h : SameGraph mem mem') (startVertex : Nat)
    (vs : List Nat) : findStart startVertex mem' vs = findStart startVertex mem vs := by
  induction vs with
  | nil => rfl
  | cons v vs ih =>
    unfold findStart
    rw [(h v).1, (h startVertex).1, ih]

theorem findStart_resetAll (g : DirectedGraph) (startVertex : Nat) (mem : Store T D) :
    findStart startVertex (resetAll g.vertices mem) g.vertices
      = findStart startVertex mem g.vertices :=
  findStart_sameGraph (sameGraph_resetAll g.vertices mem) startVertex g.vertices

theorem Dijkstra_of_not_found (g : DirectedGraph) (startVertex : Nat) (mem : Store T D)
    (hf : findStart startVertex mem g.vertices = none) :
    Dijkstra g startVertex mem = (.throw .startNotFound, resetAll g.vertices mem) := by
  unfold Dijkstra
  simp only [findStart_resetAll, hf]

/-- Whatever `Dijkstra` throws after it has found its source is a queue error. -/
theorem Dijkstra_throw_of_found (g : DirectedGraph) (startVertex : Nat) (mem : Store T D)
    (s : Nat) (hf : findStart startVertex mem g.vertices = some s) (e : Exn)
    (h : (Dijkstra g startVertex mem).1 = .throw e) : e.isQueueError = true := by
  rw [Dijkstra_of_found g startVertex mem s (by rw [findStart_resetAll]; exact hf)] at h
  cases hl : dijkstraLoop g.vertices.length
      (setDistance 0 s (resetAll g.vertices mem),
        (insertAll (setDistance 0 s (resetAll g.vertices mem)) g.vertices
          (minPQ.new g.vertices.length)).2) with
  | mk o st =>
    obtain ⟨mem3, pq3⟩ := st
    rw [hl] at h
    cases o with
    | throw e1 =>
      simp only [Outcome.throw.injEq] at h
      subst h
      exact dijkstraLoop_throw (by rw [hl])
    | ret a => simp only at h; cases h

/-- The list that `Dijkstra` returns pairs every owned vertex, in order, with
the distance field it has in the store left by the call. -/
theorem Dijkstra_ret (g : DirectedGraph) (startVertex : Nat) (mem : Store T D)
    (out : DoublyLinkedList (Nat × D)) (h : (Dijkstra g startVertex mem).1 = .ret out) :
    out = g.vertices.map (fun v => (v, ((Dijkstra g startVertex mem).2 v).distance)) := by
  cases hf : findStart startVertex mem g.vertices with
  | none => rw [Dijkstra_of_not_found g startVertex mem hf] at h; cases h
  | some s =>
    rw [Dijkstra_of_found g startVertex mem s (by rw [findStart_resetAll]; exact hf)] at h ⊢
    cases hl : dijkstraLoop g.vertices.length
        (setDistance 0 s (resetAll g.vertices mem),
          (insertAll (setDistance 0 s (resetAll g.vertices mem)) g.vertices
            (minPQ.new g.vertices.length)).2) with
    | mk o st =>
      obtain ⟨mem3, pq3⟩ := st
      rw [hl] at h
      cases o with
      | throw e1 => simp only at h; cases h
      | ret a =>
        simp only [Outcome.ret.injEq] at h ⊢
        rw [← h, collect_eq]
        simp

end DirectedGraph

/-! ## The claims about `Dijkstra` -/

namespace Vertex

variable {T D : Type}

/-- A set of vertices that contains `s` and is closed under edges contains
everything reachable from `s`. -/
theorem Reach.closed {mem : Store T D} {s v : Nat} (P : Nat → Prop) (hs : P s)
    (hc : ∀ u, P u → ∀ e, e ∈ (mem u).adjacencyList → P e.1) (h : Reach mem s v) : P v := by
  induction h with
  | refl => exact hs
  | step _ he ih => exact hc _ ih _ he

end Vertex

namespace DirectedGraph

open Vertex

variable {T D : Type} [DecidableEq T] [LinearOrderedAddCommMonoidWithTop D]

/-- C2, as amended: for every graph and every start vertex matched in it, with `s`
the source actually used (the first owned vertex that is `startVertex` itself or
has its value), in the store left by `Dijkstra(startVertex)` -- whether it
returned or threw -- every owned vertex that is not reachable from `s` along
edges has distance `+infinity` and no parent. -/
theorem C2_unreachable_from_source (g : DirectedGraph) (startVertex : Nat) (mem : Store T D)
    (s : Nat) (hf : findStart startVertex mem g.vertices = some s)
    (v : Nat) (hv : v ∈ g.vertices) (hnr : ¬ Reach mem s v) :
    ((Dijkstra g startVertex mem).2 v).distance = ⊤ ∧
      ((Dijkstra g startVertex mem).2 v).parent = none := by
  have hM := (Dijkstra_inv g startVertex mem s (by rw [findStart_resetAll]; exact hf)).1
  have hd : ((Dijkstra g startVertex mem).2 v).distance = ⊤ := by
    by_contra hne
    exact hnr (hM.reach v hv hne)
  refine ⟨hd, ?_⟩
  by_contra hp
  exact hM.par v hv hp hd

/-- C4: for every graph whose edge targets are all owned vertices and every start
vertex matched in it, `Dijkstra` throws nothing: no `insert` overflows, no `pop`
meets an empty queue and no `updateKey` is refused, that is (`updateKey_throw_iff`)
each one is called on a value that has its entries in `keyOf` and `indexOf`, with
a key not greater than the stored one; the call returns its list. Distinctness
of the vertices and non-negative weights are not needed, and the loop of the
model is never cut short (`dijkstraLoop_fuel`). -/
theorem C4_no_queue_error (g : DirectedGraph) (startVertex : Nat) (mem : Store T D)
    (ho : TargetsOwned mem g.vertices)
    (hs : (findStart startVertex mem g.vertices).isSome = true) :
    (∃ out, (Dijkstra g startVertex mem).1 = .ret out) ∧
      ∀ e, (Dijkstra g startVertex mem).1 ≠ .throw e := by
  obtain ⟨s, hf⟩ := Option.isSome_iff_exists.mp hs
  have h := (Dijkstra_inv g startVertex mem s (by rw [findStart_resetAll]; exact hf)).2 ho
  refine ⟨⟨_, h⟩, fun e he => ?_⟩
  rw [h] at he
  cases he

/-- C5: whenever `Dijkstra` returns, its list holds exactly one pair per entry of
the vertex vector, in that order, whose second component is the distance field
of that vertex in the store left by the call; and for a matched start vertex
and owned edge targets it does return that list. -/
theorem C5_result_list (g : DirectedGraph) (startVertex : Nat) (mem : Store T D) :
    (∀ out, (Dijkstra g startVertex mem).1 = .ret out →
        out = g.vertices.map (fun v => (v, ((Dijkstra g startVertex mem).2 v).distance))) ∧
      (TargetsOwned mem g.vertices → (findStart startVertex mem g.vertices).isSome = true →
        (Dijkstra g startVertex mem).1 =
          .ret (g.vertices.map (fun v => (v, ((Dijkstra g startVertex mem).2 v).distance)))) := by
  refine ⟨fun out h => Dijkstra_ret g startVertex mem out h, fun ho hs => ?_⟩
  obtain ⟨s, hf⟩ := Option.isSome_iff_exists.mp hs
  have h := (Dijkstra_inv g startVertex mem s (by rw [findStart_resetAll]; exact hf)).2 ho
  rw [h]
  congr 1
  exact Dijkstra_ret g startVertex mem _ h

/-- C6: `Dijkstra(startVertex)` throws "Start vertex not found in the graph." if
and only if no owned vertex is `startVertex` itself or has its value; so it
throws it on every empty graph, and does not throw it for a vertex object that
is not owned but whose value equals that of an owned vertex (with owned edge
targets the call then returns its list). -/
theorem C6_start_not_found (g : DirectedGraph) (startVertex : Nat) (mem : Store T D) :
    ((Dijkstra g startVertex mem).1 = .throw .startNotFound ↔
        ∀ v, v ∈ g.vertices → v ≠ startVertex ∧ (mem v).value ≠ (mem startVertex).value) ∧
      (g.vertices = [] → (Dijkstra g startVertex mem).1 = .throw .startNotFound) ∧
      (∀ v, v ∈ g.vertices → startVertex ∉ g.vertices →
        (mem v).value = (mem startVertex).value →
        (Dijkstra g startVertex mem).1 ≠ .throw .startNotFound ∧
          (TargetsOwned mem g.vertices → ∃ out, (Dijkstra g startVertex mem).1 = .ret out)) := by
  have key : (Dijkstra g startVertex mem).1 = .throw .startNotFound ↔
      ∀ v, v ∈ g.vertices → v ≠ startVertex ∧ (mem v).value ≠ (mem startVertex).value := by
    rw [← findStart_eq_none]
    constructor
    · intro h
      cases hf : findStart startVertex mem g.vertices with
      | none => rfl
      | some s =>
        have := Dijkstra_throw_of_found g startVertex mem s hf _ h
        cases this
    · intro hf
      rw [Dijkstra_of_not_found g startVertex mem hf]
  refine ⟨key, fun he => ?_, fun v hv _ hval => ?_⟩
  · rw [key, he]; intro v hv; cases hv
  · refine ⟨fun h => ((key.mp h) v hv).2 hval, fun ho => ?_⟩
    cases hf : findStart startVertex mem g.vertices with
    | none => exact absurd hval (((findStart_eq_none startVertex mem g.vertices).mp hf) v hv).2
    | some s =>
      exact ⟨_, (Dijkstra_inv g startVertex mem s (by rw [findStart_resetAll]; exact hf)).2 ho⟩

end DirectedGraph

/-- Everything reachable from vertex 0 in `memA` is vertex 0 or vertex 1. -/
theorem memA_reach (v : Nat) (h : Vertex.Reach memA 0 v) : v = 0 ∨ v = 1 := by
  refine Vertex.Reach.closed (fun x => x = 0 ∨ x = 1) (Or.inl rfl) ?_ h
  intro u hu e he
  rcases hu with rfl | rfl
  · simp [memA, Vertex.addEdge, Vertex.new] at he
    subst he; exact Or.inr rfl
  · simp [memA, Vertex.new] at he

/-- Witness of C2 on `gA`: vertex 2 is owned and not reachable from the source 0. -/
theorem C2_unreachable_from_source_witness :
    DirectedGraph.findStart 0 memA gA.vertices = some 0 ∧ 2 ∈ gA.vertices ∧
      ¬ Vertex.Reach memA 0 2 ∧
      ((gA.Dijkstra 0 memA).2 2).distance = ⊤ ∧ ((gA.Dijkstra 0 memA).2 2).parent = none :=
  have hnr : ¬ Vertex.Reach memA 0 2 := fun h => by
    rcases memA_reach 2 h with h | h <;> cases h
  ⟨by decide, by decide, hnr,
    DirectedGraph.C2_unreachable_from_source gA 0 memA 0 (by decide) 2 (by decide) hnr⟩

/-- Everything reachable from vertex 1 in `memB` is vertex 1. -/
theorem memB_reach (v : Nat) (h : Vertex.Reach memB 1 v) : v = 1 := by
  refine Vertex.Reach.closed (fun x => x = 1) rfl ?_ h
  intro u hu e he
  subst hu
  simp [memB, Vertex.new] at he

/-- Counterexample to C2 as stated: in `gB` the start vertex 1 is owned (hence
matched), vertex 2 is not reachable from it, and yet after `Dijkstra(1)` vertex 2
has the finite distance 1 and the parent 0, because the source actually used is
vertex 0, which has the same value. -/
theorem C2_counterexample :
    1 ∈ gB.vertices ∧ (DirectedGraph.findStart 1 memB gB.vertices).isSome = true ∧
      2 ∈ gB.vertices ∧ ¬ Vertex.Reach memB 1 2 ∧
      ((gB.Dijkstra 1 memB).2 2).distance = ((1 : Nat) : WithTop Nat) ∧
      ((gB.Dijkstra 1 memB).2 2).distance ≠ ⊤ ∧
      ((gB.Dijkstra 1 memB).2 2).parent = some 0 :=
  have hnr : ¬ Vertex.Reach memB 1 2 := fun h => by cases memB_reach 2 h
  ⟨by decide, by decide, by decide, hnr, by decide, by decide, by decide⟩

/-- Witness of C4 on `gA` with start vertex 0. -/
theorem C4_no_queue_error_witness :
    DirectedGraph.TargetsOwned memA gA.vertices ∧
      (DirectedGraph.findStart 0 memA gA.vertices).isSome = true ∧
      ((∃ out, (gA.Dijkstra 0 memA).1 = .ret out) ∧ ∀ e, (gA.Dijkstra 0 memA).1 ≠ .throw e) :=
  have ho : DirectedGraph.TargetsOwned memA gA.vertices := by
    unfold DirectedGraph.TargetsOwned; decide
  ⟨ho, by decide, DirectedGraph.C4_no_queue_error gA 0 memA ho (by decide)⟩

/-- Witness of C5 on `gA` with start vertex 0: the returned list. -/
theorem C5_result_list_witness :
    (gA.Dijkstra 0 memA).1 = .ret [(0, 0), (1, 2), (2, ⊤)] ∧
      [(0, 0), (1, 2), (2, ⊤)] =
        gA.vertices.map (fun v => (v, ((gA.Dijkstra 0 memA).2 v).distance)) :=
  have h : (gA.Dijkstra 0 memA).1 = .ret [(0, 0), (1, 2), (2, ⊤)] := by decide
  ⟨h, (DirectedGraph.C5_result_list gA 0 memA).1 _ h⟩

/-- Witness of C6: in `gB` no vertex has the value of the object at address 5
(value 0), so the error is thrown; the object at address 3 is not owned but has
the value of the owned vertex 2, so the error is not thrown. -/
theorem C6_start_not_found_witness :
    (gB.Dijkstra 5 memB).1 = .throw .startNotFound ∧
      2 ∈ gB.vertices ∧ 3 ∉ gB.vertices ∧ (memB 2).value = (memB 3).value ∧
      (gB.Dijkstra 3 memB).1 ≠ .throw .startNotFound :=
  ⟨((DirectedGraph.C6_start_not_found gB 5 memB).1).mpr (by decide), by decide, by decide,
    by decide,
    ((DirectedGraph.C6_start_not_found gB 3 memB).2.2 2 (by decide) (by decide) (by decide)).1⟩

/-- C3: on the graph of test 5 (ids 0, 1, 2 in this order, edges 0 -> 1 of
weight 1.5, 1 -> 2 of weight 2.5, 2 -> 0 of weight 3.5) `Dijkstra` from vertex 0
returns the distances 0, 1.5 and 4.0, and leaves parent(1) = 0, parent(2) = 1
and parent(0) = none. -/
theorem C3_scenario :
    (gC3.Dijkstra 10 memC3).1 =
        .ret [(10, 0), (11, ((3 / 2 : ℚ) : WithTop ℚ)), (12, ((4 : ℚ) : WithTop ℚ))] ∧
      ((gC3.Dijkstra 10 memC3).2 10).distance = 0 ∧
      ((gC3.Dijkstra 10 memC3).2 11).distance = ((3 / 2 : ℚ) : WithTop ℚ) ∧
      ((gC3.Dijkstra 10 memC3).2 12).distance = ((4 : ℚ) : WithTop ℚ) ∧
      ((gC3.Dijkstra 10 memC3).2 11).parent = some 10 ∧
      ((gC3.Dijkstra 10 memC3).2 12).parent = some 11 ∧
      ((gC3.Dijkstra 10 memC3).2 10).parent = none := by
  decide!

/-- C1, the failing run: `gC1` has distinct vertices, owned edge targets and
non-negative weights, its start vertex 0 is owned, the walk 0 -> 1 -> 2 -> 3 has
total weight 4, and yet `Dijkstra` from vertex 0 reports distance 5 for vertex 3,
with parent 0. -/
theorem C1_failing_run :
    gC1.vertices.Nodup ∧ 0 ∈ gC1.vertices ∧
      DirectedGraph.TargetsOwned memC1 gC1.vertices ∧
      (∀ u, u ∈ gC1.vertices → ∀ e, e ∈ (memC1 u).adjacencyList → 0 ≤ e.2.1) ∧
      Vertex.isWalk memC1 0 [(1, 1), (2, 1), (3, 2)] = true ∧
      Vertex.walkEnd 0 [(1, (1 : WithTop Nat)), (2, 1), (3, 2)] = 3 ∧
      Vertex.walkWeight [(1, (1 : WithTop Nat)), (2, 1), (3, 2)] = 4 ∧
      (gC1.Dijkstra 0 memC1).1 = .ret [(0, 0), (1, 1), (2, 2), (3, 5)] ∧
      ((gC1.Dijkstra 0 memC1).2 3).distance = 5 ∧
      ((gC1.Dijkstra 0 memC1).2 3).parent = some 0 := by
  refine ⟨by decide, by decide, ?_, by decide, by decide, by decide, by decide, by decide,
    by decide, by decide⟩
  unfold DirectedGraph.TargetsOwned
  decide

/-- C7, the failing run: after the successful calls `insert(1,"a")`,
`insert(2,"b")`, `insert(3,"c")`, `pop`, `updateKey(0,"c")` on an empty queue of
capacity 3, popping until the queue is empty returns key 2 and then key 0. -/
theorem C7_failing_run :
    (minPQ.runOps opsC7 (minPQ.new 3)).1 = true ∧
      minPQ.drain (minPQ.runOps opsC7 (minPQ.new 3)).2 = [(2, "b"), (0, "c")] := by
  decide

/-- C10, the failing run: after the successful calls `insert(1,"a")`,
`insert(2,"b")`, `insert(3,"c")`, `pop` on an empty queue of capacity 3 the value
"b" sits in slot 0 of the array while the index map sends it to slot 1, which
holds "c". -/
theorem C10_failing_run :
    (minPQ.runOps opsC10 (minPQ.new 3)).1 = true ∧
      (minPQ.runOps opsC10 (minPQ.new 3)).2.numElements = 2 ∧
      (minPQ.runOps opsC10 (minPQ.new 3)).2.arr 0 = "b" ∧
      (minPQ.runOps opsC10 (minPQ.new 3)).2.indexOf "b" = some 1 ∧
      (minPQ.runOps opsC10 (minPQ.new 3)).2.arr 1 = "c" := by
  decide

/-- C9, the failing run: ten calls on an empty queue of capacity 6, all of which
return normally and which insert five pairwise different values, leave a queue
of two elements in which the value 5 sits in slot 0 with key 0 but has no index
entry (the index map was left stale by `heapify`). `updateKey(-1, 5)`, a call
for a value in the queue with a smaller key, then throws "Value is not in the
queue." after it has overwritten the key of 5 with -1. -/
theorem C9_failing_run :
    (minPQ.runOps opsC9 (minPQ.new 6)).1 = true ∧
      (minPQ.runOps opsC9 (minPQ.new 6)).2.numElements = 2 ∧
      (minPQ.runOps opsC9 (minPQ.new 6)).2.arr 0 = 5 ∧
      (minPQ.runOps opsC9 (minPQ.new 6)).2.keyOf 5 = some 0 ∧
      (minPQ.runOps opsC9 (minPQ.new 6)).2.indexOf 5 = none ∧
      (minPQ.updateKey (-1) 5 (minPQ.runOps opsC9 (minPQ.new 6)).2).1
        = .throw .valueNotInQueue ∧
      (minPQ.updateKey (-1) 5 (minPQ.runOps opsC9 (minPQ.new 6)).2).2.keyOf 5 = some (-1) := by
  decide

/-! ## Sift-down restores the heap -/

namespace HMap

variable {α β : Type} [DecidableEq α]

theorem touch_of_isSome [Zero β] {m : HMap α β} {a : α} (h : (m a).isSome = true) :
    m.touch a = m := by
  funext x
  unfold touch read
  by_cases hx : x = a
  · subst hx
    obtain ⟨k, hk⟩ := Option.isSome_iff_exists.mp h
    simp [hk]
  · simp [hx]

end HMap

namespace minPQ

variable {K V : Type} [DecidableEq V] [LinearOrder K] [Zero K]

theorem swapArr_left (a : Nat → V) (i j : Nat) : swapArr a i j i = a j := by
  unfold swapArr; simp

theorem swapArr_right (a : Nat → V) (i j : Nat) : swapArr a i j j = a i := by
  unfold swapArr
  by_cases h : j = i
  · subst h; simp
  · simp [h]

theorem swapArr_other (a : Nat → V) {i j k : Nat} (hi : k ≠ i) (hj : k ≠ j) :
    swapArr a i j k = a k := by
  unfold swapArr; simp [hi, hj]

theorem parent_eq_iff {i j : Nat} (hj : 0 < j) : parent j = i ↔ j = left i ∨ j = right i := by
  unfold parent left right; omega

theorem read_touch2 (q : minPQ K V) (x y z : V) :
    (touch2 q x y).keyOf.read z = q.keyOf.read z := by
  unfold touch2
  simp only [HMap.read_touch]

theorem heapifyReads_read (i size : Nat) (q : minPQ K V) (z : V) :
    (heapifyReads i size q).keyOf.read z = q.keyOf.read z := by
  unfold heapifyReads
  simp only
  split <;> split <;> simp only [read_touch2]

/-- With keys for all stored values the reads of `heapify` insert nothing. -/
theorem heapifyReads_keyOf {i size : Nat} {q : minPQ K V}
    (hk : ∀ j, j < size → (q.keyOf (q.arr j)).isSome = true) :
    (heapifyReads i size q).keyOf = q.keyOf := by
  have ht : ∀ (q' : minPQ K V) (x y : V), q'.keyOf = q.keyOf → (q.keyOf x).isSome = true →
      (q.keyOf y).isSome = true → (touch2 q' x y).keyOf = q.keyOf := by
    intro q' x y h1 hx hy
    unfold touch2
    simp only [h1]
    rw [HMap.touch_of_isSome hx, HMap.touch_of_isSome hy]
  have hil : left i < size → i < size := fun h => by unfold left at h; omega
  have hir : right i < size → i < size := fun h => by unfold right at h; omega
  have hlr : right i < size → left i < size := fun h => by unfold right at h; unfold left; omega
  unfold heapifyReads
  simp only
  by_cases h1 : left i < size
  · rw [if_pos h1]
    by_cases h2 : right i < size
    · rw [if_pos h2]
      apply ht _ _ _ (ht q _ _ rfl (hk _ h1) (hk _ (hil h1)))
      · exact hk _ h2
      · show (q.keyOf (q.arr _)).isSome = true
        apply hk
        split
        · exact h1
        · exact hil h1
    · rw [if_neg h2]
      exact ht q _ _ rfl (hk _ h1) (hk _ (hil h1))
  · rw [if_neg h1]
    by_cases h2 : right i < size
    · exact absurd (hlr h2) h1
    · rw [if_neg h2]

/-- What the two tests of `heapify` establish about `smallest`. -/
theorem smallestOf_le (i size : Nat) (q : minPQ K V) :
    q.keyOf.read (q.arr (smallestOf i size q)) ≤ q.keyOf.read (q.arr i) ∧
      (left i < size →
        q.keyOf.read (q.arr (smallestOf i size q)) ≤ q.keyOf.read (q.arr (left i))) ∧
      (right i < size →
        q.keyOf.read (q.arr (smallestOf i size q)) ≤ q.keyOf.read (q.arr (right i))) := by
  unfold smallestOf
  simp only
  by_cases h1 : left i < size ∧ q.keyOf.read (q.arr (left i)) < q.keyOf.read (q.arr i)
  · rw [if_pos h1]
    by_cases h2 : right i < size ∧
        q.keyOf.read (q.arr (right i)) < q.keyOf.read (q.arr (left i))
    · rw [if_pos h2]
      exact ⟨le_of_lt (lt_trans h2.2 h1.2), fun _ => le_of_lt h2.2, fun _ => le_rfl⟩
    · rw [if_neg h2]
      refine ⟨le_of_lt h1.2, fun _ => le_rfl, fun hr => ?_⟩
      exact not_lt.mp (fun hlt => h2 ⟨hr, hlt⟩)
  · rw [if_neg h1]
    by_cases h2 : right i < size ∧ q.keyOf.read (q.arr (right i)) < q.keyOf.read (q.arr i)
    · rw [if_pos h2]
      refine ⟨le_of_lt h2.2, fun hl => ?_, fun _ => le_rfl⟩
      exact le_trans (le_of_lt h2.2) (not_lt.mp (fun hlt => h1 ⟨hl, hlt⟩))
    · rw [if_neg h2]
      exact ⟨le_rfl, fun hl => not_lt.mp (fun hlt => h1 ⟨hl, hlt⟩),
        fun hr => not_lt.mp (fun hlt => h2 ⟨hr, hlt⟩)⟩

theorem heapAt_done {key : V → K} {a : Nat → V} {n i : Nat} (h : HeapAt key a n i)
    (hl : left i < n → key (a i) ≤ key (a (left i)))
    (hr : right i < n → key (a i) ≤ key (a (right i))) : HeapArr key a n := by
  intro j hj hjn
  by_cases hp : parent j = i
  · rcases (parent_eq_iff hj).mp hp with h1 | h1
    · rw [hp, h1]; exact hl (by rw [← h1]; exact hjn)
    · rw [hp, h1]; exact hr (by rw [← h1]; exact hjn)
  · exact h.1 j hj hjn hp

theorem heapAt_swap {key : V → K} {a : Nat → V} {n i c : Nat} (h : HeapAt key a n i)
    (hc : c = left i ∨ c = right i) (hcn : c < n)
    (hi : key (a c) ≤ key (a i))
    (hl : left i < n → key (a c) ≤ key (a (left i)))
    (hr : right i < n → key (a c) ≤ key (a (right i))) :
    HeapAt key (swapArr a i c) n c := by
  have hic : i < c := by rcases hc with h1 | h1 <;> rw [h1] <;> simp only [left, right] <;> omega
  have hc0 : 0 < c := by omega
  have hpc : parent c = i := (parent_eq_iff hc0).mpr hc
  constructor
  · intro j hj hjn hpj
    by_cases hpi : parent j = i
    · rw [hpi, swapArr_left]
      by_cases hjc : j = c
      · rw [hjc, swapArr_right]; exact hi
      · have hji : j ≠ i := by have := parent_lt hj; omega
        rw [swapArr_other a hji hjc]
        rcases (parent_eq_iff hj).mp hpi with h1 | h1
        · rw [h1]; exact hl (by rw [← h1]; exact hjn)
        · rw [h1]; exact hr (by rw [← h1]; exact hjn)
    · rw [swapArr_other a hpi hpj]
      by_cases hji : j = i
      · rw [hji, swapArr_left]
        have hi0 : 0 < i := by omega
        exact h.2 hi0 c hc0 hcn hpc
      · have hjc : j ≠ c := fun e => hpi (by rw [e]; exact hpc)
        rw [swapArr_other a hji hjc]
        exact h.1 j hj hjn hpi
  · intro _ j hj hjn hpj
    rw [hpc, swapArr_left]
    have hjc : c < j := by have := parent_lt hj; omega
    rw [swapArr_other a (by omega) (by omega)]
    have := h.1 j hj hjn (by omega)
    rw [hpj] at this
    exact this

/-- Sift-down from slot `i` turns a heap that is only broken below `i` into a
heap, given fuel for the remaining depth. -/
theorem heapifyAux_heap (key : V → K) (n fuel : Nat) (i : Nat) (q : minPQ K V)
    (hf : n ≤ i + fuel) (hk : ∀ z, q.keyOf.read z = key z) (h : HeapAt key q.arr n i) :
    HeapArr key (heapifyAux fuel i n q).arr n := by
  induction fuel generalizing i q with
  | zero =>
    apply heapAt_done h
    · intro hl; unfold left at hl; omega
    · intro hr; unfold right at hr; omega
  | succ fuel ih =>
    unfold heapifyAux
    simp only
    obtain ⟨_, _, harr⟩ := heapifyReads_frame i n q
    obtain ⟨s1, s2, s3⟩ := smallestOf_le i n q
    simp only [hk] at s1 s2 s3
    by_cases hc : smallestOf i n q ≠ i
    · rw [if_pos hc]
      have hlt := smallestOf_lt hc
      have hcase : smallestOf i n q = left i ∨ smallestOf i n q = right i := by
        rcases smallestOf_cases i n q with c1 | c1 | c1
        · exact absurd c1 hc
        · exact Or.inl c1.1
        · exact Or.inr c1.1
      apply ih
      · omega
      · intro z
        show (heapifyReads i n q).keyOf.read z = key z
        rw [heapifyReads_read, hk]
      · show HeapAt key (swapArr (heapifyReads i n q).arr i (smallestOf i n q)) n _
        rw [harr]
        exact heapAt_swap h hcase hlt.1 s1 s2 s3
    · rw [if_neg hc]
      rw [harr]
      have hc' : smallestOf i n q = i := not_not.mp hc
      rw [hc'] at s2 s3
      exact heapAt_done h s2 s3

end minPQ

namespace minPQ

variable {K V : Type} [DecidableEq V] [LinearOrder K] [Zero K]

theorem swapArr_eq (a : Nat → V) (i j k : Nat) : swapArr a i j k = a (swapIdx i j k) := by
  unfold swapArr swapIdx
  split
  · rfl
  · split <;> rfl

theorem swapIdx_lt {n i j k : Nat} (hi : i < n) (hj : j < n) (hk : k < n) :
    swapIdx i j k < n := by
  unfold swapIdx
  split
  · exact hj
  · split
    · exact hi
    · exact hk

theorem swapIdx_swapIdx (i j k : Nat) : swapIdx i j (swapIdx i j k) = k := by
  unfold swapIdx
  by_cases h1 : k = i
  · subst h1
    by_cases h2 : j = k
    · simp [h2]
    · simp [h2]
  · by_cases h2 : k = j
    · subst h2; simp [h1]
    · simp [h1, h2]

/-- A swap of two of the first `n` slots keeps the values in these slots
pairwise distinct. -/
theorem swapArr_inj {a : Nat → V} {n i j : Nat} (hi : i < n) (hj : j < n)
    (h : ∀ x y, x < n → y < n → a x = a y → x = y) :
    ∀ x y, x < n → y < n → swapArr a i j x = swapArr a i j y → x = y := by
  intro x y hx hy he
  rw [swapArr_eq, swapArr_eq] at he
  have := h _ _ (swapIdx_lt hi hj hx) (swapIdx_lt hi hj hy) he
  have h2 := congrArg (swapIdx i j) this
  rw [swapIdx_swapIdx, swapIdx_swapIdx] at h2
  exact h2

/-- A swap of two of the first `n` slots keeps the set of values in them. -/
theorem swapArr_holds {a : Nat → V} {n i j : Nat} (hi : i < n) (hj : j < n) (x : V) :
    (∃ k, k < n ∧ swapArr a i j k = x) ↔ (∃ k, k < n ∧ a k = x) := by
  constructor
  · rintro ⟨k, hk, he⟩
    exact ⟨swapIdx i j k, swapIdx_lt hi hj hk, by rw [swapArr_eq] at he; exact he⟩
  · rintro ⟨k, hk, he⟩
    exact ⟨swapIdx i j k, swapIdx_lt hi hj hk, by rw [swapArr_eq, swapIdx_swapIdx]; exact he⟩

/-- Sift-down on a queue whose stored values all have keys: no key is inserted
or changed, the stored values stay pairwise distinct and form the same set. -/
theorem heapifyAux_stored (n fuel i : Nat) (q : minPQ K V)
    (hk : ∀ j, j < n → (q.keyOf (q.arr j)).isSome = true)
    (hinj : ∀ x y, x < n → y < n → q.arr x = q.arr y → x = y) :
    (heapifyAux fuel i n q).keyOf = q.keyOf ∧
      (∀ x y, x < n → y < n → (heapifyAux fuel i n q).arr x = (heapifyAux fuel i n q).arr y →
        x = y) ∧
      (∀ v, (∃ k, k < n ∧ (heapifyAux fuel i n q).arr k = v) ↔ (∃ k, k < n ∧ q.arr k = v)) := by
  induction fuel generalizing i q with
  | zero => exact ⟨rfl, hinj, fun _ => Iff.rfl⟩
  | succ fuel ih =>
    unfold heapifyAux
    simp only
    obtain ⟨_, _, harr⟩ := heapifyReads_frame i n q
    have hkey := heapifyReads_keyOf (i := i) hk
    by_cases hc : smallestOf i n q ≠ i
    · rw [if_pos hc]
      have hlt := smallestOf_lt hc
      have hin : i < n := by omega
      obtain ⟨g1, g2, g3⟩ := ih (smallestOf i n q)
        { heapifyReads i n q with
          arr := swapArr (heapifyReads i n q).arr i (smallestOf i n q) }
        (by
          intro j hj
          show ((heapifyReads i n q).keyOf (swapArr (heapifyReads i n q).arr i _ j)).isSome = true
          rw [hkey, harr]
          exact swapArr_mem (S := fun x => (q.keyOf x).isSome = true) hk hin hlt.1 j hj)
        (by
          show ∀ x y, x < n → y < n →
            swapArr (heapifyReads i n q).arr i _ x = swapArr (heapifyReads i n q).arr i _ y → x = y
          rw [harr]
          exact swapArr_inj hin hlt.1 hinj)
      refine ⟨g1.trans hkey, g2, fun v => (g3 v).trans ?_⟩
      show (∃ k, k < n ∧ swapArr (heapifyReads i n q).arr i _ k = v) ↔ _
      rw [harr]
      exact swapArr_holds hin hlt.1 v
    · rw [if_neg hc, harr]
      exact ⟨hkey, hinj, fun _ => Iff.rfl⟩

/-- In a heap the root has the least key of the first `n` slots. -/
theorem heapArr_root_le {key : V → K} {a : Nat → V} {n : Nat} (h : HeapArr key a n) :
    ∀ i, i < n → key (a 0) ≤ key (a i) := by
  intro i
  induction i using Nat.strong_induction_on with
  | _ i ih =>
    intro hi
    by_cases h0 : i = 0
    · subst h0; exact le_rfl
    · have hp := parent_lt (Nat.pos_of_ne_zero h0)
      exact le_trans (ih _ hp (by omega)) (h i (Nat.pos_of_ne_zero h0) hi)

end minPQ

namespace minPQ

variable {K V : Type} [DecidableEq V] [LinearOrder K] [Zero K]

/-- The effect of `pop` on a non-empty queue that stores a set of entries in
heap order. -/
theorem pop_spec {q : minPQ K V} (hne : q.numElements ≠ 0) (hs : Stored q) (hh : IsHeap q) :
    (pop q).1 = .ret (q.keyOf.read (q.arr 0), q.arr 0) ∧
      (∀ i, i < q.numElements → q.keyOf.read (q.arr 0) ≤ q.keyOf.read (q.arr i)) ∧
      (pop q).2.numElements = q.numElements - 1 ∧
      (∀ v, Holds (pop q).2 v ↔ (v ≠ q.arr 0 ∧ Holds q v)) ∧
      (∀ x, x ≠ q.arr 0 → (pop q).2.keyOf x = q.keyOf x) ∧
      (pop q).2.keyOf (q.arr 0) = none ∧
      Stored (pop q).2 ∧ IsHeap (pop q).2 := by
  have hpop := pop_of_ne hne
  have hn0 : 0 < q.numElements := Nat.pos_of_ne_zero hne
  -- the queue handed to `heapify`
  have hkm : ∀ x, x ≠ q.arr 0 → ((q.keyOf.touch (q.arr 0)).erase (q.arr 0)) x = q.keyOf x := by
    intro x hx
    rw [HMap.erase_of_ne _ hx]
    unfold HMap.touch
    simp [hx]
  have hk0 : ((q.keyOf.touch (q.arr 0)).erase (q.arr 0)) (q.arr 0) = none := by
    unfold HMap.erase; simp
  have harrm : ∀ j, setArr q.arr 0 (q.arr (q.numElements - 1)) j
      = q.arr (if j = 0 then q.numElements - 1 else j) := by
    intro j; unfold setArr; split <;> rfl
  have hidx : ∀ j, j < q.numElements - 1 →
      (if j = 0 then q.numElements - 1 else j) < q.numElements ∧
        (if j = 0 then q.numElements - 1 else j) ≠ 0 := by
    intro j hj; split <;> omega
  have hne0 : ∀ j, j < q.numElements - 1 →
      setArr q.arr 0 (q.arr (q.numElements - 1)) j ≠ q.arr 0 := by
    intro j hj he
    rw [harrm] at he
    exact (hidx j hj).2 (hs.inj _ _ (hidx j hj).1 hn0 he)
  have hkeyed : ∀ j, j < q.numElements - 1 →
      (((q.keyOf.touch (q.arr 0)).erase (q.arr 0))
        (setArr q.arr 0 (q.arr (q.numElements - 1)) j)).isSome = true := by
    intro j hj
    rw [hkm _ (hne0 j hj), harrm]
    exact hs.keyed _ (hidx j hj).1
  have hinjm : ∀ x y, x < q.numElements - 1 → y < q.numElements - 1 →
      setArr q.arr 0 (q.arr (q.numElements - 1)) x
        = setArr q.arr 0 (q.arr (q.numElements - 1)) y → x = y := by
    intro x y hx hy he
    rw [harrm, harrm] at he
    have := hs.inj _ _ (hidx x hx).1 (hidx y hy).1 he
    split at this <;> split at this <;> omega
  have hreadm : ∀ j, j < q.numElements - 1 →
      ((q.keyOf.touch (q.arr 0)).erase (q.arr 0)).read
          (setArr q.arr 0 (q.arr (q.numElements - 1)) j)
        = q.keyOf.read (setArr q.arr 0 (q.arr (q.numElements - 1)) j) := by
    intro j hj
    unfold HMap.read
    rw [hkm _ (hne0 j hj)]
  have hheapm : HeapAt ((q.keyOf.touch (q.arr 0)).erase (q.arr 0)).read
      (setArr q.arr 0 (q.arr (q.numElements - 1))) (q.numElements - 1) 0 := by
    constructor
    · intro j hj hjn hp
      have hpn : parent j < q.numElements - 1 := lt_of_le_of_lt (parent_le j) hjn
      rw [hreadm _ hpn, hreadm _ hjn, harrm, harrm, if_neg hp, if_neg (by omega)]
      exact hh j hj (by omega)
    · intro h0; omega
  obtain ⟨s1, s2, s3⟩ := heapifyAux_stored (q.numElements - 1) (q.numElements - 1 + 1) 0
    { q with
      arr := setArr q.arr 0 (q.arr (q.numElements - 1))
      indexOf := ((q.indexOf.set (q.arr (q.numElements - 1)) 0).erase (q.arr 0))
      keyOf := ((q.keyOf.touch (q.arr 0)).erase (q.arr 0))
      numElements := q.numElements - 1 } hkeyed hinjm
  have sheap := heapifyAux_heap ((q.keyOf.touch (q.arr 0)).erase (q.arr 0)).read
    (q.numElements - 1) (q.numElements - 1 + 1) 0
    { q with
      arr := setArr q.arr 0 (q.arr (q.numElements - 1))
      indexOf := ((q.indexOf.set (q.arr (q.numElements - 1)) 0).erase (q.arr 0))
      keyOf := ((q.keyOf.touch (q.arr 0)).erase (q.arr 0))
      numElements := q.numElements - 1 } (by omega) (fun _ => rfl) hheapm
  have snum := (heapifyAux_frame (q.numElements - 1 + 1) 0 (q.numElements - 1)
    { q with
      arr := setArr q.arr 0 (q.arr (q.numElements - 1))
      indexOf := ((q.indexOf.set (q.arr (q.numElements - 1)) 0).erase (q.arr 0))
      keyOf := ((q.keyOf.touch (q.arr 0)).erase (q.arr 0))
      numElements := q.numElements - 1 }).1.num
  simp only at s1 s2 s3 sheap snum
  have hst : (pop q).2 = heapifyAux (q.numElements - 1 + 1) 0 (q.numElements - 1)
      { q with
        arr := setArr q.arr 0 (q.arr (q.numElements - 1))
        indexOf := ((q.indexOf.set (q.arr (q.numElements - 1)) 0).erase (q.arr 0))
        keyOf := ((q.keyOf.touch (q.arr 0)).erase (q.arr 0))
        numElements := q.numElements - 1 } := by
    rw [hpop]; rfl
  have hholds : ∀ v, Holds (pop q).2 v ↔ (v ≠ q.arr 0 ∧ Holds q v) := by
    intro v
    unfold Holds
    rw [hst, snum, s3 v]
    constructor
    · rintro ⟨k, hk, he⟩
      refine ⟨?_, _, (hidx k hk).1, by rw [← harrm]; exact he⟩
      rw [← he]; exact hne0 k hk
    · rintro ⟨hv, k, hk, he⟩
      have hk0 : k ≠ 0 := fun e => hv (by rw [← he, e])
      by_cases hkl : k = q.numElements - 1
      · refine ⟨0, by omega, ?_⟩
        rw [harrm, if_pos rfl, ← hkl]; exact he
      · refine ⟨k, by omega, ?_⟩
        rw [harrm, if_neg hk0]; exact he
  refine ⟨by rw [hpop], heapArr_root_le hh, by rw [hst, snum], hholds, ?_, ?_, ?_, ?_⟩
  · intro x hx; rw [hst, s1]; exact hkm x hx
  · rw [hst, s1]; exact hk0
  · constructor
    · rw [hst, snum]; exact s2
    · rw [hst, snum, s1]
      intro j hj
      obtain ⟨k, hk, he⟩ := (s3 _).mp ⟨j, hj, rfl⟩
      rw [← he]
      exact hkeyed k hk
  · unfold IsHeap
    rw [hst, snum, s1]
    exact sheap

end minPQ

/-- The contract of `pop` on a queue whose stored values are pairwise
distinct and keyed: `pop` throws (the empty-queue error) if and only if the
queue holds no elements; on a non-empty queue that stores pairwise distinct values with their
keys in min-heap order it returns the entry of slot 0, whose key is less than
or equal to every stored key, removes exactly that entry (every other value
stays stored with its key, the size drops by one) and leaves a queue of the
same kind, again in min-heap order. Scenario: after `insert(5,"a")`,
`insert(2,"b")`, `insert(8,"c")` into a queue of capacity 3, `pop` returns
(2,"b") and the next `pop` returns (5,"a"). -/
theorem pop_contract {K V : Type} [DecidableEq V] [LinearOrder K] [Zero K] (q : minPQ K V) :
    ((minPQ.pop q).1 = .throw .queueEmpty ↔ q.numElements = 0) ∧
      (∀ e, (minPQ.pop q).1 = .throw e → e = .queueEmpty) ∧
      (q.numElements ≠ 0 → minPQ.Stored q → minPQ.IsHeap q →
        (minPQ.pop q).1 = .ret (q.keyOf.read (q.arr 0), q.arr 0) ∧
        (∀ i, i < q.numElements → q.keyOf.read (q.arr 0) ≤ q.keyOf.read (q.arr i)) ∧
        (minPQ.pop q).2.numElements = q.numElements - 1 ∧
        (∀ v, minPQ.Holds (minPQ.pop q).2 v ↔ (v ≠ q.arr 0 ∧ minPQ.Holds q v)) ∧
        (∀ x, x ≠ q.arr 0 → (minPQ.pop q).2.keyOf x = q.keyOf x) ∧
        (minPQ.pop q).2.keyOf (q.arr 0) = none ∧
        minPQ.Stored (minPQ.pop q).2 ∧ minPQ.IsHeap (minPQ.pop q).2) ∧
      ((minPQ.runOps opsC8 (minPQ.new 3)).1 = true ∧
        (minPQ.pop (minPQ.runOps opsC8 (minPQ.new 3)).2).1 = .ret (2, "b") ∧
        (minPQ.pop (minPQ.pop (minPQ.runOps opsC8 (minPQ.new 3)).2).2).1 = .ret (5, "a")) := by
  refine ⟨?_, fun e he => minPQ.pop_throw he, fun hne hs hh => minPQ.pop_spec hne hs hh,
    by decide⟩
  constructor
  · intro h
    by_contra hne
    rw [minPQ.pop_of_ne hne] at h
    cases h
  · intro h
    rw [minPQ.pop_of_eq h]

/-! ## The fuel of the loops is never exhausted -/

namespace minPQ

variable {K V : Type} [DecidableEq V] [LinearOrder K] [Zero K]

/-- More fuel than the start index does not change the sift-up loop. -/
theorem siftUpAux_fuel (fuel i : Nat) (q : minPQ K V) (h : i ≤ fuel) :
    siftUpAux (fuel + 1) i q = siftUpAux fuel i q := by
  induction fuel generalizing i q with
  | zero =>
    have hi : i = 0 := by omega
    subst hi
    simp [siftUpAux]
  | succ fuel ih =>
    rw [siftUpAux, siftUpAux]
    by_cases h0 : 0 < i
    · simp only [if_pos h0]
      split
      · exact ih _ _ (by have := parent_lt h0; omega)
      · rfl
    · simp only [if_neg h0]

/-- The loop equation of sift-up: the model is the `while` loop of the source. -/
theorem siftUp_eq (i : Nat) (q : minPQ K V) :
    siftUp i q =
      if 0 < i then
        if q.keyOf.read (q.arr (parent i)) > q.keyOf.read (q.arr i) then
          siftUp (parent i)
            { touch2 q (q.arr (parent i)) (q.arr i) with
              arr := swapArr q.arr i (parent i)
              indexOf := (q.indexOf.set (swapArr q.arr i (parent i) i) i).set
                (swapArr q.arr i (parent i) (parent i)) (parent i) }
        else touch2 q (q.arr (parent i)) (q.arr i)
      else q := by
  unfold siftUp
  rw [siftUpAux]
  by_cases h0 : 0 < i
  · simp only [if_pos h0]
    split
    · have hp := parent_lt h0
      have : ∀ d f (q' : minPQ K V), parent i ≤ f → siftUpAux (f + d) (parent i) q'
          = siftUpAux f (parent i) q' := by
        intro d
        induction d with
        | zero => intro f q' _; rfl
        | succ d ihd =>
          intro f q' hf
          rw [← Nat.add_assoc, siftUpAux_fuel _ _ _ (by omega)]
          exact ihd f q' hf
      have h1 := this (i - (parent i + 1)) (parent i + 1)
        { touch2 q (q.arr (parent i)) (q.arr i) with
              arr := swapArr q.arr i (parent i)
              indexOf := (q.indexOf.set (swapArr q.arr i (parent i) i) i).set
                (swapArr q.arr i (parent i) (parent i)) (parent i) } (by omega)
      have h2 : parent i + 1 + (i - (parent i + 1)) = i := by omega
      rw [h2] at h1
      exact h1
    · rfl
  · simp only [if_neg h0]

/-- More fuel than the remaining depth does not change sift-down. -/
theorem heapifyAux_fuel (fuel i size : Nat) (q : minPQ K V) (h : size ≤ i + fuel) :
    heapifyAux (fuel + 1) i size q = heapifyAux fuel i size q := by
  induction fuel generalizing i q with
  | zero =>
    have hl : ¬ left i < size := by unfold left; omega
    have hr : ¬ right i < size := by unfold right; omega
    have hs : smallestOf i size q = i := by
      rcases smallestOf_cases i size q with c | c | c
      · exact c
      · exact absurd c.2 hl
      · exact absurd c.2 hr
    have hq : heapifyReads i size q = q := by
      unfold heapifyReads; simp only [if_neg hl, if_neg hr]
    rw [heapifyAux, heapifyAux]
    simp only [hs, hq]
    exact if_neg (fun hne => hne rfl)
  | succ fuel ih =>
    conv_lhs => rw [heapifyAux]
    conv_rhs => rw [heapifyAux]
    split
    · rename_i hc
      have := smallestOf_lt hc
      exact ih _ _ (by omega)
    · rfl

theorem pop_num (q : minPQ K V) : (pop q).2.numElements = q.numElements - 1 := by
  by_cases h : q.numElements = 0
  · rw [pop_of_eq h, h]
  · rw [pop_of_ne h]
    exact (heapifyAux_frame _ _ _ _).1.num

theorem updateKey_num (newKey : K) (value : V) (q : minPQ K V) :
    (updateKey newKey value q).2.numElements = q.numElements := by
  unfold updateKey
  split
  · rfl
  · split
    · rfl
    · split
      · exact (siftUpAux_frame _ _ _).num
      · rfl

end minPQ

namespace DirectedGraph

open Vertex

variable {T D : Type} [DecidableEq T] [LinearOrderedAddCommMonoidWithTop D]

theorem relax_num (du : D) (u : Nat) (es : List (Nat × D × String))
    (st : Store T D × minPQ D Nat) :
    (relax du u es st).2.2.numElements = st.2.numElements := by
  induction es generalizing st with
  | nil => rfl
  | cons ed es ih =>
    obtain ⟨nbr, w, nm⟩ := ed
    obtain ⟨mem, pq⟩ := st
    unfold relax
    split
    · simp only
      split
      · have hn := minPQ.updateKey_num (du + w) nbr pq
        cases hk : minPQ.updateKey (du + w) nbr pq with
        | mk o pq1 =>
          rw [hk] at hn
          cases o with
          | ret a => simp only; rw [ih]; exact hn
          | throw e => exact hn
      · exact ih _
    · exact ih _

/-- More fuel than there are queued elements does not change the main loop of
`Dijkstra`: with `fuel = numElements` the model is the `while` loop of the
source, never cut short. -/
theorem dijkstraLoop_fuel (fuel : Nat) (st : Store T D × minPQ D Nat)
    (h : st.2.numElements ≤ fuel) : dijkstraLoop (fuel + 1) st = dijkstraLoop fuel st := by
  induction fuel generalizing st with
  | zero =>
    obtain ⟨mem, pq⟩ := st
    have he : pq.empty = true := by
      unfold minPQ.empty
      simp only [beq_iff_eq]
      simp only at h; omega
    unfold dijkstraLoop
    rw [if_pos he]
  | succ fuel ih =>
    obtain ⟨mem, pq⟩ := st
    rw [dijkstraLoop, dijkstraLoop]
    split
    · rfl
    · have hn := minPQ.pop_num pq
      cases hp : minPQ.pop pq with
      | mk o pq1 =>
        rw [hp] at hn
        simp only at hn h
        cases o with
        | throw e => rfl
        | ret a =>
          obtain ⟨du, u⟩ := a
          simp only
          split
          · rfl
          · split
            · exact ih _ (by simp only; omega)
            · have hr := relax_num du u (setVisited true u mem u).adjacencyList
                (setVisited true u mem, pq1)
              cases hx : relax du u (setVisited true u mem u).adjacencyList
                  (setVisited true u mem, pq1) with
              | mk o2 s2 =>
                rw [hx] at hr
                simp only at hr
                cases o2 with
                | throw e => rfl
                | ret a2 => exact ih _ (by omega)

end DirectedGraph

namespace minPQ

variable {K V : Type} [DecidableEq V] [LinearOrder K] [Zero K]

/-- The recursion equation of `heapify`: the model is the recursive method of
the source. -/
theorem heapify_eq (i size : Nat) (q : minPQ K V) :
    heapify i size q =
      if smallestOf i size q ≠ i then
        heapify (smallestOf i size q) size
          { heapifyReads i size q with
            arr := swapArr (heapifyReads i size q).arr i (smallestOf i size q) }
      else heapifyReads i size q := by
  unfold heapify
  rw [heapifyAux]
  simp only
  split
  · exact (heapifyAux_fuel size _ size _ (by omega)).symm
  · rfl

end minPQ

/-- The contract of `pop` on the queue of the scenario: it is non-empty, stores
three distinct values with keys in heap order, and `pop` leaves two of them in
heap order. -/
theorem pop_contract_example :
    (minPQ.runOps opsC8 (minPQ.new 3)).2.numElements ≠ 0 ∧
      minPQ.Stored (minPQ.runOps opsC8 (minPQ.new 3)).2 ∧
      minPQ.IsHeap (minPQ.runOps opsC8 (minPQ.new 3)).2 ∧
      (minPQ.pop (minPQ.runOps opsC8 (minPQ.new 3)).2).2.numElements = 3 - 1 ∧
      minPQ.IsHeap (minPQ.pop (minPQ.runOps opsC8 (minPQ.new 3)).2).2 :=
  have hn : (minPQ.runOps opsC8 (minPQ.new 3)).2.numElements = 3 := by decide
  have hne : (minPQ.runOps opsC8 (minPQ.new 3)).2.numElements ≠ 0 := by decide
  have hs : minPQ.Stored (minPQ.runOps opsC8 (minPQ.new 3)).2 := by
    constructor
    · rw [hn]
      intro i j hi hj he
      interval_cases i <;> interval_cases j <;>
        first
        | rfl
        | (exfalso; revert he; decide)
    · rw [hn]; decide
  have hh : minPQ.IsHeap (minPQ.runOps opsC8 (minPQ.new 3)).2 := by
    unfold minPQ.IsHeap minPQ.HeapArr
    rw [hn]
    intro j hj hjn
    have hj12 : j = 1 ∨ j = 2 := by omega
    rcases hj12 with rfl | rfl <;> decide
  have h := (pop_contract (minPQ.runOps opsC8 (minPQ.new 3)).2).2.2.1 hne hs hh
  ⟨hne, hs, hh, by rw [← hn]; exact h.2.2.1, h.2.2.2.2.2.2.2⟩

/-! ## The errors of `updateKey` -/

namespace minPQ

variable {K V : Type} [DecidableEq V] [LinearOrder K] [Zero K]

/-- The three ways in which `updateKey` throws. -/
theorem updateKey_throw_iff (newKey : K) (value : V) (q : minPQ K V) :
    (∃ e, (updateKey newKey value q).1 = .throw e) ↔
      (q.keyOf value = none ∨ newKey > q.keyOf.read value ∨ q.indexOf value = none) := by
  unfold updateKey
  by_cases h1 : q.keyOf.contains value = true
  · have hk : q.keyOf value ≠ none := by
      intro hn; unfold HMap.contains at h1; rw [hn] at h1; cases h1
    rw [if_neg (by simp [h1])]
    by_cases h2 : newKey > q.keyOf.read value
    · rw [if_pos h2]
      exact ⟨fun _ => Or.inr (Or.inl h2), fun _ => ⟨_, rfl⟩⟩
    · rw [if_neg h2]
      cases h3 : q.indexOf value with
      | none => exact ⟨fun _ => Or.inr (Or.inr rfl), fun _ => ⟨_, rfl⟩⟩
      | some i =>
        constructor
        · rintro ⟨e, he⟩; cases he
        · rintro (h | h | h)
          · exact absurd h hk
          · exact absurd h h2
          · cases h
  · have hk : q.keyOf value = none := by
      unfold HMap.contains at h1
      cases hv : q.keyOf value with
      | none => rfl
      | some k => rw [hv] at h1; exact absurd rfl h1
    rw [if_pos (by simp [h1])]
    exact ⟨fun _ => Or.inl hk, fun _ => ⟨_, rfl⟩⟩

/-- What a throwing `updateKey` leaves behind: the array, the index map, the
size and the capacity as they were, every key of another value as it was, and
the whole queue as it was unless `value` has a key but no index entry. -/
theorem updateKey_throw_state (newKey : K) (value : V) (q : minPQ K V) (e : Exn)
    (h : (updateKey newKey value q).1 = .throw e) :
    (updateKey newKey value q).2.arr = q.arr ∧
      (updateKey newKey value q).2.indexOf = q.indexOf ∧
      (updateKey newKey value q).2.numElements = q.numElements ∧
      (updateKey newKey value q).2.capacity = q.capacity ∧
      (∀ x, x ≠ value → (updateKey newKey value q).2.keyOf x = q.keyOf x) ∧
      ((q.keyOf value = none ∨ (q.indexOf value).isSome = true) →
        (updateKey newKey value q).2 = q) := by
  unfold updateKey at h ⊢
  by_cases h1 : q.keyOf.contains value = true
  · have hk : q.keyOf value ≠ none := by
      intro hn; unfold HMap.contains at h1; rw [hn] at h1; cases h1
    rw [if_neg (by simp [h1])] at h ⊢
    by_cases h2 : newKey > q.keyOf.read value
    · rw [if_pos h2]
      exact ⟨rfl, rfl, rfl, rfl, fun _ _ => rfl, fun _ => rfl⟩
    · rw [if_neg h2] at h ⊢
      cases h3 : q.indexOf value with
      | none =>
        refine ⟨rfl, rfl, rfl, rfl, fun x hx => HMap.set_of_ne _ _ hx, fun hc => ?_⟩
        rcases hc with hc | hc
        · exact absurd hc hk
        · cases hc
      | some i => rw [h3] at h; cases h
  · rw [if_pos (by simp [h1])]
    exact ⟨rfl, rfl, rfl, rfl, fun _ _ => rfl, fun _ => rfl⟩

end minPQ

/-- The contract of `updateKey` in terms of the two maps:
`updateKey(newKey, value)` throws if and only if `value` is not in the
queue (it lacks a key or an index entry, the two tests answered with "Value is
not in the queue.") or `newKey` is strictly greater than the key of `value`; an
equal key is accepted. Whenever it throws, the heap array, the index map, the
size, the capacity and the key of every value in the queue are unchanged, and
the whole queue is unchanged unless `value` has a key but no index entry.
Scenario: after `insert(3,"x")`, `updateKey(10,"x")` throws and leaves the queue
unchanged. -/
theorem updateKey_contract {K V : Type} [DecidableEq V] [LinearOrder K] [Zero K]
    (newKey : K) (value : V) (q : minPQ K V) :
    ((∃ e, (minPQ.updateKey newKey value q).1 = .throw e) ↔
        (¬ minPQ.InQueue q value ∨ newKey > q.keyOf.read value)) ∧
      (minPQ.InQueue q value → newKey = q.keyOf.read value →
        (minPQ.updateKey newKey value q).1 = .ret ()) ∧
      (∀ e, (minPQ.updateKey newKey value q).1 = .throw e →
        (minPQ.updateKey newKey value q).2.arr = q.arr ∧
        (minPQ.updateKey newKey value q).2.indexOf = q.indexOf ∧
        (minPQ.updateKey newKey value q).2.numElements = q.numElements ∧
        (minPQ.updateKey newKey value q).2.capacity = q.capacity ∧
        (∀ x, minPQ.InQueue q x → (minPQ.updateKey newKey value q).2.keyOf x = q.keyOf x) ∧
        ((q.keyOf value = none ∨ (q.indexOf value).isSome = true) →
          (minPQ.updateKey newKey value q).2 = q)) ∧
      ((minPQ.runOps opsC9x (minPQ.new 3)).2.keyOf "x" = some 3 ∧
        (minPQ.updateKey 10 "x" (minPQ.runOps opsC9x (minPQ.new 3)).2).1
          = .throw .oldKeyLess ∧
        (minPQ.updateKey 10 "x" (minPQ.runOps opsC9x (minPQ.new 3)).2).2
          = (minPQ.runOps opsC9x (minPQ.new 3)).2) := by
  have hiff := minPQ.updateKey_throw_iff newKey value q
  have hnin : ¬ minPQ.InQueue q value ↔ (q.keyOf value = none ∨ q.indexOf value = none) := by
    unfold minPQ.InQueue
    cases q.keyOf value <;> cases q.indexOf value <;> simp
  refine ⟨?_, ?_, ?_, ?_⟩
  · rw [hiff, hnin]
    constructor
    · rintro (h | h | h)
      · exact Or.inl (Or.inl h)
      · exact Or.inr h
      · exact Or.inl (Or.inr h)
    · rintro ((h | h) | h)
      · exact Or.inl h
      · exact Or.inr (Or.inr h)
      · exact Or.inr (Or.inl h)
  · intro hin heq
    cases hr : (minPQ.updateKey newKey value q).1 with
    | ret a => rfl
    | throw e =>
      rcases hiff.mp ⟨e, hr⟩ with h | h | h
      · exact absurd (Or.inl h) (fun hc => (hnin.mpr hc) hin)
      · rw [heq] at h; exact absurd h (lt_irrefl _)
      · exact absurd (Or.inr h) (fun hc => (hnin.mpr hc) hin)
  · intro e he
    obtain ⟨s1, s2, s3, s4, s5, s6⟩ := minPQ.updateKey_throw_state newKey value q e he
    refine ⟨s1, s2, s3, s4, fun x hx => ?_, s6⟩
    by_cases hxv : x = value
    · subst hxv
      rw [s6 (Or.inr hx.2)]
    · exact s5 x hxv
  · have hthrow : (minPQ.updateKey 10 "x" (minPQ.runOps opsC9x (minPQ.new 3)).2).1
        = .throw .oldKeyLess := by decide
    refine ⟨by decide, hthrow, ?_⟩
    exact (minPQ.updateKey_throw_state 10 "x" _ _ hthrow).2.2.2.2.2 (Or.inr (by decide))

/-- The contract of `updateKey` on the queue of the scenario: "x" is in the
queue with key 3, `updateKey(10,"x")` throws and the queue is unchanged. -/
theorem updateKey_contract_example :
    minPQ.InQueue (minPQ.runOps opsC9x (minPQ.new 3)).2 "x" ∧
      (minPQ.updateKey 10 "x" (minPQ.runOps opsC9x (minPQ.new 3)).2).1 = .throw .oldKeyLess ∧
      (minPQ.updateKey 10 "x" (minPQ.runOps opsC9x (minPQ.new 3)).2).2.arr
        = (minPQ.runOps opsC9x (minPQ.new 3)).2.arr ∧
      (minPQ.updateKey 3 "x" (minPQ.runOps opsC9x (minPQ.new 3)).2).1 = .ret () :=
  have hin : minPQ.InQueue (minPQ.runOps opsC9x (minPQ.new 3)).2 "x" := ⟨by decide, by decide⟩
  have ht : (minPQ.updateKey 10 "x" (minPQ.runOps opsC9x (minPQ.new 3)).2).1
      = .throw .oldKeyLess := by decide
  ⟨hin, ht,
    ((updateKey_contract 10 "x" (minPQ.runOps opsC9x (minPQ.new 3)).2).2.2.1 _ ht).1,
    (updateKey_contract 3 "x" (minPQ.runOps opsC9x (minPQ.new 3)).2).2.1 hin (by decide)⟩

/-! ## The claims about the mutators of the graph -/

namespace Vertex

variable {T D : Type}

theorem put_self (p : Nat) (r : Vertex T D) (mem : Store T D) : put p r mem p = r := by
  unfold put; simp

theorem put_of_ne {p x : Nat} (r : Vertex T D) (mem : Store T D) (h : x ≠ p) :
    put p r mem x = mem x := by
  unfold put; simp [h]

theorem put_same (p : Nat) (mem : Store T D) : put p (mem p) mem = mem := by
  funext x
  unfold put
  by_cases h : x = p
  · subst h; simp
  · simp [h]

/-- Without a record targeting `v` the loop of `removeEdge` erases nothing. -/
theorem eraseFirstTo_of_none (v : Nat) (l : List (Nat × D × String))
    (h : ∀ e, e ∈ l → e.1 ≠ v) : eraseFirstTo v l = l := by
  induction l with
  | nil => rfl
  | cons e es ih =>
    unfold eraseFirstTo
    rw [if_neg (h e (List.mem_cons_self _ _)), ih (fun x hx => h x (List.mem_cons_of_mem _ hx))]

/-- The loop of `removeEdge` erases the first record targeting `v`. -/
theorem eraseFirstTo_append (v : Nat) (pre post : List (Nat × D × String)) (e : Nat × D × String)
    (he : e.1 = v) (hpre : ∀ x, x ∈ pre → x.1 ≠ v) :
    eraseFirstTo v (pre ++ e :: post) = pre ++ post := by
  induction pre with
  | nil => simp [eraseFirstTo, he]
  | cons x xs ih =>
    simp only [List.cons_append]
    unfold eraseFirstTo
    rw [if_neg (hpre x (List.mem_cons_self _ _)), ih (fun y hy => hpre y (List.mem_cons_of_mem _ hy))]

/-- A list with a record targeting `v` splits at the first such record. -/
theorem exists_first_to (v : Nat) (l : List (Nat × D × String))
    (h : ∃ e, e ∈ l ∧ e.1 = v) :
    ∃ pre e post, l = pre ++ e :: post ∧ e.1 = v ∧ ∀ x, x ∈ pre → x.1 ≠ v := by
  induction l with
  | nil => obtain ⟨e, he, _⟩ := h; cases he
  | cons a as ih =>
    by_cases ha : a.1 = v
    · exact ⟨[], a, as, rfl, ha, fun x hx => by cases hx⟩
    · obtain ⟨e, he, hev⟩ := h
      have he' : e ∈ as := by
        rcases List.mem_cons.mp he with h1 | h1
        · rw [h1] at hev; exact absurd hev ha
        · exact h1
      obtain ⟨pre, e1, post, h1, h2, h3⟩ := ih ⟨e, he', hev⟩
      refine ⟨a :: pre, e1, post, by rw [h1]; rfl, h2, ?_⟩
      intro x hx
      rcases List.mem_cons.mp hx with h4 | h4
      · rw [h4]; exact ha
      · exact h3 x h4

theorem removeEdge_of_nil (v : Nat) (r : Vertex T D) (h : r.adjacencyList = []) :
    removeEdge v r = (.throw .edgeNotExist, r) := by
  unfold removeEdge; simp [h]

theorem removeEdge_of_ne_nil (v : Nat) (r : Vertex T D) (h : r.adjacencyList ≠ []) :
    removeEdge v r = (.ret (), { r with adjacencyList := eraseFirstTo v r.adjacencyList }) := by
  unfold removeEdge
  have : r.adjacencyList.isEmpty = false := by
    cases hl : r.adjacencyList with
    | nil => exact absurd hl h
    | cons a as => rfl
  simp [this]

end Vertex

namespace DirectedGraph

open Vertex

variable {T D : Type}

theorem graphRemoveEdge_of_nil (g : DirectedGraph) (u v : Nat) (mem : Store T D)
    (h : (mem u).adjacencyList = []) :
    removeEdge g u v mem = (.throw .edgeNotExist, (g, mem)) := by
  unfold removeEdge; simp [h]

theorem graphRemoveEdge_of_ne_nil (g : DirectedGraph) (u v : Nat) (mem : Store T D)
    (h : (mem u).adjacencyList ≠ []) :
    removeEdge g u v mem =
      (.ret (), (g, put u { mem u with adjacencyList := eraseFirstTo v (mem u).adjacencyList } mem)) := by
  unfold removeEdge
  have : (mem u).adjacencyList.isEmpty = false := by
    cases hl : (mem u).adjacencyList with
    | nil => exact absurd hl h
    | cons a as => rfl
  rw [Vertex.removeEdge_of_ne_nil v (mem u) h]
  simp [this]

theorem eraseFirstVertex_eq_erase (v : Nat) (l : List Nat) :
    eraseFirstVertex v l = l.erase v := by
  induction l with
  | nil => rfl
  | cons x xs ih =>
    unfold eraseFirstVertex
    by_cases h : x = v
    · subst h; simp
    · rw [if_neg h, ih, List.erase_cons_tail]
      simpa using h

theorem eraseFirstVertex_eq_filter (v : Nat) (l : List Nat) (h : l.count v = 1) :
    eraseFirstVertex v l = l.filter (fun x => decide (x ≠ v)) := by
  induction l with
  | nil => rfl
  | cons x xs ih =>
    unfold eraseFirstVertex
    by_cases hx : x = v
    · subst hx
      rw [if_pos rfl]
      have hc : xs.count x = 0 := by
        rw [List.count_cons_self] at h; omega
      have hn : x ∉ xs := List.count_eq_zero.mp hc
      rw [List.filter_cons_of_neg (by simp)]
      symm
      apply List.filter_eq_self.mpr
      intro a ha
      simp only [ne_eq, decide_eq_true_eq]
      intro e; exact hn (e ▸ ha)
    · rw [if_neg hx]
      have hc : xs.count v = 1 := by
        rw [List.count_cons_of_ne (fun e => hx e.symm)] at h; exact h
      rw [ih hc, List.filter_cons_of_pos (by simpa using hx)]

/-- The second loop of `removeVertex` when no vertex of the list has a record
targeting `v`: it returns if and only if no vertex of the list has an empty
adjacency list, and it changes nothing. -/
theorem removeEdgesTo_of_none (v : Nat) (ws : List Nat) (mem : Store T D)
    (h : ∀ w, w ∈ ws → ∀ e, e ∈ (mem w).adjacencyList → e.1 ≠ v) :
    ((removeEdgesTo v ws mem).1 = .ret () ↔ ∀ w, w ∈ ws → (mem w).adjacencyList ≠ []) ∧
      (∀ e, (removeEdgesTo v ws mem).1 = .throw e → e = .edgeNotExist) ∧
      (removeEdgesTo v ws mem).2 = mem := by
  induction ws with
  | nil => exact ⟨⟨(fun _ w hw => by cases hw), fun _ => rfl⟩, (fun e he => by cases he), rfl⟩
  | cons x xs ih =>
    obtain ⟨i1, i2, i3⟩ := ih (fun w hw => h w (List.mem_cons_of_mem _ hw))
    unfold removeEdgesTo
    by_cases hx : (mem x).adjacencyList = []
    · rw [Vertex.removeEdge_of_nil v (mem x) hx]
      simp only
      refine ⟨⟨(fun hc => by cases hc), fun hc => absurd hx (hc x (List.mem_cons_self _ _))⟩,
        fun e he => ?_, put_same x mem⟩
      simp only [Outcome.throw.injEq] at he
      exact he.symm
    · rw [Vertex.removeEdge_of_ne_nil v (mem x) hx]
      simp only
      have hsame : put x { mem x with
          adjacencyList := eraseFirstTo v (mem x).adjacencyList } mem = mem := by
        rw [eraseFirstTo_of_none v _ (h x (List.mem_cons_self _ _))]
        exact put_same x mem
      rw [hsame]
      refine ⟨⟨fun hc w hw => ?_, fun hc => i1.mpr (fun w hw => hc w (List.mem_cons_of_mem _ hw))⟩,
        i2, i3⟩
      rcases List.mem_cons.mp hw with h1 | h1
      · rw [h1]; exact hx
      · exact i1.mp hc w h1

end DirectedGraph

/-- C14, the failing runs: in `gC14a` vertex 0 has two edge records to vertex 1;
`removeVertex(1)` returns and vertex 0, the only remaining vertex, still has an
edge record to 1. In `gC14b` vertex 0 has no edge and vertex 1 has the edge
1 -> 2; `removeVertex(2)` throws at vertex 0 and vertex 1 keeps its edge to 2. -/
theorem C14_failing_run :
    (1 ∈ gC14a.vertices ∧
      (gC14a.removeVertex 1 memC14a).1 = .ret () ∧
      (gC14a.removeVertex 1 memC14a).2.1.vertices = [0] ∧
      (((gC14a.removeVertex 1 memC14a).2.2 0).adjacencyList.map (fun e => e.1)) = [1]) ∧
    (2 ∈ gC14b.vertices ∧
      (gC14b.removeVertex 2 memC14b).1 = .throw .edgeNotExist ∧
      (gC14b.removeVertex 2 memC14b).2.1.vertices = [0, 1] ∧
      (((gC14b.removeVertex 2 memC14b).2.2 1).adjacencyList.map (fun e => e.1)) = [2]) := by
  decide

/-- C15, as amended: for every graph and every vertex `v` such that no vertex
remaining in the collection has an edge record to `v`, `removeVertex(v)` returns
normally if and only if every remaining vertex has at least one outgoing edge;
otherwise it throws "Edge does not exist"; in both cases no adjacency list is
changed. -/
theorem C15_removeVertex_returns_iff {T D : Type} (g : DirectedGraph) (v : Nat)
    (mem : Store T D)
    (h : ∀ w, w ∈ DirectedGraph.eraseFirstVertex v g.vertices →
      ∀ e, e ∈ (mem w).adjacencyList → e.1 ≠ v) :
    ((g.removeVertex v mem).1 = .ret () ↔
        ∀ w, w ∈ DirectedGraph.eraseFirstVertex v g.vertices → (mem w).adjacencyList ≠ []) ∧
      (∀ e, (g.removeVertex v mem).1 = .throw e → e = .edgeNotExist) ∧
      (g.removeVertex v mem).2.2 = mem := by
  unfold DirectedGraph.removeVertex
  exact DirectedGraph.removeEdgesTo_of_none v _ mem h

/-- Counterexample to C15 as stated: in the graph of test 4 (two vertices, no
edge) vertex 0 is owned and no other vertex has an edge to it, and
`removeVertex(0)` throws "Edge does not exist". -/
theorem C15_counterexample :
    0 ∈ gC15.vertices ∧
      (∀ w, w ∈ gC15.vertices → ∀ e, e ∈ (memC15 w).adjacencyList → e.1 ≠ 0) ∧
      (gC15.removeVertex 0 memC15).1 = .throw .edgeNotExist := by
  decide

/-- Witness of C15 on `gC14a`: no vertex has an edge to vertex 0, the remaining
vertex 1 has no outgoing edge, so `removeVertex(0)` does not return normally. -/
theorem C15_removeVertex_returns_iff_witness :
    (∀ w, w ∈ DirectedGraph.eraseFirstVertex 0 gC14a.vertices →
        ∀ e, e ∈ (memC14a w).adjacencyList → e.1 ≠ 0) ∧
      (gC14a.removeVertex 0 memC14a).1 ≠ .ret () ∧
      (gC14a.removeVertex 0 memC14a).2.2 = memC14a :=
  have h : ∀ w, w ∈ DirectedGraph.eraseFirstVertex 0 gC14a.vertices →
      ∀ e, e ∈ (memC14a w).adjacencyList → e.1 ≠ 0 := by decide
  ⟨h, fun hc => absurd (((C15_removeVertex_returns_iff gC14a 0 memC14a h).1.mp hc) 1 (by decide))
      (by decide),
    (C15_removeVertex_returns_iff gC14a 0 memC14a h).2.2⟩

/-- C16: after `removeVertex(v)`, whether it returned or threw, `getVertices`
returns the previous vector without its first entry equal to `v`; when `v`
occurs once in the vector that is the previous sequence with `v` removed, the
other vertices in their original relative order. -/
theorem C16_removeVertex_vertices {T D : Type} (g : DirectedGraph) (v : Nat)
    (mem : Store T D) :
    (g.removeVertex v mem).2.1.getVertices = g.getVertices.erase v ∧
      (g.vertices.count v = 1 →
        (g.removeVertex v mem).2.1.getVertices = g.getVertices.filter (fun x => decide (x ≠ v)) ∧
        v ∉ (g.removeVertex v mem).2.1.getVertices) := by
  have h1 : (g.removeVertex v mem).2.1.getVertices = DirectedGraph.eraseFirstVertex v g.vertices :=
    rfl
  refine ⟨by rw [h1, DirectedGraph.eraseFirstVertex_eq_erase]; rfl, fun hc => ?_⟩
  rw [h1, DirectedGraph.eraseFirstVertex_eq_filter v _ hc]
  refine ⟨rfl, ?_⟩
  intro hm
  have := (List.mem_filter.mp hm).2
  simp at this

/-- Witness of C16 on the graph of test 4: vertex 0 occurs once, `removeVertex(0)`
throws and `getVertices` is `[1]`. -/
theorem C16_removeVertex_vertices_witness :
    gC15.vertices.count 0 = 1 ∧
      (gC15.removeVertex 0 memC15).1 = .throw .edgeNotExist ∧
      (gC15.removeVertex 0 memC15).2.1.getVertices = [1] :=
  ⟨by decide, by decide,
    ((C16_removeVertex_vertices gC15 0 memC15).2 (by decide)).1.trans (by decide)⟩

/-- C17: `removeEdge(u, v)`, on the graph and on the vertex, throws (the
edge-not-found error "Edge does not exist") if and only if `u` has no outgoing
edge at all; when `u` has outgoing edges but none of them targets `v`, it
returns normally and leaves the store, hence the adjacency list of `u`,
unchanged. -/
theorem C17_removeEdge_throws_iff {T D : Type} (g : DirectedGraph) (u v : Nat)
    (mem : Store T D) :
    ((g.removeEdge u v mem).1 = .throw .edgeNotExist ↔ (mem u).adjacencyList = []) ∧
      ((∃ e, (g.removeEdge u v mem).1 = .throw e) ↔ (mem u).adjacencyList = []) ∧
      ((Vertex.removeEdge v (mem u)).1 = .throw .edgeNotExist ↔ (mem u).adjacencyList = []) ∧
      ((mem u).adjacencyList ≠ [] → (∀ e, e ∈ (mem u).adjacencyList → e.1 ≠ v) →
        (g.removeEdge u v mem).1 = .ret () ∧ (g.removeEdge u v mem).2.2 = mem ∧
        ((g.removeEdge u v mem).2.2 u).adjacencyList = (mem u).adjacencyList ∧
        Vertex.removeEdge v (mem u) = (.ret (), mem u)) := by
  by_cases h : (mem u).adjacencyList = []
  · rw [DirectedGraph.graphRemoveEdge_of_nil g u v mem h, Vertex.removeEdge_of_nil v (mem u) h]
    exact ⟨⟨fun _ => h, fun _ => rfl⟩, ⟨fun _ => h, fun _ => ⟨_, rfl⟩⟩, ⟨fun _ => h, fun _ => rfl⟩,
      fun hne => absurd h hne⟩
  · rw [DirectedGraph.graphRemoveEdge_of_ne_nil g u v mem h, Vertex.removeEdge_of_ne_nil v (mem u) h]
    refine ⟨⟨(fun hc => by cases hc), fun hc => absurd hc h⟩,
      ⟨(fun hc => by obtain ⟨e, he⟩ := hc; cases he), fun hc => absurd hc h⟩,
      ⟨(fun hc => by cases hc), fun hc => absurd hc h⟩, fun _ hnone => ?_⟩
    simp only
    rw [Vertex.eraseFirstTo_of_none v _ hnone]
    have hs : Vertex.put u (mem u) mem = mem := Vertex.put_same u mem
    exact ⟨trivial, hs, (by rw [hs]), rfl⟩

/-- Witness of C17 on `gC18`: vertex 0 has the single edge 0 -> 2, so
`removeEdge(0, 1)` returns normally and changes nothing; vertex 1 has no edge, so
`removeEdge(1, 0)` throws. -/
theorem C17_removeEdge_throws_iff_witness :
    (memC18 0).adjacencyList ≠ [] ∧ (∀ e, e ∈ (memC18 0).adjacencyList → e.1 ≠ 1) ∧
      (gC18.removeEdge 0 1 memC18).1 = .ret () ∧ (gC18.removeEdge 0 1 memC18).2.2 = memC18 ∧
      (gC18.removeEdge 1 0 memC18).1 = .throw .edgeNotExist :=
  have h := (C17_removeEdge_throws_iff gC18 0 1 memC18).2.2.2 (by decide) (by decide)
  ⟨by decide, by decide, h.1, h.2.1,
    (C17_removeEdge_throws_iff gC18 1 0 memC18).1.mpr (by decide)⟩

/-- C18, the failing run: in `gC18` vertex 0 has no edge targeting vertex 1 (its
only edge targets vertex 2), and `removeEdge(0, 1)` returns normally, on the
graph and on the vertex, with the adjacency list of vertex 0 as it was. -/
theorem C18_failing_run :
    (∀ e, e ∈ (memC18 0).adjacencyList → e.1 ≠ 1) ∧
      (gC18.removeEdge 0 1 memC18).1 = .ret () ∧
      (Vertex.removeEdge 1 (memC18 0)).1 = .ret () ∧
      ((gC18.removeEdge 0 1 memC18).2.2 0).adjacencyList = [(2, 5, "Edge1")] := by
  decide

/-- C19: when `u` has at least one edge record targeting `v`, `removeEdge(u, v)`
(on the graph and on the vertex) returns normally and the adjacency list of `u`
loses exactly one record, the first one whose target is `v`: with the list split
as `pre ++ e :: post` at that record it becomes `pre ++ post`, so every other
record, later records to `v` included, keeps its place in the order; no other
vertex object and no other field of `u` is changed. -/
theorem C19_removeEdge_first {T D : Type} (g : DirectedGraph) (u v : Nat) (mem : Store T D)
    (h : ∃ e, e ∈ (mem u).adjacencyList ∧ e.1 = v) :
    ∃ pre e post, (mem u).adjacencyList = pre ++ e :: post ∧ e.1 = v ∧
      (∀ x, x ∈ pre → x.1 ≠ v) ∧
      (g.removeEdge u v mem).1 = .ret () ∧
      ((g.removeEdge u v mem).2.2 u).adjacencyList = pre ++ post ∧
      (g.removeEdge u v mem).2.2 u = { mem u with adjacencyList := pre ++ post } ∧
      (∀ x, x ≠ u → (g.removeEdge u v mem).2.2 x = mem x) ∧
      (g.removeEdge u v mem).2.1 = g ∧
      Vertex.removeEdge v (mem u) = (.ret (), { mem u with adjacencyList := pre ++ post }) := by
  obtain ⟨pre, e, post, h1, h2, h3⟩ := Vertex.exists_first_to v _ h
  have hne : (mem u).adjacencyList ≠ [] := by
    rw [h1]; intro hc; cases pre <;> cases hc
  refine ⟨pre, e, post, h1, h2, h3, ?_⟩
  rw [DirectedGraph.graphRemoveEdge_of_ne_nil g u v mem hne, Vertex.removeEdge_of_ne_nil v (mem u) hne]
  have he : Vertex.eraseFirstTo v (mem u).adjacencyList = pre ++ post := by
    rw [h1]; exact Vertex.eraseFirstTo_append v pre post e h2 h3
  simp only [he]
  refine ⟨(by first | rfl | trivial), ?_, Vertex.put_self _ _ _, fun x hx => Vertex.put_of_ne _ _ hx, (by first | rfl | trivial), (by first | rfl | trivial)⟩
  rw [Vertex.put_self]

/-- Witness of C19 on `gC14a`, where vertex 0 has two edge records to vertex 1:
`removeEdge(0, 1)` returns normally and keeps the second record only. -/
theorem C19_removeEdge_first_witness :
    (∃ e, e ∈ (memC14a 0).adjacencyList ∧ e.1 = 1) ∧
      (gC14a.removeEdge 0 1 memC14a).1 = .ret () ∧
      ((gC14a.removeEdge 0 1 memC14a).2.2 0).adjacencyList = [(1, 2, "second")] :=
  have h : ∃ e, e ∈ (memC14a 0).adjacencyList ∧ e.1 = 1 := ⟨(1, 1, "first"), by decide, rfl⟩
  have hw := C19_removeEdge_first gC14a 0 1 memC14a h
  ⟨h, hw.elim (fun _ h1 => h1.elim (fun _ h2 => h2.elim (fun _ h3 => h3.2.2.2.1))), by decide⟩

/-- C20: after `addEdge(u, v, w, name)` the adjacency list of `u` is its previous
adjacency list followed by the record `(v, w, name)`, whether or not an edge
from `u` to `v` existed already; no other field of `u`, no other vertex object
and not the vertex vector is changed. -/
theorem C20_addEdge_appends {T D : Type} (g : DirectedGraph) (u v : Nat) (w : D)
    (name : String) (mem : Store T D) :
    g.getAdjacencyList u (g.addEdge u v w name mem).2
        = g.getAdjacencyList u mem ++ [(v, w, name)] ∧
      (g.addEdge u v w name mem).2 u
        = { mem u with adjacencyList := (mem u).adjacencyList ++ [(v, w, name)] } ∧
      (∀ x, x ≠ u → (g.addEdge u v w name mem).2 x = mem x) ∧
      (g.addEdge u v w name mem).1 = g ∧
      (g.addEdge u v w name mem).1.getVertices = g.getVertices := by
  unfold DirectedGraph.addEdge DirectedGraph.getAdjacencyList
  refine ⟨?_, Vertex.put_self _ _ _, fun x hx => Vertex.put_of_ne _ _ hx, rfl, rfl⟩
  simp only
  rw [Vertex.put_self]
  rfl

/-! ## Sift-up restores the heap -/

namespace minPQ

variable {K V : Type} [DecidableEq V] [LinearOrder K] [Zero K]

/-- Reading the keys of two values that have keys changes nothing. -/
theorem touch2_of_isSome {q : minPQ K V} {x y : V} (hx : (q.keyOf x).isSome = true)
    (hy : (q.keyOf y).isSome = true) : touch2 q x y = q := by
  unfold touch2
  rw [HMap.touch_of_isSome hx, HMap.touch_of_isSome hy]

theorem heapUp_done {key : V → K} {a : Nat → V} {n i : Nat} (h : HeapUp key a n i)
    (hi : 0 < i → key (a (parent i)) ≤ key (a i)) : HeapArr key a n := by
  intro j hj hjn
  by_cases hji : j = i
  · subst hji; exact hi hj
  · exact h.1 j hj hjn hji

theorem heapUp_swap {key : V → K} {a : Nat → V} {n i : Nat} (h : HeapUp key a n i)
    (hi0 : 0 < i) (hin : i < n) (hlt : key (a i) < key (a (parent i))) :
    HeapUp key (swapArr a i (parent i)) n (parent i) := by
  have hp := parent_lt hi0
  constructor
  · intro j hj hjn hjp
    by_cases hji : j = i
    · rw [hji, swapArr_right, swapArr_left]; exact le_of_lt hlt
    · rw [swapArr_other a hji hjp]
      by_cases hpp : parent j = parent i
      · rw [hpp, swapArr_right]
        have := h.1 j hj hjn hji
        rw [hpp] at this
        exact le_trans (le_of_lt hlt) this
      · by_cases hpi : parent j = i
        · rw [hpi, swapArr_left]
          exact h.2 hi0 j hj hjn hpi
        · rw [swapArr_other a hpi hpp]
          exact h.1 j hj hjn hji
  · intro hp0 j hj hjn hpj
    have hppl := parent_lt hp0
    rw [swapArr_other a (by omega) (by omega)]
    have hpar := h.1 (parent i) hp0 (by omega) (by omega)
    by_cases hji : j = i
    · rw [hji, swapArr_left]; exact hpar
    · have hjp : j ≠ parent i := by have := parent_lt hj; omega
      rw [swapArr_other a hji hjp]
      have := h.1 j hj hjn hji
      rw [hpj] at this
      exact le_trans hpar this

/-- Sift-up from slot `i` turns a heap that is only broken above `i` into a
heap, given fuel for the remaining height. -/
theorem siftUpAux_heap (key : V → K) (n fuel i : Nat) (q : minPQ K V) (hf : i < fuel)
    (hin : i < n) (hk : ∀ z, q.keyOf.read z = key z) (h : HeapUp key q.arr n i) :
    HeapArr key (siftUpAux fuel i q).arr n := by
  induction fuel generalizing i q with
  | zero => omega
  | succ fuel ih =>
    unfold siftUpAux
    by_cases h0 : 0 < i
    · rw [if_pos h0]
      simp only
      by_cases hc : q.keyOf.read (q.arr (parent i)) > q.keyOf.read (q.arr i)
      · rw [if_pos hc]
        have hp := parent_lt h0
        apply ih
        · omega
        · omega
        · intro z
          show (touch2 q (q.arr (parent i)) (q.arr i)).keyOf.read z = key z
          rw [read_touch2, hk]
        · show HeapUp key (swapArr q.arr i (parent i)) n (parent i)
          apply heapUp_swap h h0 hin
          rw [← hk, ← hk]; exact hc
      · rw [if_neg hc]
        show HeapArr key q.arr n
        apply heapUp_done h
        intro _
        rw [← hk, ← hk]; exact not_lt.mp hc
    · rw [if_neg h0]
      apply heapUp_done h
      intro hc; exact absurd hc h0

/-- Sift-up on a queue whose stored values all have keys: no key is inserted or
changed, the stored values stay pairwise distinct and form the same set. -/
theorem siftUpAux_stored (n fuel i : Nat) (q : minPQ K V) (hin : i < n)
    (hk : ∀ j, j < n → (q.keyOf (q.arr j)).isSome = true)
    (hinj : ∀ x y, x < n → y < n → q.arr x = q.arr y → x = y) :
    (siftUpAux fuel i q).keyOf = q.keyOf ∧
      (∀ x y, x < n → y < n → (siftUpAux fuel i q).arr x = (siftUpAux fuel i q).arr y → x = y) ∧
      (∀ v, (∃ k, k < n ∧ (siftUpAux fuel i q).arr k = v) ↔ (∃ k, k < n ∧ q.arr k = v)) := by
  induction fuel generalizing i q with
  | zero => exact ⟨rfl, hinj, fun _ => Iff.rfl⟩
  | succ fuel ih =>
    unfold siftUpAux
    by_cases h0 : 0 < i
    · rw [if_pos h0]
      have hp : parent i < n := lt_of_le_of_lt (parent_le i) hin
      have ht : touch2 q (q.arr (parent i)) (q.arr i) = q :=
        touch2_of_isSome (hk _ hp) (hk _ hin)
      simp only [ht]
      by_cases hc : q.keyOf.read (q.arr (parent i)) > q.keyOf.read (q.arr i)
      · rw [if_pos hc]
        obtain ⟨g1, g2, g3⟩ := ih (parent i)
          { q with
            arr := swapArr q.arr i (parent i)
            indexOf := (q.indexOf.set (swapArr q.arr i (parent i) i) i).set
              (swapArr q.arr i (parent i) (parent i)) (parent i) }
          hp (swapArr_mem (S := fun x => (q.keyOf x).isSome = true) hk hin hp)
          (swapArr_inj hin hp hinj)
        exact ⟨g1, g2, fun v => (g3 v).trans (swapArr_holds hin hp v)⟩
      · rw [if_neg hc]
        exact ⟨rfl, hinj, fun _ => Iff.rfl⟩
    · rw [if_neg h0]
      exact ⟨rfl, hinj, fun _ => Iff.rfl⟩

end minPQ

namespace minPQ

variable {K V : Type} [DecidableEq V] [LinearOrder K] [Zero K]

theorem top_of_eq {q : minPQ K V} (h : q.numElements = 0) : top q = (.throw .queueEmpty, q) := by
  unfold top; rw [if_pos h]

theorem top_of_ne {q : minPQ K V} (h : q.numElements ≠ 0) :
    top q = (.ret (q.keyOf.read (q.arr 0), q.arr 0),
      { q with keyOf := q.keyOf.touch (q.arr 0) }) := by
  unfold top; rw [if_neg h]

end minPQ

/-- The contract of `top` on a queue whose stored values are keyed: `top`
throws (the empty-queue error) if and only if the queue holds no elements, and
then changes nothing; on a non-empty queue that stores pairwise distinct values with their keys in min-heap order it returns the entry of slot
0, a stored value with its key, which is less than or equal to every stored
key, and leaves the whole queue (array, keys, index map, size) unchanged. -/
theorem top_contract {K V : Type} [DecidableEq V] [LinearOrder K] [Zero K] (q : minPQ K V) :
    ((minPQ.top q).1 = .throw .queueEmpty ↔ q.numElements = 0) ∧
      ((∃ e, (minPQ.top q).1 = .throw e) ↔ q.numElements = 0) ∧
      (q.numElements = 0 → (minPQ.top q).2 = q) ∧
      (q.numElements ≠ 0 → minPQ.Stored q → minPQ.IsHeap q →
        (minPQ.top q).1 = .ret (q.keyOf.read (q.arr 0), q.arr 0) ∧
        minPQ.Holds q (q.arr 0) ∧ q.keyOf (q.arr 0) = some (q.keyOf.read (q.arr 0)) ∧
        (∀ i, i < q.numElements → q.keyOf.read (q.arr 0) ≤ q.keyOf.read (q.arr i)) ∧
        (minPQ.top q).2 = q) := by
  by_cases h : q.numElements = 0
  · rw [minPQ.top_of_eq h]
    exact ⟨⟨fun _ => h, fun _ => rfl⟩, ⟨fun _ => h, fun _ => ⟨_, rfl⟩⟩, fun _ => rfl,
      fun hne => absurd h hne⟩
  · rw [minPQ.top_of_ne h]
    refine ⟨⟨(fun hc => by cases hc), fun hc => absurd hc h⟩,
      ⟨(fun hc => by obtain ⟨e, he⟩ := hc; cases he), fun hc => absurd hc h⟩,
      fun hc => absurd hc h, fun _ hs hh => ?_⟩
    have h0 : 0 < q.numElements := Nat.pos_of_ne_zero h
    have hk := hs.keyed 0 h0
    obtain ⟨k, hk'⟩ := Option.isSome_iff_exists.mp hk
    refine ⟨rfl, ⟨0, h0, rfl⟩, ?_, minPQ.heapArr_root_le hh, ?_⟩
    · rw [hk', HMap.read_of_some hk']
    · show { q with keyOf := q.keyOf.touch (q.arr 0) } = q
      rw [HMap.touch_of_isSome hk]

/-- The contract of `top` on the queue of the scenario of `pop` (entries
(5,"a"), (2,"b"), (8,"c")): `top` returns (2,"b") and leaves the queue
unchanged. -/
theorem top_contract_example :
    (minPQ.runOps opsC8 (minPQ.new 3)).2.numElements ≠ 0 ∧
      (minPQ.top (minPQ.runOps opsC8 (minPQ.new 3)).2).1 = .ret (2, "b") ∧
      (minPQ.top (minPQ.runOps opsC8 (minPQ.new 3)).2).2 = (minPQ.runOps opsC8 (minPQ.new 3)).2 :=
  have hn : (minPQ.runOps opsC8 (minPQ.new 3)).2.numElements = 3 := by decide
  have hne : (minPQ.runOps opsC8 (minPQ.new 3)).2.numElements ≠ 0 := by decide
  have hs : minPQ.Stored (minPQ.runOps opsC8 (minPQ.new 3)).2 := by
    constructor
    · rw [hn]
      intro i j hi hj he
      interval_cases i <;> interval_cases j <;>
        first
        | rfl
        | (exfalso; revert he; decide)
    · rw [hn]; decide
  have hh : minPQ.IsHeap (minPQ.runOps opsC8 (minPQ.new 3)).2 := by
    unfold minPQ.IsHeap minPQ.HeapArr
    rw [hn]
    intro j hj hjn
    have hj12 : j = 1 ∨ j = 2 := by omega
    rcases hj12 with rfl | rfl <;> decide
  have h := (top_contract (minPQ.runOps opsC8 (minPQ.new 3)).2).2.2.2 hne hs hh
  ⟨hne, by decide, h.2.2.2.2⟩

namespace minPQ

variable {K V : Type} [DecidableEq V] [LinearOrder K] [Zero K]

/-- Popping a queue that stores a set of entries in heap order until it is
empty: every stored value is returned exactly once, with its key, and the keys
come out in non-decreasing order. -/
theorem drainAux_spec (fuel : Nat) (q : minPQ K V) (hf : q.numElements ≤ fuel)
    (hs : Stored q) (hh : IsHeap q) :
    ((drainAux fuel q).map (fun kv => kv.2)).Nodup ∧
      (∀ x, x ∈ (drainAux fuel q).map (fun kv => kv.2) ↔ Holds q x) ∧
      (∀ kv, kv ∈ drainAux fuel q → kv.1 = q.keyOf.read kv.2) ∧
      (drainAux fuel q).Pairwise (fun a b => a.1 ≤ b.1) ∧
      (drainAux fuel q).length = q.numElements := by
  induction fuel generalizing q with
  | zero =>
    have h0 : q.numElements = 0 := by omega
    unfold drainAux
    refine ⟨List.nodup_nil, fun x => ?_, (fun kv hkv => by cases hkv), List.Pairwise.nil,
      h0.symm⟩
    constructor
    · intro hx; cases hx
    · rintro ⟨j, hj, _⟩; omega
  | succ fuel ih =>
    unfold drainAux
    by_cases he : q.empty = true
    · rw [if_pos he]
      have h0 : q.numElements = 0 := by
        unfold empty at he; simpa using he
      refine ⟨List.nodup_nil, fun x => ?_, (fun kv hkv => by cases hkv), List.Pairwise.nil,
        h0.symm⟩
      constructor
      · intro hx; cases hx
      · rintro ⟨j, hj, _⟩; omega
    · rw [if_neg he]
      have hne : q.numElements ≠ 0 := by
        intro h0; apply he; unfold empty; simp [h0]
      obtain ⟨p1, p2, p3, p4, p5, p6, p7, p8⟩ := pop_spec hne hs hh
      have hpop := pop_of_ne hne
      have hq1 : (pop q).2 = _ := congrArg Prod.snd hpop
      simp only at hq1
      rw [hpop, ← hq1]
      simp only
      obtain ⟨i1, i2, i3, i4, i5⟩ := ih (pop q).2 (by rw [p3]; omega) p7 p8
      have hkeys : ∀ kv, kv ∈ drainAux fuel (pop q).2 → kv.1 = q.keyOf.read kv.2 := by
        intro kv hkv
        rw [i3 kv hkv]
        have hh2 : Holds (pop q).2 kv.2 := (i2 kv.2).mp (List.mem_map.mpr ⟨kv, hkv, rfl⟩)
        have hne2 := ((p4 kv.2).mp hh2).1
        unfold HMap.read
        rw [p5 kv.2 hne2]
      refine ⟨?_, ?_, ?_, ?_, ?_⟩
      · rw [List.map_cons, List.nodup_cons]
        refine ⟨fun hm => ?_, i1⟩
        exact ((p4 _).mp ((i2 _).mp hm)).1 rfl
      · intro x
        rw [List.map_cons, List.mem_cons, i2 x, p4 x]
        constructor
        · rintro (hx | ⟨_, hx⟩)
          · rw [hx]; exact ⟨0, Nat.pos_of_ne_zero hne, rfl⟩
          · exact hx
        · intro hx
          by_cases hx0 : x = q.arr 0
          · exact Or.inl hx0
          · exact Or.inr ⟨hx0, hx⟩
      · intro kv hkv
        rcases List.mem_cons.mp hkv with h1 | h1
        · rw [h1]
        · exact hkeys kv h1
      · rw [List.pairwise_cons]
        refine ⟨fun kv hkv => ?_, i4⟩
        rw [hkeys kv hkv]
        have hh2 : Holds (pop q).2 kv.2 := (i2 kv.2).mp (List.mem_map.mpr ⟨kv, hkv, rfl⟩)
        obtain ⟨j, hj, hje⟩ := ((p4 kv.2).mp hh2).2
        rw [← hje]
        exact p2 j hj
      · rw [List.length_cons, i5, p3]; omega

/-- The copy made by the copy constructor stores the same entries in the same
slots. -/
theorem copy_spec [Inhabited V] (q : minPQ K V) (hs : Stored q) (hh : IsHeap q) :
    Stored (copy q) ∧ IsHeap (copy q) ∧ (∀ x, Holds (copy q) x ↔ Holds q x) ∧
      (copy q).keyOf = q.keyOf ∧ (copy q).numElements = q.numElements := by
  have harr : ∀ j, j < q.numElements → (copy q).arr j = q.arr j := by
    intro j hj; unfold copy; simp [hj]
  refine ⟨⟨?_, ?_⟩, ?_, ?_, rfl, rfl⟩
  · intro i j hi hj he
    have hi' : i < q.numElements := hi
    have hj' : j < q.numElements := hj
    rw [harr i hi', harr j hj'] at he
    exact hs.inj i j hi' hj' he
  · intro j hj
    have hj' : j < q.numElements := hj
    rw [harr j hj']
    exact hs.keyed j hj'
  · intro j hj hjn
    have hjn' : j < q.numElements := hjn
    show q.keyOf.read ((copy q).arr (parent j)) ≤ q.keyOf.read ((copy q).arr j)
    rw [harr j hjn', harr _ (lt_of_le_of_lt (parent_le j) hjn')]
    exact hh j hj hjn'
  · intro x
    constructor
    · rintro ⟨j, hj, he⟩
      have hj' : j < q.numElements := hj
      exact ⟨j, hj', by rw [← harr j hj']; exact he⟩
    · rintro ⟨j, hj, he⟩
      exact ⟨j, hj, by rw [harr j hj]; exact he⟩

end minPQ

/-- The contract of `heapSort`: for every queue that stores pairwise distinct
values with their keys in min-heap order, `heapSort` returns the stored values,
each exactly once (as many as the queue holds), arranged by non-decreasing key, and leaves the queue
itself (array, keys, index map, size) unchanged. -/
theorem heapSort_contract {K V : Type} [DecidableEq V] [LinearOrder K] [Zero K] [Inhabited V]
    (q : minPQ K V) (hs : minPQ.Stored q) (hh : minPQ.IsHeap q) :
    (minPQ.heapSort q).1.Nodup ∧
      (∀ x, x ∈ (minPQ.heapSort q).1 ↔ minPQ.Holds q x) ∧
      (minPQ.heapSort q).1.length = q.numElements ∧
      (minPQ.heapSort q).1.Pairwise (fun x y => q.keyOf.read x ≤ q.keyOf.read y) ∧
      (minPQ.heapSort q).2 = q := by
  obtain ⟨c1, c2, c3, c4, c5⟩ := minPQ.copy_spec q hs hh
  obtain ⟨d1, d2, d3, d4, d5⟩ := minPQ.drainAux_spec (minPQ.copy q).numElements (minPQ.copy q)
    le_rfl c1 c2
  unfold minPQ.heapSort minPQ.drain
  refine ⟨d1, fun x => (d2 x).trans (c3 x), by rw [List.length_map, d5, c5], ?_, rfl⟩
  rw [List.pairwise_map]
  refine d4.imp_of_mem ?_
  intro a b ha hb hab
  have ea := d3 a ha
  have eb := d3 b hb
  rw [c4] at ea eb
  rw [← ea, ← eb]
  exact hab

/-- The queue of capacity 6 after the five calls of `opsC13` holds five elements. -/
theorem qC13_num : (minPQ.runOps opsC13 (minPQ.new 6)).2.numElements = 5 := by decide

/-- The queue after the five calls of `opsC13` stores pairwise distinct values
with keys. -/
theorem qC13_stored : minPQ.Stored (minPQ.runOps opsC13 (minPQ.new 6)).2 := by
  constructor
  · rw [qC13_num]
    intro i j hi hj he
    interval_cases i <;> interval_cases j <;>
      first
      | rfl
      | (exfalso; revert he; decide)
  · rw [qC13_num]; decide

/-- The queue after the five calls of `opsC13` is in min-heap order. -/
theorem qC13_heap : minPQ.IsHeap (minPQ.runOps opsC13 (minPQ.new 6)).2 := by
  unfold minPQ.IsHeap minPQ.HeapArr
  rw [qC13_num]
  intro j hj hjn
  interval_cases j <;> decide

/-- The contract of `heapSort` on the queue that holds (5,"a"), (2,"b"),
(8,"c"), (1,"d"), (3,"e"): `heapSort` returns "d", "b", "e", "a", "c". -/
theorem heapSort_contract_example :
    (minPQ.heapSort (minPQ.runOps opsC13 (minPQ.new 6)).2).1 = ["d", "b", "e", "a", "c"] ∧
      (minPQ.heapSort (minPQ.runOps opsC13 (minPQ.new 6)).2).1.Nodup ∧
      (minPQ.heapSort (minPQ.runOps opsC13 (minPQ.new 6)).2).2
        = (minPQ.runOps opsC13 (minPQ.new 6)).2 :=
  have h := heapSort_contract (minPQ.runOps opsC13 (minPQ.new 6)).2 qC13_stored qC13_heap
  ⟨by decide, h.1, h.2.2.2.2⟩

/-! ## Adding vertices, constructing a vertex, removing a foreign vertex -/

/-- C21: after `addVertex(v)`, `getVertices` returns the previous vertex sequence
followed by `v`, and no vertex object is changed; hence after the calls
`addVertex` for the vertices of a list `vs`, one after the other, on a graph `g`,
`getVertices` returns the vertices of `g` followed by `vs` in the order of the
calls (on the empty graph: `vs` itself). -/
theorem C21_addVertex_appends {T D : Type} (g : DirectedGraph) (v : Nat) (vs : List Nat)
    (mem : Store T D) :
    (g.addVertex v mem).1.getVertices = g.getVertices ++ [v] ∧
      (g.addVertex v mem).2 = mem ∧
      (DirectedGraph.addVertices vs (g, mem)).1.getVertices = g.getVertices ++ vs ∧
      (DirectedGraph.addVertices vs ((⟨[]⟩ : DirectedGraph), mem)).1.getVertices = vs := by
  have key : ∀ (l : List Nat) (s : DirectedGraph × Store T D),
      (DirectedGraph.addVertices l s).1.getVertices = s.1.getVertices ++ l := by
    intro l
    induction l with
    | nil => intro s; unfold DirectedGraph.addVertices; simp
    | cons a l ih =>
      intro s
      unfold DirectedGraph.addVertices
      rw [ih]
      unfold DirectedGraph.addVertex DirectedGraph.getVertices
      simp
  refine ⟨rfl, rfl, key vs (g, mem), ?_⟩
  rw [key vs]
  unfold DirectedGraph.getVertices
  simp

/-- C29, as amended: for every value `val`, a vertex newly constructed with
`Vertex(val)` has value `val`, visited = false, distance = 0 (the constructor
body assigns `distance = 0.0`), parent = none, finishTime = 0 and an empty
adjacency list. -/
theorem C29_new_vertex {T D : Type} [Zero D] (val : T) :
    (Vertex.new val : Vertex T D).value = val ∧
      (Vertex.new val : Vertex T D).visited = false ∧
      (Vertex.new val : Vertex T D).distance = 0 ∧
      (Vertex.new val : Vertex T D).parent = none ∧
      (Vertex.new val : Vertex T D).finishTime = 0 ∧
      (Vertex.new val : Vertex T D).adjacencyList = [] :=
  ⟨rfl, rfl, rfl, rfl, rfl, rfl⟩

/-- Counterexample to C29 as stated: the vertex constructed with `Vertex(7)` has
distance 0, which is not +infinity. -/
theorem C29_counterexample :
    (Vertex.new 7 : Vertex Nat (WithTop Nat)).distance = 0 ∧
      (Vertex.new 7 : Vertex Nat (WithTop Nat)).distance ≠ ⊤ := by
  decide

/-- C30, the failing runs: vertex 5 is not in the vertex collection of `gC30`
(whose two vertices have one outgoing edge each), and `removeVertex(5)` returns
normally, leaving the collection and both adjacency lists as they were; on the
empty graph `removeVertex(7)` returns normally too. -/
theorem C30_failing_run :
    5 ∉ gC30.vertices ∧
      (gC30.removeVertex 5 memC30).1 = .ret () ∧
      (gC30.removeVertex 5 memC30).2.1.vertices = [0, 1] ∧
      ((gC30.removeVertex 5 memC30).2.2 0).adjacencyList = (memC30 0).adjacencyList ∧
      ((gC30.removeVertex 5 memC30).2.2 1).adjacencyList = (memC30 1).adjacencyList ∧
      ((⟨[]⟩ : DirectedGraph).removeVertex 7 memC30).1 = .ret () := by
  decide

/-- C25, the failing run: `gC25` has distinct vertices, owned edge targets and
non-negative weights, and the walk 0 -> 4 -> 3 -> 2 has total weight 9. In the
run of `Dijkstra` from vertex 0, after three iterations of the main loop the
queue still holds the vertices 2 and 3, vertex 3 (reachable, not visited) has
the key 6, and `pop` returns the key +infinity with vertex 2: the loop stops.
At the end vertex 2 is left with distance +infinity although it is reachable,
and vertex 3 has the finite distance 6 although it was never visited, so its
edge 3 -> 2 was never relaxed. -/
theorem C25_failing_run :
    gC25.vertices.Nodup ∧ 0 ∈ gC25.vertices ∧
      DirectedGraph.TargetsOwned memC25 gC25.vertices ∧
      (∀ u, u ∈ gC25.vertices → ∀ e, e ∈ (memC25 u).adjacencyList → 0 ≤ e.2.1) ∧
      Vertex.isWalk memC25 0 [(4, 5), (3, 1), (2, 3)] = true ∧
      Vertex.walkEnd 0 [(4, (5 : WithTop Nat)), (3, 1), (2, 3)] = 2 ∧
      Vertex.walkWeight [(4, (5 : WithTop Nat)), (3, 1), (2, 3)] = 9 ∧
      Vertex.Reach memC25 0 3 ∧ Vertex.Reach memC25 0 2 ∧
      gC25.Dijkstra 0 memC25 =
        (match DirectedGraph.dijkstraLoop gC25.vertices.length loopC25 with
          | (.throw e, (mem3, _)) => (.throw e, mem3)
          | (.ret _, (mem3, _)) => (.ret (DirectedGraph.collect mem3 gC25.vertices []), mem3)) ∧
      (DirectedGraph.dijkstraLoop 3 loopC25).1 = .ret () ∧
      (DirectedGraph.dijkstraLoop 3 loopC25).2.2.numElements = 2 ∧
      (DirectedGraph.dijkstraLoop 3 loopC25).2.2.arr 0 = 2 ∧
      (DirectedGraph.dijkstraLoop 3 loopC25).2.2.arr 1 = 3 ∧
      (DirectedGraph.dijkstraLoop 3 loopC25).2.2.keyOf 3 = some 6 ∧
      ((DirectedGraph.dijkstraLoop 3 loopC25).2.1 3).visited = false ∧
      (minPQ.pop (DirectedGraph.dijkstraLoop 3 loopC25).2.2).1 = .ret (⊤, 2) ∧
      (gC25.Dijkstra 0 memC25).1 = .ret [(0, 0), (1, 4), (2, ⊤), (3, 6), (4, 5)] ∧
      ((gC25.Dijkstra 0 memC25).2 2).distance = ⊤ ∧
      ((gC25.Dijkstra 0 memC25).2 2).visited = false ∧
      ((gC25.Dijkstra 0 memC25).2 3).distance = 6 ∧
      ((gC25.Dijkstra 0 memC25).2 3).visited = false := by
  have r4 : Vertex.Reach memC25 0 4 :=
    Vertex.Reach.step Vertex.Reach.refl
      (show ((4 : Nat), (5 : WithTop Nat), "") ∈ (memC25 0).adjacencyList from by decide)
  have r3 : Vertex.Reach memC25 0 3 := Vertex.Reach.step r4
    (show ((3 : Nat), (1 : WithTop Nat), "") ∈ (memC25 4).adjacencyList from by decide)
  have r2 : Vertex.Reach memC25 0 2 := Vertex.Reach.step r3
    (show ((2 : Nat), (3 : WithTop Nat), "") ∈ (memC25 3).adjacencyList from by decide)
  refine ⟨by decide, by decide, ?_, by decide, by decide, by decide, by decide, r3, r2,
    DirectedGraph.Dijkstra_of_found gC25 0 memC25 0 (by decide), by decide, by decide, by decide,
    by decide, by decide, by decide, by decide, by decide, by decide, by decide, by decide,
    by decide⟩
  unfold DirectedGraph.TargetsOwned
  decide

/-! ## The two loops of the copy constructor -/

namespace DirectedGraph

variable {T D : Type}

/-- The inner loop of the second step appends the remapped records of the
source vertex to the adjacency list of `v2` and changes nothing else. -/
theorem cloneEdgesOf_spec (remap : HMap Nat Nat) (v2 : Nat) (es : List (Nat × D × String))
    (mem : Store T D) :
    (∀ x, x ≠ v2 → cloneEdgesOf remap v2 es mem x = mem x) ∧
      cloneEdgesOf remap v2 es mem v2 =
        { mem v2 with adjacencyList :=
            (mem v2).adjacencyList ++ es.map (fun e => (remap.read e.1, e.2.1, e.2.2)) } := by
  induction es generalizing mem with
  | nil => unfold cloneEdgesOf; simp
  | cons e es ih =>
    obtain ⟨t, w, name⟩ := e
    unfold cloneEdgesOf
    obtain ⟨h1, h2⟩ := ih (Vertex.put v2 ((mem v2).addEdge (remap.read t) w name) mem)
    refine ⟨fun x hx => by rw [h1 x hx, Vertex.put_of_ne _ _ hx], ?_⟩
    rw [h2, Vertex.put_self]
    unfold Vertex.addEdge
    simp

theorem cloneVertices_out (alloc : Nat → Nat) (vs : List Nat) (k : Nat) (out : List Nat)
    (remap : HMap Nat Nat) (mem : Store T D) :
    (cloneVertices alloc vs k (out, remap, mem)).1
      = out ++ (List.range' k vs.length).map alloc := by
  induction vs generalizing k out remap mem with
  | nil => simp [cloneVertices]
  | cons v vs ih =>
    unfold cloneVertices
    rw [ih]
    simp [List.range'_succ]

/-- The first loop writes only to the addresses returned by `new`. -/
theorem cloneVertices_mem_frame (alloc : Nat → Nat) (vs : List Nat) (k : Nat) (out : List Nat)
    (remap : HMap Nat Nat) (mem : Store T D) (x : Nat)
    (hx : ∀ i, i < vs.length → x ≠ alloc (k + i)) :
    (cloneVertices alloc vs k (out, remap, mem)).2.2 x = mem x := by
  induction vs generalizing k out remap mem with
  | nil => simp [cloneVertices]
  | cons v vs ih =>
    unfold cloneVertices
    rw [ih]
    · exact Vertex.put_of_ne _ _ (hx 0 (by simp))
    · intro i hi
      have := hx (i + 1) (by simp; omega)
      rwa [show k + (i + 1) = k + 1 + i by omega] at this

theorem cloneVertices_remap_frame (alloc : Nat → Nat) (vs : List Nat) (k : Nat) (out : List Nat)
    (remap : HMap Nat Nat) (mem : Store T D) (x : Nat) (hx : x ∉ vs) :
    (cloneVertices alloc vs k (out, remap, mem)).2.1 x = remap x := by
  induction vs generalizing k out remap mem with
  | nil => simp [cloneVertices]
  | cons v vs ih =>
    unfold cloneVertices
    rw [ih _ _ _ _ (fun h => hx (List.mem_cons_of_mem _ h))]
    exact HMap.set_of_ne _ _ (fun h => hx (h ▸ List.mem_cons_self _ _))

/-- After the first loop `remap` sends every source vertex to an address
returned by `new`. -/
theorem cloneVertices_remap_weak (alloc : Nat → Nat) (vs : List Nat) (k : Nat) (out : List Nat)
    (remap : HMap Nat Nat) (mem : Store T D) (v : Nat) (hv : v ∈ vs) :
    ∃ i, i < vs.length ∧
      (cloneVertices alloc vs k (out, remap, mem)).2.1 v = some (alloc (k + i)) := by
  induction vs generalizing k out remap mem with
  | nil => cases hv
  | cons v0 vs ih =>
    unfold cloneVertices
    by_cases hin : v ∈ vs
    · obtain ⟨i, hi, he⟩ := ih (k + 1) (out ++ [alloc k]) (remap.set v0 (alloc k))
        (Vertex.put (alloc k) (Vertex.copy (mem v0)) mem) hin
      exact ⟨i + 1, by simp; omega, by rw [he, show k + (i + 1) = k + 1 + i by omega]⟩
    · have hv0 : v = v0 := by
        rcases List.mem_cons.mp hv with h | h
        · exact h
        · exact absurd h hin
      refine ⟨0, by simp, ?_⟩
      rw [cloneVertices_remap_frame _ _ _ _ _ _ _ hin, hv0]
      exact HMap.set_self _ _ _

/-- After the first loop over pairwise distinct vertices `remap` sends the
vertex at position `i` to the address returned by the `i`-th `new`. -/
theorem cloneVertices_remap (alloc : Nat → Nat) (vs : List Nat) (k : Nat) (out : List Nat)
    (remap : HMap Nat Nat) (mem : Store T D) (hnd : vs.Nodup) (i v : Nat)
    (hv : vs[i]? = some v) :
    (cloneVertices alloc vs k (out, remap, mem)).2.1 v = some (alloc (k + i)) := by
  induction vs generalizing k out remap mem i with
  | nil => simp at hv
  | cons v0 vs ih =>
    unfold cloneVertices
    rw [List.nodup_cons] at hnd
    cases i with
    | zero =>
      simp at hv
      subst hv
      rw [cloneVertices_remap_frame _ _ _ _ _ _ _ hnd.1]
      exact HMap.set_self _ _ _
    | succ i =>
      simp at hv
      rw [ih _ _ _ _ hnd.2 i hv, show k + (i + 1) = k + 1 + i by omega]

/-- After the first loop the object at the address returned by the `i`-th `new`
is the copy of the vertex at position `i`. -/
theorem cloneVertices_store (alloc : Nat → Nat) (vs : List Nat) (k : Nat) (out : List Nat)
    (remap : HMap Nat Nat) (mem : Store T D)
    (hinj : ∀ i, i < vs.length → ∀ j, j < vs.length → alloc (k + i) = alloc (k + j) → i = j)
    (hfresh : ∀ i, i < vs.length → alloc (k + i) ∉ vs) (i v : Nat) (hv : vs[i]? = some v) :
    (cloneVertices alloc vs k (out, remap, mem)).2.2 (alloc (k + i)) = Vertex.copy (mem v) := by
  induction vs generalizing k out remap mem i with
  | nil => simp at hv
  | cons v0 vs ih =>
    unfold cloneVertices
    have hinj' : ∀ i, i < vs.length → ∀ j, j < vs.length →
        alloc (k + 1 + i) = alloc (k + 1 + j) → i = j := by
      intro a ha b hb hab
      have := hinj (a + 1) (by simp; omega) (b + 1) (by simp; omega)
        (by rw [show k + (a + 1) = k + 1 + a by omega, show k + (b + 1) = k + 1 + b by omega]
            exact hab)
      omega
    have hfresh' : ∀ i, i < vs.length → alloc (k + 1 + i) ∉ vs := by
      intro a ha hm
      have := hfresh (a + 1) (by simp; omega)
      rw [show k + (a + 1) = k + 1 + a by omega] at this
      exact this (List.mem_cons_of_mem _ hm)
    cases i with
    | zero =>
      simp at hv
      subst hv
      rw [cloneVertices_mem_frame]
      · exact Vertex.put_self _ _ _
      · intro j hj hc
        have := hinj 0 (by simp) (j + 1) (by simp; omega)
          (by rw [show k + (j + 1) = k + 1 + j by omega]; exact hc)
        omega
    | succ i =>
      simp at hv
      have hlt : i < vs.length := by
        rcases Nat.lt_or_ge i vs.length with h | h
        · exact h
        · rw [List.getElem?_eq_none h] at hv; cases hv
      rw [show k + (i + 1) = k + 1 + i by omega, ih _ _ _ _ hinj' hfresh' i hv]
      have hne : v ≠ alloc k := by
        intro hc
        have := hfresh 0 (by simp)
        apply this
        rw [Nat.add_zero, ← hc]
        exact List.mem_cons_of_mem _ (List.getElem?_mem hv)
      rw [Vertex.put_of_ne _ _ hne]

/-- The second loop, when `remap` sends the pairwise distinct source vertices to
pairwise distinct addresses that are not source vertices: every target address
gains the remapped records of its source vertex, nothing else is changed. -/
theorem cloneEdges_spec (remap : HMap Nat Nat) (vs ws : List Nat) (mem : Store T D)
    (hsub : ∀ v, v ∈ ws → v ∈ vs) (hnd : ws.Nodup)
    (hout : ∀ v, v ∈ vs → remap.read v ∉ vs)
    (hinj : ∀ u, u ∈ vs → ∀ v, v ∈ vs → remap.read u = remap.read v → u = v) :
    (∀ x, (∀ v, v ∈ ws → x ≠ remap.read v) → cloneEdges remap ws mem x = mem x) ∧
      (∀ v, v ∈ ws → cloneEdges remap ws mem (remap.read v) =
        { mem (remap.read v) with adjacencyList :=
            (mem (remap.read v)).adjacencyList
              ++ (mem v).adjacencyList.map (fun e => (remap.read e.1, e.2.1, e.2.2)) }) := by
  induction ws generalizing mem with
  | nil =>
    refine ⟨fun x _ => rfl, fun v hv => by cases hv⟩
  | cons v0 ws ih =>
    rw [List.nodup_cons] at hnd
    have hv0 : v0 ∈ vs := hsub v0 (List.mem_cons_self _ _)
    obtain ⟨e1, e2⟩ := cloneEdgesOf_spec remap (remap.read v0) (mem v0).adjacencyList mem
    obtain ⟨i1, i2⟩ := ih (cloneEdgesOf remap (remap.read v0) (mem v0).adjacencyList mem)
      (fun v hv => hsub v (List.mem_cons_of_mem _ hv)) hnd.2
    unfold cloneEdges
    constructor
    · intro x hx
      rw [i1 x (fun v hv => hx v (List.mem_cons_of_mem _ hv)),
        e1 x (hx v0 (List.mem_cons_self _ _))]
    · intro v hv
      rcases List.mem_cons.mp hv with h | h
      · subst h
        rw [i1 _ (fun u hu hc => hnd.1 ((hinj v hv0 u (hsub u (List.mem_cons_of_mem _ hu)) hc) ▸ hu)),
          e2]
      · have hvs : v ∈ vs := hsub v (List.mem_cons_of_mem _ h)
        have hne : remap.read v ≠ remap.read v0 := by
          intro hc
          exact hnd.1 ((hinj v hvs v0 hv0 hc) ▸ h)
        have hne2 : v ≠ remap.read v0 := fun hc => hout v0 hv0 (hc ▸ hvs)
        rw [i2 v h, e1 _ hne, e1 _ hne2]

/-- The second loop writes only to addresses in the range of `remap`. -/
theorem cloneEdges_frame (remap : HMap Nat Nat) (ws : List Nat) (mem : Store T D) (x : Nat)
    (hx : ∀ v, v ∈ ws → x ≠ remap.read v) : cloneEdges remap ws mem x = mem x := by
  induction ws generalizing mem with
  | nil => rfl
  | cons v0 ws ih =>
    unfold cloneEdges
    rw [ih _ (fun v hv => hx v (List.mem_cons_of_mem _ hv)),
      (cloneEdgesOf_spec remap (remap.read v0) (mem v0).adjacencyList mem).1 x
        (hx v0 (List.mem_cons_self _ _))]

/-- The vertex vector of the copy: the addresses returned by `new`, in order. -/
theorem copy_vertices (alloc : Nat → Nat) (g : DirectedGraph) (mem : Store T D) :
    (copy alloc g mem).1.vertices = (List.range g.vertices.length).map alloc := by
  unfold copy
  simp only
  rw [cloneVertices_out, List.nil_append, List.range_eq_range']

/-- The copy constructor writes only to the addresses returned by `new`. -/
theorem copy_frame (alloc : Nat → Nat) (g : DirectedGraph) (mem : Store T D) (x : Nat)
    (hx : ∀ i, i < g.vertices.length → x ≠ alloc i) : (copy alloc g mem).2 x = mem x := by
  unfold copy
  simp only
  rw [cloneEdges_frame, cloneVertices_mem_frame]
  · intro i hi; rw [Nat.zero_add]; exact hx i hi
  · intro v hv
    obtain ⟨i, hi, he⟩ := cloneVertices_remap_weak alloc g.vertices 0 [] HMap.emp mem v hv
    rw [HMap.read_of_some he, Nat.zero_add]
    exact hx i hi

/-- The objects of the copy of a graph with pairwise distinct vertices, when
`new` returns pairwise distinct addresses that are not vertices of the graph:
the object at the `i`-th new address has the fields of the vertex at position
`i`, and as adjacency list the records of that vertex with every target that is
a vertex of the graph replaced by the new address of the same position. -/
theorem graphCopy_spec (alloc : Nat → Nat) (g : DirectedGraph) (mem : Store T D)
    (hnd : g.vertices.Nodup)
    (hinj : ∀ i, i < g.vertices.length → ∀ j, j < g.vertices.length → alloc i = alloc j → i = j)
    (hfresh : ∀ i, i < g.vertices.length → alloc i ∉ g.vertices)
    (hown : TargetsOwned mem g.vertices) (i v : Nat) (hv : g.vertices[i]? = some v) :
    (copy alloc g mem).2 (alloc i) =
      { (Vertex.copy (mem v)) with adjacencyList :=
          (mem v).adjacencyList.map (fun e => (alloc (g.vertices.indexOf e.1), e.2.1, e.2.2)) } := by
  have hvm : v ∈ g.vertices := List.getElem?_mem hv
  have hinj0 : ∀ i, i < g.vertices.length → ∀ j, j < g.vertices.length →
      alloc (0 + i) = alloc (0 + j) → i = j := by
    intro a ha b hb; rw [Nat.zero_add, Nat.zero_add]; exact hinj a ha b hb
  have hfresh0 : ∀ i, i < g.vertices.length → alloc (0 + i) ∉ g.vertices := by
    intro a ha; rw [Nat.zero_add]; exact hfresh a ha
  have hread : ∀ j u, g.vertices[j]? = some u →
      (cloneVertices alloc g.vertices 0 ([], HMap.emp, mem)).2.1.read u = alloc j := by
    intro j u hu
    have := cloneVertices_remap alloc g.vertices 0 [] HMap.emp mem hnd j u hu
    rw [HMap.read_of_some this, Nat.zero_add]
  have hidx : ∀ u, u ∈ g.vertices →
      (cloneVertices alloc g.vertices 0 ([], HMap.emp, mem)).2.1.read u
        = alloc (g.vertices.indexOf u) := by
    intro u hu
    apply hread
    rw [List.getElem?_eq_getElem (List.indexOf_lt_length.mpr hu)]
    simp
  have hlt : ∀ u, u ∈ g.vertices → g.vertices.indexOf u < g.vertices.length :=
    fun u hu => List.indexOf_lt_length.mpr hu
  obtain ⟨_, c2⟩ := cloneEdges_spec (cloneVertices alloc g.vertices 0 ([], HMap.emp, mem)).2.1
    g.vertices g.vertices (cloneVertices alloc g.vertices 0 ([], HMap.emp, mem)).2.2
    (fun _ h => h) hnd
    (fun u hu => by rw [hidx u hu]; exact hfresh _ (hlt u hu))
    (fun a ha b hb hab => by
      rw [hidx a ha, hidx b hb] at hab
      have := hinj _ (hlt a ha) _ (hlt b hb) hab
      exact List.indexOf_inj ha hb |>.mp this)
  have h2 := c2 v hvm
  rw [hread i v hv] at h2
  unfold copy
  simp only
  rw [h2]
  have hs := cloneVertices_store alloc g.vertices 0 [] HMap.emp mem hinj0 hfresh0 i v hv
  rw [Nat.zero_add] at hs
  rw [hs]
  have hvfix : (cloneVertices alloc g.vertices 0 ([], HMap.emp, mem)).2.2 v = mem v := by
    apply cloneVertices_mem_frame
    intro j hj hc
    rw [Nat.zero_add] at hc
    exact hfresh j hj (hc ▸ hvm)
  rw [hvfix]
  have hmap : (mem v).adjacencyList.map
      (fun e => ((cloneVertices alloc g.vertices 0 ([], HMap.emp, mem)).2.1.read e.1, e.2.1, e.2.2))
      = (mem v).adjacencyList.map (fun e => (alloc (g.vertices.indexOf e.1), e.2.1, e.2.2)) := by
    apply List.map_congr_left
    intro e he
    rw [hidx e.1 (hown v hvm e he)]
  rw [hmap]
  simp [Vertex.copy]

end DirectedGraph

/-! ## The claims about copies of a graph -/

namespace DirectedGraph

variable {T D : Type}

/-- The second loop of `removeVertex` writes only to the vertices it walks. -/
theorem removeEdgesTo_frame (v : Nat) (ws : List Nat) (mem : Store T D) (x : Nat)
    (hx : x ∉ ws) : (removeEdgesTo v ws mem).2 x = mem x := by
  induction ws generalizing mem with
  | nil => rfl
  | cons w ws ih =>
    have hxw : x ≠ w := fun h => hx (h ▸ List.mem_cons_self _ _)
    have hxs : x ∉ ws := fun h => hx (List.mem_cons_of_mem _ h)
    unfold removeEdgesTo
    cases hr : (Vertex.removeEdge v (mem w)).1 with
    | throw e => simp only; exact Vertex.put_of_ne _ _ hxw
    | ret a => simp only; rw [ih _ hxs]; exact Vertex.put_of_ne _ _ hxw

/-- Calls that are not given a vertex of `vs`, on a graph that owns no vertex
of `vs`, leave the objects of `vs` as they are, and the graph goes on owning no
vertex of `vs`. -/
theorem runGOps_frame (vs : List Nat) (ops : List (GOp D)) (s : DirectedGraph × Store T D)
    (mem : Store T D) (hops : ∀ op, op ∈ ops → op.Avoids vs)
    (hdis : ∀ x, x ∈ s.1.vertices → x ∉ vs) (hsame : ∀ x, x ∈ vs → s.2 x = mem x) :
    (∀ x, x ∈ (runGOps ops s).1.vertices → x ∉ vs) ∧
      (∀ x, x ∈ vs → (runGOps ops s).2 x = mem x) := by
  induction ops generalizing s with
  | nil => exact ⟨hdis, hsame⟩
  | cons op ops ih =>
    unfold runGOps
    have hop := hops op (List.mem_cons_self _ _)
    apply ih _ (fun o ho => hops o (List.mem_cons_of_mem _ ho))
    · intro x hx
      cases op with
      | addEdge u v w name => exact hdis x hx
      | removeEdge u v =>
        have : (GOp.apply (GOp.removeEdge u v : GOp D) s).1 = s.1 := by
          unfold GOp.apply DirectedGraph.removeEdge
          simp only
          split <;> rfl
        rw [this] at hx
        exact hdis x hx
      | addVertex v =>
        have : (GOp.apply (GOp.addVertex v : GOp D) s).1.vertices = s.1.vertices ++ [v] := rfl
        rw [this, List.mem_append, List.mem_singleton] at hx
        rcases hx with h | h
        · exact hdis x h
        · rw [h]; exact hop
      | removeVertex v =>
        have : (GOp.apply (GOp.removeVertex v : GOp D) s).1.vertices
            = eraseFirstVertex v s.1.vertices := rfl
        rw [this, eraseFirstVertex_eq_erase] at hx
        exact hdis x (List.mem_of_mem_erase hx)
    · intro x hx
      rw [← hsame x hx]
      cases op with
      | addEdge u v w name =>
        have hxu : x ≠ u := fun h => hop (h ▸ hx)
        exact Vertex.put_of_ne _ _ hxu
      | removeEdge u v =>
        have hxu : x ≠ u := fun h => hop (h ▸ hx)
        unfold GOp.apply DirectedGraph.removeEdge
        simp only
        split
        · rfl
        · exact Vertex.put_of_ne _ _ hxu
      | addVertex v => rfl
      | removeVertex v =>
        have : (GOp.apply (GOp.removeVertex v : GOp D) s).2
            = (removeEdgesTo v (eraseFirstVertex v s.1.vertices) s.2).2 := rfl
        rw [this]
        apply removeEdgesTo_frame
        intro hm
        rw [eraseFirstVertex_eq_erase] at hm
        exact hdis x (List.mem_of_mem_erase hm) hx

end DirectedGraph

/-- C22: let `r` be a copy of `g`, made by the copy constructor or by an
assignment, where `new` returns addresses that are not vertices of `g`. After
any sequence of `addEdge`, `removeEdge`, `addVertex` and `removeVertex` on the
copy in which no vertex of `g` is given as the source of an edge or as the vertex
to add (the operands are vertices of the copy or new ones), every vertex object
of `g` is exactly as it was before the copy was made, its adjacency list
included, and the copy owns no vertex of `g`. (The vertex vector of `g` is a
member of `g`, which no call on the copy is given.) -/
theorem C22_copy_frame {T D : Type} (alloc : Nat → Nat) (g self : DirectedGraph)
    (mem : Store T D) (hfresh : ∀ i, i < g.vertices.length → alloc i ∉ g.vertices)
    (r : DirectedGraph × Store T D)
    (hr : r = DirectedGraph.copy alloc g mem ∨ r = DirectedGraph.assign alloc self (some g) mem)
    (ops : List (DirectedGraph.GOp D)) (hops : ∀ op, op ∈ ops → op.Avoids g.vertices) :
    (∀ x, x ∈ g.vertices → (DirectedGraph.runGOps ops r).2 x = mem x) ∧
      (∀ x, x ∈ g.vertices →
        g.getAdjacencyList x (DirectedGraph.runGOps ops r).2 = g.getAdjacencyList x mem) ∧
      (∀ x, x ∈ (DirectedGraph.runGOps ops r).1.vertices → x ∉ g.vertices) := by
  have hr' : r = DirectedGraph.copy alloc g mem := by
    rcases hr with h | h
    · exact h
    · exact h
  subst hr'
  have hdis : ∀ x, x ∈ (DirectedGraph.copy alloc g mem).1.vertices → x ∉ g.vertices := by
    intro x hx
    rw [DirectedGraph.copy_vertices, List.mem_map] at hx
    obtain ⟨i, hi, rfl⟩ := hx
    exact hfresh i (List.mem_range.mp hi)
  have hsame : ∀ x, x ∈ g.vertices → (DirectedGraph.copy alloc g mem).2 x = mem x := by
    intro x hx
    apply DirectedGraph.copy_frame
    intro i hi hc
    exact hfresh i hi (hc ▸ hx)
  obtain ⟨h1, h2⟩ := DirectedGraph.runGOps_frame g.vertices ops _ mem hops hdis hsame
  refine ⟨h2, fun x hx => ?_, h1⟩
  unfold DirectedGraph.getAdjacencyList
  rw [h2 x hx]

/-- Witness of C22 on `gC23`: the copy has the vertices 20, 21, 22; after
`addEdge(21, 20)`, `removeEdge(20, 21)`, `addVertex(30)`, `removeVertex(22)` on
the copy the adjacency list of vertex 10 of `gC23` is as before. -/
theorem C22_copy_frame_witness :
    (DirectedGraph.copy allocC23 gC23 memC23).1.vertices = [20, 21, 22] ∧
      (DirectedGraph.runGOps opsC22 (DirectedGraph.copy allocC23 gC23 memC23)).1.vertices
        = [20, 21, 30] ∧
      ((DirectedGraph.runGOps opsC22 (DirectedGraph.copy allocC23 gC23 memC23)).2 21).adjacencyList
        = [(20, 7, "x")] ∧
      (∀ x, x ∈ gC23.vertices →
        gC23.getAdjacencyList x (DirectedGraph.runGOps opsC22
          (DirectedGraph.copy allocC23 gC23 memC23)).2 = gC23.getAdjacencyList x memC23) :=
  ⟨by decide, by decide, by decide,
    (C22_copy_frame allocC23 gC23 gC23 memC23 (by decide) _ (Or.inl rfl) opsC22
      (by decide)).2.1⟩

/-- C23: let `r` be a copy, made by the copy constructor or by an assignment, of
a graph `g` with pairwise distinct vertices whose edge targets are all owned by
`g`, where `new` returns pairwise distinct addresses that are not vertices of
`g`. The copy has as many vertices as `g`; the vertices of `g` are unchanged;
and for every position `i` the copy's `i`-th vertex has the value of `g`'s
`i`-th vertex and an adjacency list of the same length, whose `j`-th record has
the weight and label of the original `j`-th record and targets the copy's
vertex at the position that the original target has in `g`, which is not a
vertex of `g`. -/
theorem C23_copy_structure {T D : Type} (alloc : Nat → Nat) (g self : DirectedGraph)
    (mem : Store T D) (hnd : g.vertices.Nodup)
    (hown : DirectedGraph.TargetsOwned mem g.vertices)
    (hinj : ∀ i, i < g.vertices.length → ∀ j, j < g.vertices.length → alloc i = alloc j → i = j)
    (hfresh : ∀ i, i < g.vertices.length → alloc i ∉ g.vertices)
    (r : DirectedGraph × Store T D)
    (hr : r = DirectedGraph.copy alloc g mem ∨ r = DirectedGraph.assign alloc self (some g) mem) :
    r.1.vertices.length = g.vertices.length ∧
      (∀ x, x ∈ g.vertices → r.2 x = mem x) ∧
      (∀ (i v : Nat), g.vertices[i]? = some v → ∃ c, r.1.vertices[i]? = some c ∧
        (r.2 c).value = (mem v).value ∧
        (r.2 c).adjacencyList.length = (mem v).adjacencyList.length ∧
        (∀ (j : Nat) (e : Nat × D × String), (mem v).adjacencyList[j]? = some e →
          ∃ e' : Nat × D × String, (r.2 c).adjacencyList[j]? = some e' ∧ e'.2 = e.2 ∧
            r.1.vertices[g.vertices.indexOf e.1]? = some e'.1 ∧
            e'.1 ∈ r.1.vertices ∧ e'.1 ∉ g.vertices)) := by
  have hr' : r = DirectedGraph.copy alloc g mem := by
    rcases hr with h | h
    · exact h
    · exact h
  subst hr'
  have hvs := DirectedGraph.copy_vertices alloc g mem
  have hget : ∀ i, i < g.vertices.length →
      (DirectedGraph.copy alloc g mem).1.vertices[i]? = some (alloc i) := by
    intro i hi
    rw [hvs]
    simp [hi]
  refine ⟨by rw [hvs]; simp, ?_, ?_⟩
  · intro x hx
    apply DirectedGraph.copy_frame
    intro i hi hc
    exact hfresh i hi (hc ▸ hx)
  · intro i v hv
    have hi : i < g.vertices.length := by
      rcases Nat.lt_or_ge i g.vertices.length with h | h
      · exact h
      · rw [List.getElem?_eq_none h] at hv; cases hv
    have hvm : v ∈ g.vertices := List.getElem?_mem hv
    have hs := DirectedGraph.graphCopy_spec alloc g mem hnd hinj hfresh hown i v hv
    refine ⟨alloc i, hget i hi, by rw [hs]; rfl, by rw [hs]; simp, ?_⟩
    intro j e he
    have hidx : g.vertices.indexOf e.1 < g.vertices.length :=
      List.indexOf_lt_length.mpr (hown v hvm e (List.getElem?_mem he))
    refine ⟨(alloc (g.vertices.indexOf e.1), e.2.1, e.2.2), ?_, rfl, hget _ hidx, ?_,
      hfresh _ hidx⟩
    · rw [hs]
      simp [he]
    · exact List.getElem?_mem (hget _ hidx)

/-- Witness of C23 on `gC23`: the copy has the vertices 20, 21, 22 and the
adjacency list of its first vertex is that of vertex 10 with the targets 11, 12
replaced by 21, 22. -/
theorem C23_copy_structure_witness :
    gC23.vertices.Nodup ∧ DirectedGraph.TargetsOwned memC23 gC23.vertices ∧
      (DirectedGraph.copy allocC23 gC23 memC23).1.vertices.length = gC23.vertices.length ∧
      ((DirectedGraph.copy allocC23 gC23 memC23).2 20).adjacencyList
        = [(21, 2, "a b"), (22, 4, "c")] :=
  have ho : DirectedGraph.TargetsOwned memC23 gC23.vertices := by
    unfold DirectedGraph.TargetsOwned; decide
  ⟨by decide, ho,
    (C23_copy_structure allocC23 gC23 gC23 memC23 (by decide) ho (by decide) (by decide) _
      (Or.inl rfl)).1,
    by decide⟩

/-- C28, the failing run: after `Dijkstra` from vertex 10 on `gC23`, vertex 11
has the parent 10. In the copy of the graph (by the copy constructor and by an
assignment alike), whose vertices are 20, 21, 22, the copy 21 of vertex 11 has
the parent 10, which is a vertex of `gC23` and not of the copy; the edge of
the copy 20 of vertex 10, by contrast, targets the copy 21. -/
theorem C28_failing_run :
    (gC23.Dijkstra 10 memC23).1 = .ret [(10, 0), (11, 2), (12, 4)] ∧
      ((gC23.Dijkstra 10 memC23).2 11).parent = some 10 ∧
      (DirectedGraph.copy allocC23 gC23 (gC23.Dijkstra 10 memC23).2).1.vertices = [20, 21, 22] ∧
      ((DirectedGraph.copy allocC23 gC23 (gC23.Dijkstra 10 memC23).2).2 21).value = 1 ∧
      ((DirectedGraph.copy allocC23 gC23 (gC23.Dijkstra 10 memC23).2).2 21).parent = some 10 ∧
      ((DirectedGraph.assign allocC23 ⟨[]⟩ (some gC23) (gC23.Dijkstra 10 memC23).2).2 21).parent
        = some 10 ∧
      10 ∈ gC23.vertices ∧
      10 ∉ (DirectedGraph.copy allocC23 gC23 (gC23.Dijkstra 10 memC23).2).1.vertices ∧
      ((DirectedGraph.copy allocC23 gC23 (gC23.Dijkstra 10 memC23).2).2 20).adjacencyList
        = [(21, 2, "a b"), (22, 4, "c")] := by
  decide

/-! ## `updateKey` on a consistent queue -/

namespace minPQ

variable {K V : Type} [DecidableEq V] [LinearOrder K] [Zero K]

/-- Sift-up keeps the index map consistent with the array: it records both
slots of every swap. -/
theorem siftUpAux_index (n fuel i : Nat) (q : minPQ K V) (hin : i < n)
    (hk : ∀ j, j < n → (q.keyOf (q.arr j)).isSome = true)
    (hinj : ∀ x y, x < n → y < n → q.arr x = q.arr y → x = y)
    (hix : ∀ j, j < n → q.indexOf (q.arr j) = some j) :
    ∀ j, j < n → (siftUpAux fuel i q).indexOf ((siftUpAux fuel i q).arr j) = some j := by
  induction fuel generalizing i q with
  | zero => exact hix
  | succ fuel ih =>
    unfold siftUpAux
    by_cases h0 : 0 < i
    · rw [if_pos h0]
      have hp : parent i < n := lt_of_le_of_lt (parent_le i) hin
      have hpi : parent i ≠ i := Nat.ne_of_lt (parent_lt h0)
      have ht : touch2 q (q.arr (parent i)) (q.arr i) = q :=
        touch2_of_isSome (hk _ hp) (hk _ hin)
      simp only [ht]
      by_cases hc : q.keyOf.read (q.arr (parent i)) > q.keyOf.read (q.arr i)
      · rw [if_pos hc]
        have hinj' := swapArr_inj hin hp hinj
        apply ih (parent i) _ hp
          (swapArr_mem (S := fun x => (q.keyOf x).isSome = true) hk hin hp) hinj'
        intro j hj
        show ((q.indexOf.set (swapArr q.arr i (parent i) i) i).set
          (swapArr q.arr i (parent i) (parent i)) (parent i)) (swapArr q.arr i (parent i) j)
          = some j
        by_cases hjp : j = parent i
        · rw [hjp]; exact HMap.set_self _ _ _
        · have hne1 : swapArr q.arr i (parent i) j ≠ swapArr q.arr i (parent i) (parent i) :=
            fun he => hjp (hinj' _ _ hj hp he)
          rw [HMap.set_of_ne _ _ hne1]
          by_cases hji : j = i
          · rw [hji]; exact HMap.set_self _ _ _
          · have hne2 : swapArr q.arr i (parent i) j ≠ swapArr q.arr i (parent i) i :=
              fun he => hji (hinj' _ _ hj hin he)
            rw [HMap.set_of_ne _ _ hne2, swapArr_other q.arr hji hjp]
            exact hix j hj
      · rw [if_neg hc]
        exact hix
    · rw [if_neg h0]
      exact hix

/-- Lowering the key of the value in slot `i` of a heap breaks the heap order
at most between slot `i` and its parent. -/
theorem heapUp_of_lower {q : minPQ K V} {i : Nat} {newKey : K} (hs : Stored q) (hh : IsHeap q)
    (hin : i < q.numElements) (hle : newKey ≤ q.keyOf.read (q.arr i)) :
    HeapUp (q.keyOf.set (q.arr i) newKey).read q.arr q.numElements i := by
  have hself : (q.keyOf.set (q.arr i) newKey).read (q.arr i) = newKey :=
    HMap.read_of_some (HMap.set_self _ _ _)
  have hother : ∀ j, j < q.numElements → j ≠ i →
      (q.keyOf.set (q.arr i) newKey).read (q.arr j) = q.keyOf.read (q.arr j) := by
    intro j hj hji
    unfold HMap.read
    rw [HMap.set_of_ne _ _ (fun he => hji (hs.inj _ _ hj hin he))]
  constructor
  · intro j hj hjn hji
    have hpn : parent j < q.numElements := lt_of_le_of_lt (parent_le j) hjn
    rw [hother j hjn hji]
    by_cases hpi : parent j = i
    · rw [hpi, hself]
      have := hh j hj hjn
      rw [hpi] at this
      exact le_trans hle this
    · rw [hother _ hpn hpi]
      exact hh j hj hjn
  · intro hi0 j hj hjn hpj
    have hpp : parent i < q.numElements := lt_of_le_of_lt (parent_le i) hin
    have hji : j ≠ i := by
      intro he
      have := parent_lt hj
      omega
    rw [hother _ hpp (Nat.ne_of_lt (parent_lt hi0)), hother j hjn hji]
    have h1 := hh i hi0 hin
    have h2 := hh j hj hjn
    rw [hpj] at h2
    exact le_trans h1 h2

end minPQ

/-- C26: for every queue whose stored values have keys in min-heap order and
whose index map sends each stored value to the slot that holds it,
`updateKey(newKey, value)` with `value` stored and `newKey` not greater than its
current key returns normally, sets the key of `value` to `newKey`, leaves the
key of every other value, the set of stored values, the size and the capacity
unchanged, and yields a queue in which the min-heap property and the
consistency of the index map hold again (and the stored values are still
pairwise distinct, each with a key). -/
theorem C26_updateKey_restores {K V : Type} [DecidableEq V] [LinearOrder K] [Zero K]
    (newKey : K) (value : V) (q : minPQ K V)
    (hk : ∀ j, j < q.numElements → (q.keyOf (q.arr j)).isSome = true) (hh : minPQ.IsHeap q)
    (hix : minPQ.IndexOK q) (hv : minPQ.Holds q value) (hle : newKey ≤ q.keyOf.read value) :
    (minPQ.updateKey newKey value q).1 = .ret () ∧
      (minPQ.updateKey newKey value q).2.keyOf value = some newKey ∧
      (∀ x, x ≠ value → (minPQ.updateKey newKey value q).2.keyOf x = q.keyOf x) ∧
      (∀ x, minPQ.Holds (minPQ.updateKey newKey value q).2 x ↔ minPQ.Holds q x) ∧
      (minPQ.updateKey newKey value q).2.numElements = q.numElements ∧
      (minPQ.updateKey newKey value q).2.capacity = q.capacity ∧
      minPQ.Stored (minPQ.updateKey newKey value q).2 ∧
      minPQ.IsHeap (minPQ.updateKey newKey value q).2 ∧
      minPQ.IndexOK (minPQ.updateKey newKey value q).2 := by
  have hs : minPQ.Stored q := by
    refine ⟨fun a b ha hb he => ?_, hk⟩
    have h1 := hix a ha
    rw [he, hix b hb] at h1
    exact (Option.some.inj h1).symm
  obtain ⟨i, hi, hiv⟩ := hv
  have hidx : q.indexOf value = some i := by rw [← hiv]; exact hix i hi
  have hcont : q.keyOf.contains value = true := by
    unfold HMap.contains; rw [← hiv]; exact hs.keyed i hi
  have hup := minPQ.updateKey_of_ok newKey value q i hcont (not_lt.mpr hle) hidx
  have hkeyed : ∀ j, j < q.numElements → ((q.keyOf.set value newKey) (q.arr j)).isSome = true :=
    fun j hj => HMap.set_isSome _ _ (hs.keyed j hj)
  obtain ⟨s1, s2, s3⟩ := minPQ.siftUpAux_stored q.numElements (i + 1) i
    { q with keyOf := q.keyOf.set value newKey } hi hkeyed hs.inj
  have s4 := minPQ.siftUpAux_index q.numElements (i + 1) i
    { q with keyOf := q.keyOf.set value newKey } hi hkeyed hs.inj hix
  have s5 := minPQ.siftUpAux_frame (i + 1) i { q with keyOf := q.keyOf.set value newKey }
  have hup' : newKey ≤ q.keyOf.read (q.arr i) := by rw [hiv]; exact hle
  have hU := minPQ.heapUp_of_lower hs hh hi hup'
  rw [hiv] at hU
  have s6 := minPQ.siftUpAux_heap (q.keyOf.set value newKey).read q.numElements (i + 1) i
    { q with keyOf := q.keyOf.set value newKey } (Nat.lt_succ_self i) hi (fun _ => rfl) hU
  have hnum : (minPQ.updateKey newKey value q).2.numElements = q.numElements := by
    rw [hup]; exact s5.num
  rw [hup]
  unfold minPQ.siftUp
  refine ⟨rfl, ?_, ?_, ?_, s5.num, s5.cap, ⟨?_, ?_⟩, ?_, ?_⟩
  · show (minPQ.siftUpAux (i + 1) i _).keyOf value = some newKey
    rw [s1]; exact HMap.set_self _ _ _
  · intro x hx
    show (minPQ.siftUpAux (i + 1) i _).keyOf x = q.keyOf x
    rw [s1]; exact HMap.set_of_ne _ _ hx
  · intro x
    unfold minPQ.Holds
    show (∃ j, j < (minPQ.siftUpAux (i + 1) i _).numElements ∧ _) ↔ _
    rw [s5.num]
    exact s3 x
  · intro a b ha hb he
    have ha' : a < (minPQ.siftUpAux (i + 1) i { q with keyOf := q.keyOf.set value newKey }).numElements := ha
    have hb' : b < (minPQ.siftUpAux (i + 1) i { q with keyOf := q.keyOf.set value newKey }).numElements := hb
    rw [s5.num] at ha' hb'
    exact s2 a b ha' hb' he
  · intro j hj
    have hj' : j < (minPQ.siftUpAux (i + 1) i { q with keyOf := q.keyOf.set value newKey }).numElements := hj
    rw [s5.num] at hj'
    show ((minPQ.siftUpAux (i + 1) i _).keyOf ((minPQ.siftUpAux (i + 1) i _).arr j)).isSome = true
    rw [s1]
    obtain ⟨k, hk, hke⟩ := (s3 _).mp ⟨j, hj', rfl⟩
    rw [← hke]
    exact hkeyed k hk
  · unfold minPQ.IsHeap
    show minPQ.HeapArr (minPQ.siftUpAux (i + 1) i _).keyOf.read (minPQ.siftUpAux (i + 1) i _).arr
      (minPQ.siftUpAux (i + 1) i _).numElements
    rw [s1, s5.num]
    exact s6
  · intro j hj
    have hj' : j < (minPQ.siftUpAux (i + 1) i { q with keyOf := q.keyOf.set value newKey }).numElements := hj
    rw [s5.num] at hj'
    exact s4 j hj'

/-- The index map of the queue after the five calls of `opsC13` sends each
stored value to its slot. -/
theorem qC13_index : minPQ.IndexOK (minPQ.runOps opsC13 (minPQ.new 6)).2 := by
  unfold minPQ.IndexOK
  rw [qC13_num]
  intro j hj
  interval_cases j <;> decide

/-- Witness of C26 on the queue that holds (5,"a"), (2,"b"), (8,"c"), (1,"d"),
(3,"e"): `updateKey(0,"c")` returns normally, gives "c" the key 0 and moves it
to slot 0, in heap order and with a consistent index map. -/
theorem C26_updateKey_restores_witness :
    minPQ.Holds (minPQ.runOps opsC13 (minPQ.new 6)).2 "c" ∧
      (0 : Nat) ≤ (minPQ.runOps opsC13 (minPQ.new 6)).2.keyOf.read "c" ∧
      (minPQ.updateKey 0 "c" (minPQ.runOps opsC13 (minPQ.new 6)).2).1 = .ret () ∧
      (minPQ.updateKey 0 "c" (minPQ.runOps opsC13 (minPQ.new 6)).2).2.keyOf "c" = some 0 ∧
      minPQ.IsHeap (minPQ.updateKey 0 "c" (minPQ.runOps opsC13 (minPQ.new 6)).2).2 ∧
      minPQ.IndexOK (minPQ.updateKey 0 "c" (minPQ.runOps opsC13 (minPQ.new 6)).2).2 ∧
      (minPQ.updateKey 0 "c" (minPQ.runOps opsC13 (minPQ.new 6)).2).2.arr 0 = "c" ∧
      (minPQ.updateKey 0 "c" (minPQ.runOps opsC13 (minPQ.new 6)).2).2.indexOf "c" = some 0 :=
  have hv : minPQ.Holds (minPQ.runOps opsC13 (minPQ.new 6)).2 "c" :=
    ⟨2, by decide, by decide⟩
  have hle : (0 : Nat) ≤ (minPQ.runOps opsC13 (minPQ.new 6)).2.keyOf.read "c" := by decide
  have h := C26_updateKey_restores 0 "c" (minPQ.runOps opsC13 (minPQ.new 6)).2
    qC13_stored.keyed qC13_heap qC13_index hv hle
  ⟨hv, hle, h.1, h.2.1, h.2.2.2.2.2.2.2.1, h.2.2.2.2.2.2.2.2, by decide, by decide⟩

/-! ## `Dijkstra` and the scratch fields -/

namespace Vertex

variable {T D : Type}

theorem ScratchEq.reflS (vs : List Nat) (mem : Store T D) : ScratchEq vs mem mem :=
  fun _ => ⟨rfl, rfl, rfl, fun _ => rfl⟩

theorem ScratchEq.transS {vs : List Nat} {m1 m2 m3 : Store T D} (h1 : ScratchEq vs m1 m2)
    (h2 : ScratchEq vs m2 m3) : ScratchEq vs m1 m3 := by
  intro x
  obtain ⟨a1, a2, a3, a4⟩ := h1 x
  obtain ⟨b1, b2, b3, b4⟩ := h2 x
  exact ⟨b1.trans a1, b2.trans a2, b3.trans a3, fun hx => (b4 hx).trans (a4 hx)⟩

theorem ScratchEq.symmS {vs : List Nat} {m1 m2 : Store T D} (h : ScratchEq vs m1 m2) :
    ScratchEq vs m2 m1 := by
  intro x
  obtain ⟨a1, a2, a3, a4⟩ := h x
  exact ⟨a1.symm, a2.symm, a3.symm, fun hx => (a4 hx).symm⟩

theorem scratchEq_setDistance {vs : List Nat} (d : D) {p : Nat} (mem : Store T D) (hp : p ∈ vs) :
    ScratchEq vs mem (setDistance d p mem) := by
  intro x
  unfold setDistance
  by_cases h : x = p
  · subst h; simp [hp]
  · simp [h]

theorem scratchEq_setParent {vs : List Nat} (q : Option Nat) {p : Nat} (mem : Store T D)
    (hp : p ∈ vs) : ScratchEq vs mem (setParent q p mem) := by
  intro x
  unfold setParent
  by_cases h : x = p
  · subst h; simp [hp]
  · simp [h]

theorem scratchEq_setVisited {vs : List Nat} (b : Bool) {p : Nat} (mem : Store T D)
    (hp : p ∈ vs) : ScratchEq vs mem (setVisited b p mem) := by
  intro x
  unfold setVisited
  by_cases h : x = p
  · subst h; simp [hp]
  · simp [h]

/-- Two vertex objects with the same six fields are equal. -/
theorem eq_of_fields {a b : Vertex T D} (h1 : a.value = b.value) (h2 : a.visited = b.visited)
    (h3 : a.distance = b.distance) (h4 : a.finishTime = b.finishTime)
    (h5 : a.parent = b.parent) (h6 : a.adjacencyList = b.adjacencyList) : a = b := by
  cases a; cases b
  simp only at h1 h2 h3 h4 h5 h6
  subst h1 h2 h3 h4 h5 h6
  rfl

end Vertex

namespace DirectedGraph

open Vertex

variable {T D : Type} [DecidableEq T] [LinearOrderedAddCommMonoidWithTop D]

/-- The reset loop changes only scratch fields of the vertices it walks. -/
theorem scratchEq_resetAll (vs ws : List Nat) (mem : Store T D) (h : ∀ w, w ∈ ws → w ∈ vs) :
    ScratchEq vs mem (resetAll ws mem) := by
  induction ws generalizing mem with
  | nil => exact ScratchEq.reflS vs mem
  | cons w ws ih =>
    unfold resetAll
    have hw := h w (List.mem_cons_self _ _)
    exact (((scratchEq_setDistance ⊤ mem hw).transS (scratchEq_setParent none _ hw)).transS
      (scratchEq_setVisited false _ hw)).transS (ih _ (fun x hx => h x (List.mem_cons_of_mem _ hx)))

/-- The reset loop erases every difference in the scratch fields of the owned
vertices. -/
theorem resetAll_congr (vs : List Nat) (mem mem' : Store T D) (h : ScratchEq vs mem mem') :
    resetAll vs mem' = resetAll vs mem := by
  funext x
  by_cases hx : x ∈ vs
  · obtain ⟨a1, a2, a3⟩ := resetAll_of_mem vs mem x hx
    obtain ⟨b1, b2, b3⟩ := resetAll_of_mem vs mem' x hx
    obtain ⟨c1, c2, c3, _⟩ := scratchEq_resetAll vs vs mem (fun _ hw => hw) x
    obtain ⟨d1, d2, d3, _⟩ := scratchEq_resetAll vs vs mem' (fun _ hw => hw) x
    obtain ⟨e1, e2, e3, _⟩ := h x
    exact eq_of_fields (by rw [d1, e1, c1]) (by rw [a1, b1]) (by rw [a3, b3])
      (by rw [d3, e3, c3]) (by rw [a2, b2]) (by rw [d2, e2, c2])
  · rw [resetAll_of_not_mem _ _ _ hx, resetAll_of_not_mem _ _ _ hx]
    exact (h x).2.2.2 hx

/-- The edge loop changes only the distance and the parent of targets of the
records it walks. -/
theorem relax_scratch {vs : List Nat} (du : D) (u : Nat) (es : List (Nat × D × String))
    (st : Store T D × minPQ D Nat) (hes : ∀ e, e ∈ es → e.1 ∈ vs) :
    ScratchEq vs st.1 (relax du u es st).2.1 := by
  induction es generalizing st with
  | nil => exact ScratchEq.reflS vs _
  | cons ed es ih =>
    obtain ⟨nbr, w, nm⟩ := ed
    obtain ⟨mem, pq⟩ := st
    have hn : nbr ∈ vs := hes (nbr, w, nm) (List.mem_cons_self _ _)
    have hes' : ∀ e, e ∈ es → e.1 ∈ vs := fun e he => hes e (List.mem_cons_of_mem _ he)
    unfold relax
    by_cases hv : (mem nbr).visited = false
    · rw [if_pos hv]
      simp only
      by_cases hlt : du + w < (mem nbr).distance
      · rw [if_pos hlt]
        have hstep : ScratchEq vs mem (setParent (some u) nbr (setDistance (du + w) nbr mem)) :=
          (scratchEq_setDistance (du + w) mem hn).transS (scratchEq_setParent (some u) _ hn)
        cases hu : minPQ.updateKey (du + w) nbr pq with
        | mk o pq1 =>
          cases o with
          | ret a => exact hstep.transS (ih (_, pq1) hes')
          | throw e => exact hstep
      · rw [if_neg hlt]; exact ih (mem, pq) hes'
    · rw [if_neg hv]; exact ih (mem, pq) hes'

/-- The main loop of `Dijkstra` on a graph with owned edge targets changes only
scratch fields of owned vertices. -/
theorem dijkstraLoop_scratch {mem0 : Store T D} {s : Nat} {vs : List Nat} {m : Nat} (fuel : Nat)
    (st : Store T D × minPQ D Nat) (h : LoopInv mem0 s vs m st) (ho : TargetsOwned mem0 vs) :
    ScratchEq vs st.1 (dijkstraLoop fuel st).2.1 := by
  induction fuel generalizing st with
  | zero => exact ScratchEq.reflS vs _
  | succ fuel ih =>
    obtain ⟨mem, pq⟩ := st
    unfold dijkstraLoop
    by_cases he : pq.empty = true
    · rw [if_pos he]; exact ScratchEq.reflS vs _
    · rw [if_neg he]
      have hne : pq.numElements ≠ 0 := by
        intro h0; apply he; unfold minPQ.empty; simp [h0]
      have hpop := minPQ.pop_of_ne hne
      have hpq1 : (minPQ.pop pq).2 = _ := congrArg Prod.snd hpop
      simp only at hpq1
      rw [hpop, ← hpq1]
      simp only
      have hm : 0 < m := by have := h.num; simp only at this; omega
      have huvs : pq.arr 0 ∈ vs := h.bnd.arr 0 hm
      by_cases hdu : pq.keyOf.read (pq.arr 0) = ⊤
      · rw [if_pos hdu]; exact ScratchEq.reflS vs _
      · rw [if_neg hdu]
        by_cases hvis : (mem (pq.arr 0)).visited = true
        · rw [if_pos hvis]
          apply ih (mem, (minPQ.pop pq).2)
          apply loopInv_pop h hne h.mem
          intro x hx
          refine ⟨?_, rfl⟩
          intro hxu; rw [hxu, hvis] at hx; cases hx
        · rw [if_neg hvis]
          have hvf : (mem (pq.arr 0)).visited = false := by
            cases hb : (mem (pq.arr 0)).visited with
            | true => exact absurd hb hvis
            | false => rfl
          have hL : LoopInv mem0 s vs m
              (setVisited true (pq.arr 0) mem, (minPQ.pop pq).2) := by
            apply loopInv_pop h hne (memInv_setVisited _ h.mem)
            intro x hx
            have hxu : x ≠ pq.arr 0 := by
              intro hxu; rw [hxu, (setVisited_self _ _ _).1] at hx; cases hx
            exact ⟨hxu, setVisited_of_ne _ _ hxu⟩
          have hkey := (h.queued _ huvs hvf).1
          simp only at hkey
          have hreach : Reach mem0 s (pq.arr 0) := by
            apply h.mem.reach _ huvs
            rw [HMap.read_of_some hkey] at hdu
            exact hdu
          have hadj : (setVisited true (pq.arr 0) mem (pq.arr 0)).adjacencyList
              = (mem0 (pq.arr 0)).adjacencyList :=
            (hL.mem.same (pq.arr 0)).2
          have hown : ∀ e, e ∈ (setVisited true (pq.arr 0) mem (pq.arr 0)).adjacencyList →
              e.1 ∈ vs := fun e he => ho _ huvs e (by rw [hadj] at he; exact he)
          have hv1 : ScratchEq vs mem (setVisited true (pq.arr 0) mem) :=
            scratchEq_setVisited true mem huvs
          have hs1 := relax_scratch (pq.keyOf.read (pq.arr 0)) (pq.arr 0)
            (setVisited true (pq.arr 0) mem (pq.arr 0)).adjacencyList
            (setVisited true (pq.arr 0) mem, (minPQ.pop pq).2) hown
          obtain ⟨r1, r2, r3⟩ := relax_inv (pq.keyOf.read (pq.arr 0)) hreach
            (setVisited true (pq.arr 0) mem (pq.arr 0)).adjacencyList
            (fun e he => by rw [hadj] at he; exact he) _ hL
          cases hr : relax (pq.keyOf.read (pq.arr 0)) (pq.arr 0)
              (setVisited true (pq.arr 0) mem (pq.arr 0)).adjacencyList
              (setVisited true (pq.arr 0) mem, (minPQ.pop pq).2) with
          | mk o s2 =>
            rw [hr] at r1 r2 r3 hs1
            cases o with
            | throw e =>
              simp only
              exact hv1.transS hs1
            | ret a =>
              simp only
              exact (hv1.transS hs1).transS (ih s2 (r2 rfl))

/-- On a graph with owned edge targets `Dijkstra` changes only the scratch
fields `visited`, `distance` and `parent` of owned vertices. -/
theorem Dijkstra_scratch (g : DirectedGraph) (startVertex : Nat) (mem : Store T D)
    (ho : TargetsOwned mem g.vertices) :
    ScratchEq g.vertices mem (Dijkstra g startVertex mem).2 := by
  have hreset := scratchEq_resetAll g.vertices g.vertices mem (fun _ hw => hw)
  cases hf : findStart startVertex (resetAll g.vertices mem) g.vertices with
  | none =>
    rw [findStart_resetAll] at hf
    rw [Dijkstra_of_not_found g startVertex mem hf]
    exact hreset
  | some s =>
    obtain ⟨_, f2⟩ := loopInv_init g mem s (findStart_mem hf)
    have hl := dijkstraLoop_scratch g.vertices.length _ f2 ho
    have hinit : ScratchEq g.vertices mem (setDistance 0 s (resetAll g.vertices mem)) :=
      hreset.transS (scratchEq_setDistance 0 _ (findStart_mem hf))
    rw [Dijkstra_of_found g startVertex mem s hf]
    cases hd : dijkstraLoop g.vertices.length
        (setDistance 0 s (resetAll g.vertices mem),
          (insertAll (setDistance 0 s (resetAll g.vertices mem)) g.vertices
            (minPQ.new g.vertices.length)).2) with
    | mk o st =>
      obtain ⟨mem3, pq3⟩ := st
      rw [hd] at hl
      cases o with
      | throw e => exact hinit.transS hl
      | ret a => exact hinit.transS hl

/-- `Dijkstra` reads the store only after its reset loop. -/
theorem Dijkstra_congr (g : DirectedGraph) (startVertex : Nat) (mem mem' : Store T D)
    (h : ScratchEq g.vertices mem mem') :
    Dijkstra g startVertex mem' = Dijkstra g startVertex mem := by
  unfold Dijkstra
  rw [resetAll_congr g.vertices mem mem' h]

end DirectedGraph

/-- Counterexample to C27 as stated: `gC27` owns vertex 0 only, whose edge of
weight 3 leads to an object that the graph does not own (distance 5
beforehand). A first run of `Dijkstra` from vertex 0 lowers the distance of
that object to 3 and throws "Value is not in the queue."; a second run, started
on the store the first one left, returns the list [(0, 0)]: running `Dijkstra`
twice in a row does not give the result of running it once. -/
theorem C27_counterexample :
    ¬ DirectedGraph.TargetsOwned memC27 gC27.vertices ∧
      (gC27.Dijkstra 0 memC27).1 = .throw .valueNotInQueue ∧
      ((gC27.Dijkstra 0 memC27).2 1).distance = 3 ∧
      (gC27.Dijkstra 0 (gC27.Dijkstra 0 memC27).2).1 = .ret [(0, 0)] ∧
      gC27.Dijkstra 0 (gC27.Dijkstra 0 memC27).2 ≠ gC27.Dijkstra 0 memC27 := by
  have h1 : (gC27.Dijkstra 0 memC27).1 = .throw .valueNotInQueue := by decide
  have h2 : (gC27.Dijkstra 0 (gC27.Dijkstra 0 memC27).2).1 = .ret [(0, 0)] := by decide
  refine ⟨?_, h1, by decide, h2, ?_⟩
  · intro h
    have := h 0 (by decide) (1, 3, "e") (by decide)
    revert this
    decide
  · intro h
    rw [h, h1] at h2
    cases h2

/-- C27, as amended: the outcome of `Dijkstra(start)` does not depend on the
scratch state the vertices had before the call: for any two stores that differ
at most in the fields visited, distance and parent of the vertices of the
graph, `Dijkstra` from the same start gives the same result (exception or returned list) and
leaves the same store, hence identical distances, parents and visited flags on
every vertex. On a graph whose edge targets are all owned, a run changes only
those scratch fields, so running `Dijkstra` twice in a row gives the same
result and the same store as running it once. -/
theorem C27_scratch_independent {T D : Type} [DecidableEq T]
    [LinearOrderedAddCommMonoidWithTop D] (g : DirectedGraph) (startVertex : Nat)
    (mem mem' : Store T D) (h : Vertex.ScratchEq g.vertices mem mem') :
    g.Dijkstra startVertex mem' = g.Dijkstra startVertex mem ∧
      (∀ x, ((g.Dijkstra startVertex mem').2 x).distance
          = ((g.Dijkstra startVertex mem).2 x).distance ∧
        ((g.Dijkstra startVertex mem').2 x).parent = ((g.Dijkstra startVertex mem).2 x).parent ∧
        ((g.Dijkstra startVertex mem').2 x).visited
          = ((g.Dijkstra startVertex mem).2 x).visited) ∧
      (DirectedGraph.TargetsOwned mem g.vertices →
        g.Dijkstra startVertex (g.Dijkstra startVertex mem).2 = g.Dijkstra startVertex mem) := by
  have h1 := DirectedGraph.Dijkstra_congr g startVertex mem mem' h
  refine ⟨h1, fun x => by rw [h1]; exact ⟨rfl, rfl, rfl⟩, fun ho => ?_⟩
  exact DirectedGraph.Dijkstra_congr g startVertex mem _
    (DirectedGraph.Dijkstra_scratch g startVertex mem ho)

/-- Witness of C27 on `gA`: with vertex 0 at distance 7 and vertex 1 marked
visited beforehand, `Dijkstra` from vertex 0 gives the same result and store as
on `memA`, and a second run gives the same as the first. -/
theorem C27_scratch_independent_witness :
    Vertex.ScratchEq gA.vertices memA (Vertex.setVisited true 1 (Vertex.setDistance 7 0 memA)) ∧
      gA.Dijkstra 0 (Vertex.setVisited true 1 (Vertex.setDistance 7 0 memA))
        = gA.Dijkstra 0 memA ∧
      (gA.Dijkstra 0 (Vertex.setVisited true 1 (Vertex.setDistance 7 0 memA))).1
        = .ret [(0, 0), (1, 2), (2, ⊤)] ∧
      gA.Dijkstra 0 (gA.Dijkstra 0 memA).2 = gA.Dijkstra 0 memA :=
  have hs : Vertex.ScratchEq gA.vertices memA
      (Vertex.setVisited true 1 (Vertex.setDistance 7 0 memA)) :=
    (Vertex.scratchEq_setDistance 7 memA (by decide)).transS
      (Vertex.scratchEq_setVisited true _ (by decide))
  have ho : DirectedGraph.TargetsOwned memA gA.vertices := by
    unfold DirectedGraph.TargetsOwned; decide
  ⟨hs, (C27_scratch_independent gA 0 memA _ hs).1, by decide,
    (C27_scratch_independent gA 0 memA _ hs).2.2 ho⟩

/-! ## Reading the fields of a line -/

namespace ifstream

theorem isSpace_blank : isSpace ' ' = true := by decide

theorem isSpace_newline : isSpace '\n' = true := by decide

theorem skipWs_spaces (sp s : List Char) (h : ∀ c, c ∈ sp → isSpace c = true) :
    skipWs (sp ++ s) = skipWs s := by
  induction sp with
  | nil => rfl
  | cons c sp ih =>
    unfold skipWs at ih ⊢
    rw [List.cons_append, List.dropWhile_cons, if_pos (h c (List.mem_cons_self _ _))]
    exact ih (fun d hd => h d (List.mem_cons_of_mem _ hd))

theorem takeWhile_field (t r : List Char) (c : Char)
    (ht : t.all (fun c => !isSpace c) = true) (hc : isSpace c = true) :
    (t ++ c :: r).takeWhile (fun c => !isSpace c) = t ∧
      (t ++ c :: r).dropWhile (fun c => !isSpace c) = c :: r := by
  induction t with
  | nil => simp [List.takeWhile, List.dropWhile, hc]
  | cons a t ih =>
    rw [List.all_cons, Bool.and_eq_true] at ht
    obtain ⟨i1, i2⟩ := ih ht.2
    rw [List.cons_append, List.takeWhile_cons, List.dropWhile_cons, if_pos ht.1, if_pos ht.1, i1, i2]
    exact ⟨rfl, rfl⟩

/-- A field between whitespace is what the next extraction finds. -/
theorem field_spec (sp t r : List Char) (c : Char) (hsp : ∀ c, c ∈ sp → isSpace c = true)
    (ht : Description.isField t = true) (hc : isSpace c = true) :
    fieldText (sp ++ (t ++ c :: r)) = t ∧ afterField (sp ++ (t ++ c :: r)) = c :: r := by
  unfold Description.isField at ht
  rw [Bool.and_eq_true] at ht
  obtain ⟨hne, hall⟩ := ht
  have hskip : skipWs (t ++ c :: r) = t ++ c :: r := by
    cases t with
    | nil => simp at hne
    | cons a t =>
      rw [List.all_cons, Bool.and_eq_true] at hall
      unfold skipWs
      rw [List.cons_append, List.dropWhile_cons]
      have : isSpace a = false := by simpa using hall.1
      rw [this]
      simp
  unfold fieldText afterField
  rw [skipWs_spaces sp _ hsp, hskip]
  exact takeWhile_field t r c hall hc

theorem extractNat_spec (bound : Nat) (sp t r : List Char) (c : Char)
    (hsp : ∀ c, c ∈ sp → isSpace c = true) (ht : Description.isField t = true)
    (hc : isSpace c = true) (hd : (decimal t).isSome = true)
    (hb : Description.idOf t < bound) :
    extractNat bound (sp ++ (t ++ c :: r)) = some (Description.idOf t, c :: r) := by
  obtain ⟨f1, f2⟩ := field_spec sp t r c hsp ht hc
  unfold extractNat
  rw [f1, f2]
  unfold Description.idOf at hb ⊢
  cases hk : decimal t with
  | none => rw [hk] at hd; cases hd
  | some k =>
    rw [hk] at hb
    simp only [Option.getD_some] at hb ⊢
    rw [if_pos hb]

theorem extractDouble_spec {D : Type} [Zero D] (toD : List Char → Option D) (sp t r : List Char)
    (c : Char) (hsp : ∀ c, c ∈ sp → isSpace c = true) (ht : Description.isField t = true)
    (hc : isSpace c = true) (hd : (toD t).isSome = true) :
    extractDouble toD (sp ++ (t ++ c :: r)) = some (Description.weightOf toD t, c :: r) := by
  obtain ⟨f1, f2⟩ := field_spec sp t r c hsp ht hc
  unfold extractDouble
  rw [f1, f2]
  unfold Description.weightOf
  cases hk : toD t with
  | none => rw [hk] at hd; cases hd
  | some k => rfl

/-- A label that is not empty, does not begin with whitespace and stays within
its line is what `getline(file >> ws, edgeName)` reads after a blank, together
with the newline that ends the line. -/
theorem getline_spec (l r : List Char) (hl : Description.isLabel l = true) :
    getline (skipWs (' ' :: (l ++ '\n' :: r))) = (String.mk l, r) := by
  cases l with
  | nil => simp [Description.isLabel] at hl
  | cons a l =>
    unfold Description.isLabel at hl
    rw [Bool.and_eq_true] at hl
    obtain ⟨h1, h2⟩ := hl
    have ha : isSpace a = false := by simpa using h1
    have hskip : skipWs (' ' :: (a :: l ++ '\n' :: r)) = a :: l ++ '\n' :: r := by
      unfold skipWs
      rw [List.dropWhile_cons, if_pos isSpace_blank, List.cons_append, List.dropWhile_cons, ha]
      simp
    rw [hskip]
    have key : ∀ (t : List Char), t.all (fun d => d != '\n') = true →
        (t ++ '\n' :: r).takeWhile (fun c => c != '\n') = t ∧
          (t ++ '\n' :: r).dropWhile (fun c => c != '\n') = '\n' :: r := by
      intro t
      induction t with
      | nil => intro _; simp [List.takeWhile, List.dropWhile]
      | cons b t ih =>
        intro hb
        rw [List.all_cons, Bool.and_eq_true] at hb
        obtain ⟨i1, i2⟩ := ih hb.2
        rw [List.cons_append, List.takeWhile_cons, List.dropWhile_cons, if_pos hb.1, if_pos hb.1,
          i1, i2]
        exact ⟨rfl, rfl⟩
    obtain ⟨k1, k2⟩ := key (a :: l) h2
    unfold getline
    rw [k1, k2]
    rfl

end ifstream

/-! ## The loops of `readFromFile` on the text of a description -/

namespace DirectedGraph

open Description

variable {T D : Type} [Zero D]

/-- The three extractions of the vertex loop on a vertex line. -/
theorem readVertexLine_spec (toD : List Char → Option D) (sp : List Char) (l : VertexLine)
    (rest : List Char) (hsp : ∀ c, c ∈ sp → ifstream.isSpace c = true)
    (h1 : isField l.id = true) (h2 : isField l.x = true) (h3 : isField l.y = true)
    (h4 : (ifstream.decimal l.id).isSome = true) (h5 : idOf l.id < 2 ^ 64)
    (h6 : (toD l.x).isSome = true) (h7 : (toD l.y).isSome = true) :
    readVertexLine toD (sp ++ vertexLineText l rest) = some (idOf l.id, '\n' :: rest) := by
  have hb : ∀ c, c ∈ [' '] → ifstream.isSpace c = true := by
    intro c hc
    rw [List.mem_singleton] at hc
    rw [hc]; exact ifstream.isSpace_blank
  have e1 := ifstream.extractNat_spec (2 ^ 64) sp l.id (l.x ++ ' ' :: (l.y ++ '\n' :: rest)) ' '
    hsp h1 ifstream.isSpace_blank h4 h5
  have e2 := ifstream.extractDouble_spec toD [' '] l.x (l.y ++ '\n' :: rest) ' ' hb h2
    ifstream.isSpace_blank h6
  have e3 := ifstream.extractDouble_spec toD [' '] l.y rest '\n' hb h3
    ifstream.isSpace_newline h7
  rw [List.singleton_append] at e2 e3
  unfold readVertexLine vertexLineText
  rw [e1]
  simp only
  rw [e2]
  simp only
  rw [e3]

/-- The extractions of the edge loop on an edge line whose label is not empty
and does not begin with whitespace. -/
theorem readEdgeLine_spec (toD : List Char → Option D) (sp : List Char) (l : EdgeLine)
    (rest : List Char) (hsp : ∀ c, c ∈ sp → ifstream.isSpace c = true)
    (h1 : isField l.u = true) (h2 : isField l.v = true) (h3 : isField l.weight = true)
    (h4 : (ifstream.decimal l.u).isSome = true) (h5 : idOf l.u < 2 ^ 64)
    (h6 : (ifstream.decimal l.v).isSome = true) (h7 : idOf l.v < 2 ^ 64)
    (h8 : (toD l.weight).isSome = true) (h9 : isLabel l.label = true) :
    readEdgeLine toD (sp ++ edgeLineText l rest)
      = some (idOf l.u, idOf l.v, weightOf toD l.weight, String.mk l.label, rest) := by
  have hb : ∀ c, c ∈ [' '] → ifstream.isSpace c = true := by
    intro c hc
    rw [List.mem_singleton] at hc
    rw [hc]; exact ifstream.isSpace_blank
  have e1 := ifstream.extractNat_spec (2 ^ 64) sp l.u
    (l.v ++ ' ' :: (l.weight ++ ' ' :: (l.label ++ '\n' :: rest))) ' '
    hsp h1 ifstream.isSpace_blank h4 h5
  have e2 := ifstream.extractNat_spec (2 ^ 64) [' '] l.v
    (l.weight ++ ' ' :: (l.label ++ '\n' :: rest)) ' ' hb h2 ifstream.isSpace_blank h6 h7
  have e3 := ifstream.extractDouble_spec toD [' '] l.weight (l.label ++ '\n' :: rest) ' ' hb h3
    ifstream.isSpace_blank h8
  have e4 := ifstream.getline_spec l.label rest h9
  rw [List.singleton_append] at e2 e3
  unfold readEdgeLine edgeLineText
  rw [e1]
  simp only
  rw [e2]
  simp only
  rw [e3]
  simp only
  rw [e4]

/-- The vertex loop on the vertex lines of a description: all lines are read,
and the effect is that of `buildVertices` for their ids. -/
theorem readVertices_text (alloc : Nat → Nat) (cast : Nat → T) (toD : List Char → Option D)
    (vls : List VertexLine) (rest : List Char) (k : Nat) (g : DirectedGraph)
    (idm : HMap Nat Nat) (mem : Store T D)
    (h : ∀ l, l ∈ vls → isField l.id = true ∧ isField l.x = true ∧ isField l.y = true ∧
      (ifstream.decimal l.id).isSome = true ∧ idOf l.id < 2 ^ 64 ∧
      (toD l.x).isSome = true ∧ (toD l.y).isSome = true) :
    readVertices alloc cast toD vls.length k ('\n' :: vertexText vls rest, g, idm, mem)
      = some ('\n' :: rest, buildVertices alloc cast (ids vls) k (g, idm, mem)) := by
  induction vls generalizing k g idm mem with
  | nil => rfl
  | cons l ls ih =>
    obtain ⟨h1, h2, h3, h4, h5, h6, h7⟩ := h l (List.mem_cons_self _ _)
    have hsp : ∀ c, c ∈ ['\n'] → ifstream.isSpace c = true := by
      intro c hc
      rw [List.mem_singleton] at hc
      rw [hc]; exact ifstream.isSpace_newline
    have e := readVertexLine_spec toD ['\n'] l (vertexText ls rest) hsp h1 h2 h3 h4 h5 h6 h7
    rw [List.singleton_append] at e
    rw [List.length_cons]
    unfold readVertices
    rw [show vertexText (l :: ls) rest = vertexLineText l (vertexText ls rest) from rfl, e]
    simp only
    rw [ih _ _ _ _ (fun x hx => h x (List.mem_cons_of_mem _ hx))]
    rfl

/-- The values an edge line writes. -/
theorem readEdges_text (toD : List Char → Option D) (idm : HMap Nat Nat) (els : List EdgeLine)
    (sp : List Char) (g : DirectedGraph) (mem : Store T D)
    (hsp : ∀ c, c ∈ sp → ifstream.isSpace c = true)
    (h : ∀ l, l ∈ els → isField l.u = true ∧ isField l.v = true ∧ isField l.weight = true ∧
      (ifstream.decimal l.u).isSome = true ∧ idOf l.u < 2 ^ 64 ∧
      (ifstream.decimal l.v).isSome = true ∧ idOf l.v < 2 ^ 64 ∧
      (toD l.weight).isSome = true ∧ isLabel l.label = true) :
    readEdges toD idm els.length (sp ++ edgeText els [], g, mem)
      = buildEdges idm
          (els.map (fun l => (idOf l.u, idOf l.v, weightOf toD l.weight, String.mk l.label)))
          (g, mem) := by
  induction els generalizing sp g mem with
  | nil => rfl
  | cons l ls ih =>
    obtain ⟨h1, h2, h3, h4, h5, h6, h7, h8, h9⟩ := h l (List.mem_cons_self _ _)
    have e := readEdgeLine_spec toD sp l (edgeText ls []) hsp h1 h2 h3 h4 h5 h6 h7 h8 h9
    rw [List.length_cons, List.map_cons]
    unfold readEdges buildEdges
    rw [show edgeText (l :: ls) [] = edgeLineText l (edgeText ls []) from rfl, e]
    simp only
    cases hu : idm (idOf l.u) with
    | none => rfl
    | some u =>
      simp only
      cases hv : idm (idOf l.v) with
      | none => rfl
      | some v =>
        simp only
        have := ih [] (g.addEdge u v (weightOf toD l.weight) (String.mk l.label) mem).1
          (g.addEdge u v (weightOf toD l.weight) (String.mk l.label) mem).2
          (fun c hc => by cases hc) (fun x hx => h x (List.mem_cons_of_mem _ hx))
        rw [List.nil_append] at this
        exact this

end DirectedGraph

/-! ## The graph built from a description -/

namespace DirectedGraph

open Description

variable {T D : Type} [Zero D]

theorem buildVertices_out (alloc : Nat → Nat) (cast : Nat → T) (idl : List Nat) (k : Nat) (g : DirectedGraph)
    (idm : HMap Nat Nat) (mem : Store T D) :
    (buildVertices alloc cast idl k (g, idm, mem)).1.vertices
      = g.vertices ++ (List.range' k idl.length).map alloc := by
  induction idl generalizing k g idm mem with
  | nil => simp [buildVertices]
  | cons v vs ih =>
    unfold buildVertices
    rw [ih]
    simp [addVertex, List.range'_succ]

theorem buildVertices_mem_frame (alloc : Nat → Nat) (cast : Nat → T) (idl : List Nat) (k : Nat)
    (g : DirectedGraph) (idm : HMap Nat Nat) (mem : Store T D) (x : Nat)
    (hx : ∀ i, i < idl.length → x ≠ alloc (k + i)) :
    (buildVertices alloc cast idl k (g, idm, mem)).2.2 x = mem x := by
  induction idl generalizing k g idm mem with
  | nil => simp [buildVertices]
  | cons v vs ih =>
    unfold buildVertices
    rw [ih]
    · exact Vertex.put_of_ne _ _ (hx 0 (by simp))
    · intro i hi
      have := hx (i + 1) (by simp; omega)
      rwa [show k + (i + 1) = k + 1 + i by omega] at this

theorem buildVertices_ids_frame (alloc : Nat → Nat) (cast : Nat → T) (idl : List Nat) (k : Nat)
    (g : DirectedGraph) (idm : HMap Nat Nat) (mem : Store T D) (x : Nat) (hx : x ∉ idl) :
    (buildVertices alloc cast idl k (g, idm, mem)).2.1 x = idm x := by
  induction idl generalizing k g idm mem with
  | nil => simp [buildVertices]
  | cons v vs ih =>
    unfold buildVertices
    rw [ih _ _ _ _ (fun h => hx (List.mem_cons_of_mem _ h))]
    exact HMap.set_of_ne _ _ (fun h => hx (h ▸ List.mem_cons_self _ _))

/-- After the vertex loop over pairwise different ids the map `idToVertex`
sends the id at position `i` to the address returned by the `i`-th `new`. -/
theorem buildVertices_ids (alloc : Nat → Nat) (cast : Nat → T) (idl : List Nat) (k : Nat) (g : DirectedGraph)
    (idm : HMap Nat Nat) (mem : Store T D) (hnd : idl.Nodup) (i v : Nat)
    (hv : idl[i]? = some v) :
    (buildVertices alloc cast idl k (g, idm, mem)).2.1 v = some (alloc (k + i)) := by
  induction idl generalizing k g idm mem i with
  | nil => simp at hv
  | cons v0 vs ih =>
    unfold buildVertices
    rw [List.nodup_cons] at hnd
    cases i with
    | zero =>
      simp at hv
      subst hv
      rw [buildVertices_ids_frame _ _ _ _ _ _ _ _ hnd.1]
      exact HMap.set_self _ _ _
    | succ i =>
      simp at hv
      rw [ih _ _ _ _ hnd.2 i hv, show k + (i + 1) = k + 1 + i by omega]

/-- After the vertex loop the object at the address returned by the `i`-th
`new` is the vertex constructed with the id at position `i`. -/
theorem buildVertices_store (alloc : Nat → Nat) (cast : Nat → T) (idl : List Nat) (k : Nat) (g : DirectedGraph)
    (idm : HMap Nat Nat) (mem : Store T D)
    (hinj : ∀ i, i < idl.length → ∀ j, j < idl.length → alloc (k + i) = alloc (k + j) → i = j)
    (i v : Nat) (hv : idl[i]? = some v) :
    (buildVertices alloc cast idl k (g, idm, mem)).2.2 (alloc (k + i)) = Vertex.new (cast v) := by
  induction idl generalizing k g idm mem i with
  | nil => simp at hv
  | cons v0 vs ih =>
    unfold buildVertices
    have hinj' : ∀ i, i < vs.length → ∀ j, j < vs.length →
        alloc (k + 1 + i) = alloc (k + 1 + j) → i = j := by
      intro a ha b hb hab
      have := hinj (a + 1) (by simp; omega) (b + 1) (by simp; omega)
        (by rw [show k + (a + 1) = k + 1 + a by omega, show k + (b + 1) = k + 1 + b by omega]
            exact hab)
      omega
    cases i with
    | zero =>
      simp at hv
      subst hv
      rw [buildVertices_mem_frame]
      · exact Vertex.put_self _ _ _
      · intro j hj hc
        have := hinj 0 (by simp) (j + 1) (by simp; omega)
          (by rw [show k + (j + 1) = k + 1 + j by omega]; exact hc)
        omega
    | succ i =>
      simp at hv
      rw [show k + (i + 1) = k + 1 + i by omega, ih _ _ _ _ hinj' i hv]

/-- The edge loop when every id it reads is recorded in `idToVertex`: it
returns, and every vertex object gains, in the order read, the edges whose
source id is recorded for it. -/
theorem buildEdges_spec (idm : HMap Nat Nat) (es : List (Nat × Nat × D × String))
    (g : DirectedGraph) (mem : Store T D)
    (h : ∀ e, e ∈ es → (idm e.1).isSome = true ∧ (idm e.2.1).isSome = true) :
    ∃ mem', buildEdges idm es (g, mem) = .ok (g, mem') ∧
      ∀ x, mem' x = { mem x with adjacencyList := ((mem x).adjacencyList ++
        (es.filter (fun e => decide (idm e.1 = some x))).map
          (fun e => ((idm e.2.1).getD 0, e.2.2.1, e.2.2.2))) } := by
  induction es generalizing mem with
  | nil =>
    exact ⟨mem, rfl, fun x => by simp⟩
  | cons e es ih =>
    obtain ⟨uid, vid, w, name⟩ := e
    obtain ⟨hu, hv⟩ := h (uid, vid, w, name) (List.mem_cons_self _ _)
    simp only at hu hv
    cases hu' : idm uid with
    | none => rw [hu'] at hu; cases hu
    | some u =>
      cases hv' : idm vid with
      | none => rw [hv'] at hv; cases hv
      | some v =>
        obtain ⟨mem', r1, r2⟩ := ih (g.addEdge u v w name mem).2
          (fun x hx => h x (List.mem_cons_of_mem _ hx))
        refine ⟨mem', ?_, ?_⟩
        · unfold buildEdges
          simp only [hu', hv']
          exact r1
        · intro x
          rw [r2 x]
          unfold addEdge
          simp only
          by_cases hx : x = u
          · subst hx
            rw [Vertex.put_self, List.filter_cons]
            simp [hu', hv', Vertex.addEdge]
          · rw [Vertex.put_of_ne _ _ hx, List.filter_cons]
            have : ¬ (some u = some x) := fun hc => hx (Option.some.inj hc).symm
            simp [hu', this]

end DirectedGraph

/-- The conversion `static_cast<int>(vid)` returns the id itself for every id
below `2 ^ 31`. -/
theorem staticCastInt_of_lt (k : Nat) (h : k < 2 ^ 31) : staticCastInt k = (k : Int) := by
  unfold staticCastInt
  have h1 : k % 2 ^ 32 = k := Nat.mod_eq_of_lt (by omega)
  rw [h1, if_pos h]

/-- C24, as amended: for every well-formed graph description (the counts `n` and
`m`, `n` vertex lines with pairwise different ids, `m` edge lines that refer to
those ids) in which every edge line carries a label that is not empty and does
not begin with whitespace (it may contain spaces), `readFromFile` returns
normally; the graph it builds has `n` vertices, which are in file order the
objects returned by `new` (pairwise distinct); the value of the vertex of each
vertex line is its id converted to the vertex value type, `static_cast<T>(id)`,
and its adjacency list consists exactly of the edge lines whose source is its
id, in file order, each with the vertex of the target id, the weight and the
full label of the line. For the value type `int` of the caller in
`studentTests.cpp` the conversion returns the id itself for every id below
`2 ^ 31`. -/
theorem C24_readFromFile_roundtrip {T D : Type} [Zero D] (alloc : Nat → Nat)
    (cast : Nat → T) (toD : List Char → Option D) (n m : List Char) (vls : List VertexLine)
    (els : List EdgeLine) (mem : Store T D)
    (hwf : Description.WellFormed toD n m vls els)
    (hinj : ∀ i, i < vls.length → ∀ j, j < vls.length → alloc i = alloc j → i = j) :
    (∃ g mem', DirectedGraph.readFromFile alloc cast toD (Description.text n m vls els) mem
        = .ok (g, mem') ∧
      g.vertices.length = vls.length ∧
      g.vertices = (List.range vls.length).map alloc ∧
      ∀ (i : Nat) (l : VertexLine), vls[i]? = some l →
        (mem' (alloc i)).value = cast (Description.idOf l.id) ∧
        (mem' (alloc i)).adjacencyList =
          (els.filter (fun e => decide (Description.idOf e.u = Description.idOf l.id))).map
            (fun e => (alloc ((Description.ids vls).indexOf (Description.idOf e.v)),
              Description.weightOf toD e.weight, String.mk e.label))) ∧
      ∀ k : Nat, k < 2 ^ 31 → staticCastInt k = (k : Int) := by
  refine ⟨?_, staticCastInt_of_lt⟩
  have hb : ∀ c, c ∈ [' '] → ifstream.isSpace c = true := by
    intro c hc
    rw [List.mem_singleton] at hc
    rw [hc]; exact ifstream.isSpace_blank
  have hnl : ∀ c, c ∈ ['\n'] → ifstream.isSpace c = true := by
    intro c hc
    rw [List.mem_singleton] at hc
    rw [hc]; exact ifstream.isSpace_newline
  have hidn : Description.idOf n = vls.length := by
    unfold Description.idOf; rw [hwf.nValue]; rfl
  have hidm : Description.idOf m = els.length := by
    unfold Description.idOf; rw [hwf.mValue]; rfl
  -- the header
  have e1 := ifstream.extractNat_spec (2 ^ 31) [] n
    (m ++ '\n' :: Description.vertexText vls (Description.edgeText els [])) ' '
    (fun c hc => by cases hc) hwf.nField ifstream.isSpace_blank
    (by rw [hwf.nValue]; rfl) (by rw [hidn]; exact hwf.nBound)
  have e2 := ifstream.extractNat_spec (2 ^ 31) [' '] m
    (Description.vertexText vls (Description.edgeText els [])) '\n'
    hb hwf.mField ifstream.isSpace_newline
    (by rw [hwf.mValue]; rfl) (by rw [hidm]; exact hwf.mBound)
  rw [List.nil_append, hidn] at e1
  rw [List.singleton_append, hidm] at e2
  -- the vertex loop
  have e3 := DirectedGraph.readVertices_text alloc cast toD vls (Description.edgeText els []) 0
    ⟨[]⟩ HMap.emp mem hwf.vertexLines
  -- the ids recorded
  have hlen : (Description.ids vls).length = vls.length := by
    unfold Description.ids; rw [List.length_map]
  have hids : ∀ x, x ∈ Description.ids vls →
      (DirectedGraph.buildVertices alloc cast (Description.ids vls) 0
        ((⟨[]⟩ : DirectedGraph), (HMap.emp : HMap Nat Nat), mem)).2.1 x
        = some (alloc ((Description.ids vls).indexOf x)) := by
    intro x hx
    have := DirectedGraph.buildVertices_ids alloc cast (Description.ids vls) 0 ⟨[]⟩ HMap.emp mem
      hwf.unique ((Description.ids vls).indexOf x) x
      (by rw [List.getElem?_eq_getElem (List.indexOf_lt_length.mpr hx)]; simp)
    rw [Nat.zero_add] at this
    exact this
  have hbound : ∀ x, x ∈ Description.ids vls → x < 2 ^ 64 := by
    intro x hx
    unfold Description.ids at hx
    rw [List.mem_map] at hx
    obtain ⟨l, hl, rfl⟩ := hx
    exact (hwf.vertexLines l hl).2.2.2.2.1
  -- the edge loop
  have e4 := DirectedGraph.readEdges_text toD
    (DirectedGraph.buildVertices alloc cast (Description.ids vls) 0
      ((⟨[]⟩ : DirectedGraph), (HMap.emp : HMap Nat Nat), mem)).2.1 els ['\n']
    (DirectedGraph.buildVertices alloc cast (Description.ids vls) 0
      ((⟨[]⟩ : DirectedGraph), (HMap.emp : HMap Nat Nat), mem)).1
    (DirectedGraph.buildVertices alloc cast (Description.ids vls) 0
      ((⟨[]⟩ : DirectedGraph), (HMap.emp : HMap Nat Nat), mem)).2.2 hnl
    (fun l hl => by
      obtain ⟨a1, a2, a3, a4, a5, a6, a7, a8, a9⟩ := hwf.edgeLines l hl
      exact ⟨a1, a2, a3, a4, hbound _ a5, a6, hbound _ a7, a8, a9⟩)
  rw [List.singleton_append] at e4
  obtain ⟨mem', r1, r2⟩ := DirectedGraph.buildEdges_spec
    (DirectedGraph.buildVertices alloc cast (Description.ids vls) 0
      ((⟨[]⟩ : DirectedGraph), (HMap.emp : HMap Nat Nat), mem)).2.1
    (els.map (fun l => (Description.idOf l.u, Description.idOf l.v,
      Description.weightOf toD l.weight, String.mk l.label)))
    (DirectedGraph.buildVertices alloc cast (Description.ids vls) 0
      ((⟨[]⟩ : DirectedGraph), (HMap.emp : HMap Nat Nat), mem)).1
    (DirectedGraph.buildVertices alloc cast (Description.ids vls) 0
      ((⟨[]⟩ : DirectedGraph), (HMap.emp : HMap Nat Nat), mem)).2.2
    (fun e he => by
      rw [List.mem_map] at he
      obtain ⟨l, hl, rfl⟩ := he
      obtain ⟨_, _, _, _, a5, _, a7, _, _⟩ := hwf.edgeLines l hl
      simp only
      rw [hids _ a5, hids _ a7]
      exact ⟨rfl, rfl⟩)
  have hverts : (DirectedGraph.buildVertices alloc cast (Description.ids vls) 0
      ((⟨[]⟩ : DirectedGraph), (HMap.emp : HMap Nat Nat), mem)).1.vertices
      = (List.range vls.length).map alloc := by
    rw [DirectedGraph.buildVertices_out, hlen, List.range_eq_range']
    rfl
  refine ⟨_, mem', ?_, ?_, hverts, ?_⟩
  · unfold DirectedGraph.readFromFile Description.text
    rw [e1]
    simp only
    rw [e2]
    simp only
    rw [e3]
    simp only
    rw [e4]
    exact r1
  · rw [hverts]; simp
  · intro i l hl
    have hi : i < vls.length := by
      rcases Nat.lt_or_ge i vls.length with h | h
      · exact h
      · rw [List.getElem?_eq_none h] at hl; cases hl
    have hidl : (Description.ids vls)[i]? = some (Description.idOf l.id) := by
      unfold Description.ids
      rw [List.getElem?_map, hl]
      rfl
    have hstore := DirectedGraph.buildVertices_store alloc cast (Description.ids vls) 0 ⟨[]⟩ HMap.emp
      mem (by
        intro a ha b hb'
        rw [Nat.zero_add, Nat.zero_add]
        rw [hlen] at ha hb'
        exact hinj a ha b hb') i (Description.idOf l.id) hidl
    rw [Nat.zero_add] at hstore
    have hidx : (Description.ids vls).indexOf (Description.idOf l.id) = i := by
      have hmem : Description.idOf l.id ∈ Description.ids vls := List.getElem?_mem hidl
      have hlt := List.indexOf_lt_length.mpr hmem
      have h1 : (Description.ids vls)[(Description.ids vls).indexOf (Description.idOf l.id)]?
          = some (Description.idOf l.id) := by
        rw [List.getElem?_eq_getElem hlt]; simp
      have hi' : i < (Description.ids vls).length := by rw [hlen]; exact hi
      rw [List.getElem?_eq_getElem hlt] at h1
      rw [List.getElem?_eq_getElem hi'] at hidl
      have h2 : (Description.ids vls)[(Description.ids vls).indexOf (Description.idOf l.id)]
          = (Description.ids vls)[i] := by
        rw [Option.some.inj h1, Option.some.inj hidl]
      exact (List.Nodup.getElem_inj_iff hwf.unique).mp h2
    rw [r2 (alloc i), hstore]
    refine ⟨rfl, ?_⟩
    show ([] : List (Nat × D × String)) ++ _ = _
    rw [List.nil_append, List.filter_map, List.map_map]
    have hfilter : List.filter ((fun e : Nat × Nat × D × String =>
          decide ((DirectedGraph.buildVertices alloc cast (Description.ids vls) 0
            ((⟨[]⟩ : DirectedGraph), (HMap.emp : HMap Nat Nat), mem)).2.1 e.1 = some (alloc i))) ∘
          fun l : EdgeLine => (Description.idOf l.u, Description.idOf l.v,
            Description.weightOf toD l.weight, String.mk l.label)) els
        = els.filter (fun e => decide (Description.idOf e.u = Description.idOf l.id)) := by
      apply List.filter_congr
      intro e he
      obtain ⟨_, _, _, _, a5, _, _, _, _⟩ := hwf.edgeLines e he
      simp only [Function.comp]
      rw [hids _ a5]
      have hlt := List.indexOf_lt_length.mpr a5
      rw [hlen] at hlt
      by_cases hc : Description.idOf e.u = Description.idOf l.id
      · rw [hc, hidx]; simp
      · have : alloc ((Description.ids vls).indexOf (Description.idOf e.u)) ≠ alloc i := by
          intro hal
          have := hinj _ hlt _ hi hal
          apply hc
          have hg : (Description.ids vls)[(Description.ids vls).indexOf (Description.idOf e.u)]?
              = some (Description.idOf e.u) := by
            rw [List.getElem?_eq_getElem (List.indexOf_lt_length.mpr a5)]; simp
          rw [this, hidl] at hg
          exact (Option.some.inj hg).symm
        simp [hc, this]
    rw [hfilter]
    apply List.map_congr_left
    intro e he
    have he' := List.mem_of_mem_filter he
    obtain ⟨_, _, _, _, _, _, a7, _, _⟩ := hwf.edgeLines e he'
    simp only [Function.comp]
    rw [hids _ a7]
    rfl

/-- The description written by test 5 of `studentTests.cpp` is well formed. -/
theorem wellFormed_C24 :
    Description.WellFormed decimalPoint "3".toList "3".toList vlsC24 elsC24 where
  nField := by decide
  nValue := by decide
  nBound := by decide
  mField := by decide
  mValue := by decide
  mBound := by decide
  vertexLines := by decide!
  unique := by decide
  edgeLines := by decide!

/-- Witness of C24 on the description written by test 5 of `studentTests.cpp`:
its text is the text of the file, `readFromFile` returns a graph with the three
vertices 20, 21, 22, which have the values 0, 1, 2, and the adjacency lists are
those of the three edge lines. -/
theorem C24_readFromFile_roundtrip_witness :
    Description.WellFormed decimalPoint "3".toList "3".toList vlsC24 elsC24 ∧
      Description.text "3".toList "3".toList vlsC24 elsC24 = textC24 ∧
      (∃ g mem', DirectedGraph.readFromFile allocC23 staticCastInt decimalPoint
          (Description.text "3".toList "3".toList vlsC24 elsC24) memInt = .ok (g, mem') ∧
        g.vertices.length = vlsC24.length) ∧
      (DirectedGraph.readFromFile allocC23 staticCastInt decimalPoint textC24 memInt).result.map
          (fun r => r.1.vertices) = some [20, 21, 22] ∧
      (DirectedGraph.readFromFile allocC23 staticCastInt decimalPoint textC24 memInt).result.map
          (fun r => [(r.2 20).value, (r.2 21).value, (r.2 22).value]) = some [0, 1, 2] ∧
      (DirectedGraph.readFromFile allocC23 staticCastInt decimalPoint textC24 memInt).result.map
          (fun r => (r.2 20).adjacencyList)
        = some [(21, ((3 / 2 : ℚ) : WithTop ℚ), "Edge A street")] ∧
      (DirectedGraph.readFromFile allocC23 staticCastInt decimalPoint textC24 memInt).result.map
          (fun r => (r.2 21).adjacencyList)
        = some [(22, ((5 / 2 : ℚ) : WithTop ℚ), "['Edge B road', 'Edge B avenue']")] ∧
      (DirectedGraph.readFromFile allocC23 staticCastInt decimalPoint textC24 memInt).result.map
          (fun r => (r.2 22).adjacencyList)
        = some [(20, ((7 / 2 : ℚ) : WithTop ℚ), "Edge C avenue")] :=
  ⟨wellFormed_C24, by decide,
    (C24_readFromFile_roundtrip allocC23 staticCastInt decimalPoint "3".toList "3".toList vlsC24
      elsC24 memInt
      wellFormed_C24 (by decide)).1.elim
      (fun g hg => hg.elim (fun mem' hm => ⟨g, mem', hm.1, hm.2.1⟩)),
    by decide!, by decide!, by decide!, by decide!, by decide!⟩

/-- Counterexample to C24 as stated: the description with the vertex lines
`1 0.0 0.0` and `4294967297 1.0 1.0` and the edge line
`1 4294967297 1.5 Edge A street` is well formed (the ids 1 and 4294967297 are
different), and `readFromFile` for the value type `int` returns a graph whose
two vertices both have the value 1: the second vertex does not carry its id
4294967297, which `static_cast<int>` maps to 1. -/
theorem C24_counterexample :
    Description.WellFormed decimalPoint "2".toList "1".toList vlsC24wrap elsC24wrap ∧
      Description.ids vlsC24wrap = [1, 4294967297] ∧
      (DirectedGraph.readFromFile allocC23 staticCastInt decimalPoint
          (Description.text "2".toList "1".toList vlsC24wrap elsC24wrap) memInt).result.map
        (fun r => (r.1.vertices, (r.2 20).value, (r.2 21).value)) = some ([20, 21], 1, 1) ∧
      (DirectedGraph.readFromFile allocC23 staticCastInt decimalPoint
          (Description.text "2".toList "1".toList vlsC24wrap elsC24wrap) memInt).result.map
        (fun r => (r.2 20).adjacencyList)
        = some [(21, ((3 / 2 : ℚ) : WithTop ℚ), "Edge A street")] :=
  ⟨{ nField := by decide
     nValue := by decide
     nBound := by decide
     mField := by decide
     mValue := by decide
     mBound := by decide
     vertexLines := by decide!
     unique := by decide
     edgeLines := by decide! }, by decide, by decide!, by decide!⟩

/-! ## An edge line without label -/

namespace ifstream

/-- A character that is not whitespace is not a newline. -/
theorem ne_newline_of_not_space {c : Char} (h : isSpace c = false) : (c != '\n') = true := by
  by_cases hc : c = '\n'
  · subst hc; rw [isSpace_newline] at h; cases h
  · simpa using hc

/-- After any whitespace, newlines included, `getline(file >> ws, edgeName)`
reads the next text that does not begin with whitespace, up to the end of its
line. -/
theorem getline_after_spaces (sp l r : List Char) (hsp : ∀ c, c ∈ sp → isSpace c = true)
    (hl : Description.isLabel l = true) :
    getline (skipWs (sp ++ (l ++ '\n' :: r))) = (String.mk l, r) := by
  have h1 : skipWs (sp ++ (l ++ '\n' :: r)) = skipWs (l ++ '\n' :: r) := skipWs_spaces sp _ hsp
  have h2 : skipWs (' ' :: (l ++ '\n' :: r)) = skipWs (l ++ '\n' :: r) := by
    have := skipWs_spaces [' '] (l ++ '\n' :: r) (by
      intro c hc
      rw [List.mem_singleton] at hc
      rw [hc]; exact isSpace_blank)
    rwa [List.singleton_append] at this
  rw [h1, ← h2]
  exact getline_spec l r hl

end ifstream

namespace DirectedGraph

open Description

variable {T D : Type} [Zero D]

/-- The text of an edge line without its newline is, as a whole, a text that
`getline` takes for a label. -/
theorem isLabel_edgeLine (l : EdgeLine) (h1 : isField l.u = true) (h2 : isField l.v = true)
    (h3 : isField l.weight = true) (h4 : l.label.all (fun d => d != '\n') = true) :
    isLabel (l.u ++ ' ' :: (l.v ++ ' ' :: (l.weight ++ ' ' :: l.label))) = true := by
  have hf : ∀ t : List Char, isField t = true → t.all (fun d => d != '\n') = true := by
    intro t ht
    unfold isField at ht
    rw [Bool.and_eq_true] at ht
    rw [List.all_eq_true] at ht ⊢
    intro c hc
    have := ht.2 c hc
    exact ifstream.ne_newline_of_not_space (by simpa using this)
  have hall : (l.u ++ ' ' :: (l.v ++ ' ' :: (l.weight ++ ' ' :: l.label))).all
      (fun d => d != '\n') = true := by
    simp only [List.all_append, List.all_cons, Bool.and_eq_true]
    exact ⟨hf _ h1, by decide, hf _ h2, by decide, hf _ h3, by decide, h4⟩
  unfold isField at h1
  rw [Bool.and_eq_true] at h1
  cases hu : l.u with
  | nil => rw [hu] at h1; simp at h1
  | cons a t =>
    rw [hu] at h1 hall
    have ha : ifstream.isSpace a = false := by
      have := h1.2
      rw [List.all_cons, Bool.and_eq_true] at this
      simpa using this.1
    rw [List.cons_append] at hall ⊢
    unfold isLabel
    rw [Bool.and_eq_true]
    exact ⟨by simp [ha], hall⟩

/-- An edge line without label that is followed by another edge line: the
extractions of the edge loop give it the whole text of the following line as
its label, and that line is consumed. -/
theorem readEdgeLine_unlabelled (toD : List Char → Option D) (sp : List Char)
    (l1 l2 : EdgeLine) (rest : List Char) (hsp : ∀ c, c ∈ sp → ifstream.isSpace c = true)
    (h1 : isField l1.u = true) (h2 : isField l1.v = true) (h3 : isField l1.weight = true)
    (h4 : (ifstream.decimal l1.u).isSome = true) (h5 : idOf l1.u < 2 ^ 64)
    (h6 : (ifstream.decimal l1.v).isSome = true) (h7 : idOf l1.v < 2 ^ 64)
    (h8 : (toD l1.weight).isSome = true) (h9 : l1.label = [])
    (k1 : isField l2.u = true) (k2 : isField l2.v = true) (k3 : isField l2.weight = true)
    (k4 : l2.label.all (fun d => d != '\n') = true) :
    readEdgeLine toD (sp ++ edgeLineText l1 (edgeLineText l2 rest))
      = some (idOf l1.u, idOf l1.v, weightOf toD l1.weight,
          String.mk (l2.u ++ ' ' :: (l2.v ++ ' ' :: (l2.weight ++ ' ' :: l2.label))), rest) := by
  have hb : ∀ c, c ∈ [' '] → ifstream.isSpace c = true := by
    intro c hc
    rw [List.mem_singleton] at hc
    rw [hc]; exact ifstream.isSpace_blank
  have hbn : ∀ c, c ∈ [' ', '\n'] → ifstream.isSpace c = true := by
    intro c hc
    rcases List.mem_cons.mp hc with h | h
    · rw [h]; exact ifstream.isSpace_blank
    · rw [List.mem_singleton] at h
      rw [h]; exact ifstream.isSpace_newline
  have htext : edgeLineText l2 rest
      = (l2.u ++ ' ' :: (l2.v ++ ' ' :: (l2.weight ++ ' ' :: l2.label))) ++ '\n' :: rest := by
    unfold edgeLineText
    simp [List.append_assoc]
  have e1 := ifstream.extractNat_spec (2 ^ 64) sp l1.u
    (l1.v ++ ' ' :: (l1.weight ++ ' ' :: (l1.label ++ '\n' :: edgeLineText l2 rest))) ' '
    hsp h1 ifstream.isSpace_blank h4 h5
  have e2 := ifstream.extractNat_spec (2 ^ 64) [' '] l1.v
    (l1.weight ++ ' ' :: (l1.label ++ '\n' :: edgeLineText l2 rest)) ' ' hb h2
    ifstream.isSpace_blank h6 h7
  have e3 := ifstream.extractDouble_spec toD [' '] l1.weight
    (l1.label ++ '\n' :: edgeLineText l2 rest) ' ' hb h3 ifstream.isSpace_blank h8
  have e4 := ifstream.getline_after_spaces [' ', '\n']
    (l2.u ++ ' ' :: (l2.v ++ ' ' :: (l2.weight ++ ' ' :: l2.label))) rest hbn
    (isLabel_edgeLine l2 k1 k2 k3 k4)
  rw [List.singleton_append] at e2 e3
  rw [← htext] at e4
  unfold readEdgeLine
  rw [show edgeLineText l1 (edgeLineText l2 rest) = l1.u ++ ' ' :: (l1.v ++ ' ' ::
    (l1.weight ++ ' ' :: (l1.label ++ '\n' :: edgeLineText l2 rest))) from rfl, e1]
  simp only
  rw [e2]
  simp only
  rw [e3]
  simp only
  rw [h9, List.nil_append]
  rw [show (' ' :: '\n' :: edgeLineText l2 rest) = [' ', '\n'] ++ edgeLineText l2 rest from rfl,
    e4]

end DirectedGraph

/-- C31, the failing runs: the description with the two vertex lines `0 0 0`,
`1 1 1` and the two edge lines `0 1 1.5` (no label) and `1 0 2.5 back`. When
`readFromFile` enters its edge loop the two edge lines are left in the stream;
the extractions of the first iteration give the edge 0 -> 1 the label
"1 0 2.5 back", the text of the following line, and leave nothing in the
stream, so the second edge line is never read as an edge and `readFromFile` does
not return the described graph. The same happens with a blank left after the
weight. Only when the unlabelled line is the last line does it get the empty
label. -/
theorem C31_failing_run :
    DirectedGraph.streamAtEdges allocC23 staticCastInt decimalPoint textC31 memInt
        = some "\n0 1 1.5\n1 0 2.5 back\n".toList ∧
      (DirectedGraph.readEdgeLine decimalPoint "\n0 1 1.5\n1 0 2.5 back\n".toList).map
          (fun r => (r.1, r.2.1, r.2.2.2.1, r.2.2.2.2))
        = some (0, 1, "1 0 2.5 back", []) ∧
      (DirectedGraph.readFromFile allocC23 staticCastInt decimalPoint textC31 memInt).result.isSome = false ∧
      Description.text "2".toList "2".toList vlsC31 elsC31
        = "2 2\n0 0 0\n1 1 1\n0 1 1.5 \n1 0 2.5 back\n".toList ∧
      DirectedGraph.streamAtEdges allocC23 staticCastInt decimalPoint
          (Description.text "2".toList "2".toList vlsC31 elsC31) memInt
        = some "\n0 1 1.5 \n1 0 2.5 back\n".toList ∧
      (DirectedGraph.readEdgeLine decimalPoint "\n0 1 1.5 \n1 0 2.5 back\n".toList).map
          (fun r => (r.1, r.2.1, r.2.2.2.1, r.2.2.2.2))
        = some (0, 1, "1 0 2.5 back", []) ∧
      (DirectedGraph.readFromFile allocC23 staticCastInt decimalPoint
          (Description.text "2".toList "2".toList vlsC31 elsC31) memInt).result.isSome = false ∧
      (DirectedGraph.readFromFile allocC23 staticCastInt decimalPoint textC31last memInt).result.map
          (fun r => (r.2 21).adjacencyList) = some [(20, ((5 / 2 : ℚ) : WithTop ℚ), "")] := by
  refine ⟨by decide!, by decide!, by decide!, by decide, by decide!, by decide!, by decide!,
    by decide!⟩

/-! ## The tree of parent links left by `Dijkstra` -/

namespace Vertex

variable {T D : Type}

/-- Links through visited vertices survive every change that leaves the visited
vertices visited and their parents as they are. -/
theorem VChain.stable {mem mem' : Store T D} {s x : Nat}
    (h : ∀ y, (mem y).visited = true → (mem' y).visited = true ∧ (mem' y).parent = (mem y).parent)
    (hc : VChain mem s x) (hx : (mem x).visited = true) : VChain mem' s x := by
  induction hc with
  | root => exact VChain.root
  | step hp hv _ ih =>
    exact VChain.step (by rw [(h _ hx).2]; exact hp) (h _ hv).1 (ih hv)

end Vertex

namespace DirectedGraph

open Vertex

variable {T D : Type} [DecidableEq T] [LinearOrderedAddCommMonoidWithTop D]

/-- The invariant of the parent links holds when the main loop is entered. -/
theorem treeInv_init (vs : List Nat) (mem : Store T D) (s : Nat) (hs : s ∈ vs) :
    TreeInv mem s vs (setDistance 0 s (resetAll vs mem)) := by
  have hfield : ∀ x, x ∈ vs →
      (setDistance 0 s (resetAll vs mem) x).visited = false ∧
      (setDistance 0 s (resetAll vs mem) x).parent = none ∧
      (x ≠ s → (setDistance 0 s (resetAll vs mem) x).distance = ⊤) := by
    intro x hx
    obtain ⟨a1, a2, a3⟩ := resetAll_of_mem vs mem x hx
    by_cases hxs : x = s
    · subst hxs
      exact ⟨by rw [(setDistance_self _ _ _).2.1]; exact a1,
        by rw [(setDistance_self _ _ _).2.2]; exact a2, fun h => absurd rfl h⟩
    · rw [setDistance_of_ne _ _ hxs]
      exact ⟨a1, a2, fun _ => a3⟩
  constructor
  · exact ⟨(setDistance_self _ _ _).1, (hfield s hs).2.1⟩
  · intro x hx
    by_cases hxs : x = s
    · subst hxs; rw [(setDistance_self _ _ _).1]
    · rw [(hfield x hx).2.2 hxs]; exact le_top
  · intro x hx p hp
    rw [(hfield x hx).2.1] at hp; cases hp
  · intro x hx hxs hd
    exact absurd ((hfield x hx).2.2 hxs) hd
  · intro x hx hv
    rw [(hfield x hx).1] at hv; cases hv

/-- Marking an owned vertex with a finite distance as visited keeps the
invariant of the parent links. -/
theorem treeInv_setVisited {mem0 : Store T D} {s : Nat} {vs : List Nat} {mem : Store T D}
    {u : Nat} (h : TreeInv mem0 s vs mem) (hu : u ∈ vs) (hd : (mem u).distance ≠ ⊤) :
    TreeInv mem0 s vs (setVisited true u mem) := by
  have hf : ∀ x, (setVisited true u mem x).distance = (mem x).distance ∧
      (setVisited true u mem x).parent = (mem x).parent := by
    intro x
    by_cases hx : x = u
    · subst hx; exact ⟨(setVisited_self _ _ _).2.1, (setVisited_self _ _ _).2.2⟩
    · rw [setVisited_of_ne _ _ hx]; exact ⟨rfl, rfl⟩
  have hvis : ∀ y, (mem y).visited = true → (setVisited true u mem y).visited = true := by
    intro y hy
    by_cases hyu : y = u
    · subst hyu; exact (setVisited_self _ _ _).1
    · rw [setVisited_of_ne _ _ hyu]; exact hy
  have hstab : ∀ y, (mem y).visited = true →
      (setVisited true u mem y).visited = true ∧
        (setVisited true u mem y).parent = (mem y).parent :=
    fun y hy => ⟨hvis y hy, (hf y).2⟩
  constructor
  · rw [(hf s).1, (hf s).2]; exact h.src
  · intro x hx; rw [(hf x).1]; exact h.nonneg x hx
  · intro x hx p hp
    rw [(hf x).2] at hp
    obtain ⟨p1, p2, w, name, p3, p4⟩ := h.par x hx p hp
    exact ⟨p1, hvis p p2, w, name, p3, by rw [(hf x).1, (hf p).1]; exact p4⟩
  · intro x hx hxs hdx
    rw [(hf x).1] at hdx; rw [(hf x).2]; exact h.fin x hx hxs hdx
  · intro x hx hv
    by_cases hxu : x = u
    · subst hxu
      by_cases hxs : x = s
      · subst hxs; exact VChain.root
      · cases hp : (mem x).parent with
        | none => exact absurd hp (h.fin x hx hxs hd)
        | some p =>
          obtain ⟨p1, p2, _⟩ := h.par x hx p hp
          exact VChain.step (by rw [(hf x).2]; exact hp) (hvis p p2)
            ((h.chain p p1 p2).stable hstab p2)
    · rw [setVisited_of_ne _ _ hxu] at hv
      exact (h.chain x hx hv).stable hstab hv

/-- One relaxation keeps the invariant of the parent links. -/
theorem treeInv_relaxed {mem0 : Store T D} {s : Nat} {vs : List Nat} {mem : Store T D}
    {u nbr : Nat} {w : D} {name : String} (h : TreeInv mem0 s vs mem) (hu : u ∈ vs)
    (huv : (mem u).visited = true) (hnv : (mem nbr).visited = false)
    (he : (nbr, w, name) ∈ (mem0 u).adjacencyList) (hw : 0 ≤ w)
    (hlt : (mem u).distance + w < (mem nbr).distance) :
    TreeInv mem0 s vs (setParent (some u) nbr (setDistance ((mem u).distance + w) nbr mem)) := by
  have hun : u ≠ nbr := by
    intro hc; rw [hc, hnv] at huv; cases huv
  have halt : 0 ≤ (mem u).distance + w := add_nonneg (h.nonneg u hu) hw
  have hns : nbr ≠ s := by
    intro hc
    rw [hc, h.src.1] at hlt
    exact absurd hlt (not_lt.mpr halt)
  have hself := relaxed_self ((mem u).distance + w) u nbr mem
  have hother : ∀ x, x ≠ nbr →
      setParent (some u) nbr (setDistance ((mem u).distance + w) nbr mem) x = mem x :=
    fun x hx => relaxed_of_ne _ _ _ hx
  have hvne : ∀ y, (mem y).visited = true → y ≠ nbr := by
    intro y hy hc; rw [hc, hnv] at hy; cases hy
  have hstab : ∀ y, (mem y).visited = true →
      (setParent (some u) nbr (setDistance ((mem u).distance + w) nbr mem) y).visited = true ∧
        (setParent (some u) nbr (setDistance ((mem u).distance + w) nbr mem) y).parent
          = (mem y).parent := by
    intro y hy
    rw [hother y (hvne y hy)]
    exact ⟨hy, rfl⟩
  constructor
  · rw [hother s (Ne.symm hns)]; exact h.src
  · intro x hx
    by_cases hxn : x = nbr
    · subst hxn; rw [hself.1]; exact halt
    · rw [hother x hxn]; exact h.nonneg x hx
  · intro x hx p hp
    by_cases hxn : x = nbr
    · subst hxn
      rw [hself.2.1] at hp
      have hpu : p = u := (Option.some.inj hp).symm
      subst hpu
      refine ⟨hu, (hstab p huv).1, w, name, he, ?_⟩
      rw [hself.1, hother p hun]
    · rw [hother x hxn] at hp ⊢
      obtain ⟨p1, p2, w', name', p3, p4⟩ := h.par x hx p hp
      refine ⟨p1, (hstab p p2).1, w', name', p3, ?_⟩
      rw [hother p (hvne p p2)]; exact p4
  · intro x hx hxs hdx
    by_cases hxn : x = nbr
    · subst hxn; rw [hself.2.1]; exact fun hc => by cases hc
    · rw [hother x hxn] at hdx ⊢; exact h.fin x hx hxs hdx
  · intro x hx hv
    have hxn : x ≠ nbr := by
      intro hc
      rw [hc, hself.2.2, hnv] at hv; cases hv
    rw [hother x hxn] at hv
    exact (h.chain x hx hv).stable hstab hv

/-- The edge loop for a visited owned vertex `u` whose distance is the key `du`
keeps the invariant of the parent links, whatever its outcome. -/
theorem relax_tree {mem0 : Store T D} {s : Nat} {vs : List Nat} (du : D) {u : Nat}
    (hu : u ∈ vs) (es : List (Nat × D × String))
    (hes : ∀ e, e ∈ es → e ∈ (mem0 u).adjacencyList) (hw : ∀ e, e ∈ es → 0 ≤ e.2.1)
    (st : Store T D × minPQ D Nat) (hvis : (st.1 u).visited = true)
    (hdu : (st.1 u).distance = du) (h : TreeInv mem0 s vs st.1) :
    TreeInv mem0 s vs (relax du u es st).2.1 := by
  induction es generalizing st with
  | nil => exact h
  | cons ed es ih =>
    obtain ⟨nbr, w, nm⟩ := ed
    obtain ⟨mem, pq⟩ := st
    have hes' : ∀ e, e ∈ es → e ∈ (mem0 u).adjacencyList :=
      fun e he => hes e (List.mem_cons_of_mem _ he)
    have hw' : ∀ e, e ∈ es → 0 ≤ e.2.1 := fun e he => hw e (List.mem_cons_of_mem _ he)
    unfold relax
    by_cases hv : (mem nbr).visited = false
    · rw [if_pos hv]
      simp only
      by_cases hlt : du + w < (mem nbr).distance
      · rw [if_pos hlt]
        simp only at hvis hdu h
        have hun : u ≠ nbr := by
          intro hc; rw [hc, hv] at hvis; cases hvis
        have hT : TreeInv mem0 s vs (setParent (some u) nbr (setDistance (du + w) nbr mem)) := by
          have := treeInv_relaxed h hu hvis hv
            (hes (nbr, w, nm) (List.mem_cons_self _ _))
            (hw (nbr, w, nm) (List.mem_cons_self _ _)) (by rw [hdu]; exact hlt)
          rw [hdu] at this
          exact this
        have hvis1 : (setParent (some u) nbr (setDistance (du + w) nbr mem) u).visited = true := by
          rw [relaxed_of_ne _ _ _ hun]; exact hvis
        have hdu1 : (setParent (some u) nbr (setDistance (du + w) nbr mem) u).distance = du := by
          rw [relaxed_of_ne _ _ _ hun]; exact hdu
        cases hup : minPQ.updateKey (du + w) nbr pq with
        | mk o pq1 =>
          cases o with
          | ret a => exact ih hes' hw' (_, pq1) hvis1 hdu1 hT
          | throw e => exact hT
      · rw [if_neg hlt]; exact ih hes' hw' (mem, pq) hvis hdu h
    · rw [if_neg hv]; exact ih hes' hw' (mem, pq) hvis hdu h

end DirectedGraph

namespace DirectedGraph

open Vertex

variable {T D : Type} [DecidableEq T] [LinearOrderedAddCommMonoidWithTop D]

/-- The main loop of `Dijkstra` on a graph with non-negative weights keeps the
invariant of the parent links, whatever its outcome. -/
theorem dijkstraLoop_tree {mem0 : Store T D} {s : Nat} {vs : List Nat} {m : Nat} (fuel : Nat)
    (st : Store T D × minPQ D Nat) (h : LoopInv mem0 s vs m st) (ht : TreeInv mem0 s vs st.1)
    (hw : NonNegWeights mem0 vs) : TreeInv mem0 s vs (dijkstraLoop fuel st).2.1 := by
  induction fuel generalizing st with
  | zero => exact ht
  | succ fuel ih =>
    obtain ⟨mem, pq⟩ := st
    unfold dijkstraLoop
    by_cases he : pq.empty = true
    · rw [if_pos he]; exact ht
    · rw [if_neg he]
      have hne : pq.numElements ≠ 0 := by
        intro h0; apply he; unfold minPQ.empty; simp [h0]
      have hpop := minPQ.pop_of_ne hne
      have hpq1 : (minPQ.pop pq).2 = _ := congrArg Prod.snd hpop
      simp only at hpq1
      rw [hpop, ← hpq1]
      simp only
      have hm : 0 < m := by have := h.num; simp only at this; omega
      have huvs : pq.arr 0 ∈ vs := h.bnd.arr 0 hm
      by_cases hdu : pq.keyOf.read (pq.arr 0) = ⊤
      · rw [if_pos hdu]; exact ht
      · rw [if_neg hdu]
        by_cases hvis : (mem (pq.arr 0)).visited = true
        · rw [if_pos hvis]
          apply ih (mem, (minPQ.pop pq).2) _ ht
          apply loopInv_pop h hne h.mem
          intro x hx
          refine ⟨?_, rfl⟩
          intro hxu; rw [hxu, hvis] at hx; cases hx
        · rw [if_neg hvis]
          have hvf : (mem (pq.arr 0)).visited = false := by
            cases hb : (mem (pq.arr 0)).visited with
            | true => exact absurd hb hvis
            | false => rfl
          have hL : LoopInv mem0 s vs m
              (setVisited true (pq.arr 0) mem, (minPQ.pop pq).2) := by
            apply loopInv_pop h hne (memInv_setVisited _ h.mem)
            intro x hx
            have hxu : x ≠ pq.arr 0 := by
              intro hxu; rw [hxu, (setVisited_self _ _ _).1] at hx; cases hx
            exact ⟨hxu, setVisited_of_ne _ _ hxu⟩
          have hkey := (h.queued _ huvs hvf).1
          simp only at hkey
          have hkd : pq.keyOf.read (pq.arr 0) = (mem (pq.arr 0)).distance :=
            HMap.read_of_some hkey
          have hfin : (mem (pq.arr 0)).distance ≠ ⊤ := by rw [← hkd]; exact hdu
          have hreach : Reach mem0 s (pq.arr 0) := h.mem.reach _ huvs hfin
          have hadj : (setVisited true (pq.arr 0) mem (pq.arr 0)).adjacencyList
              = (mem0 (pq.arr 0)).adjacencyList :=
            (hL.mem.same (pq.arr 0)).2
          simp only at ht
          have hT1 : TreeInv mem0 s vs (setVisited true (pq.arr 0) mem) :=
            treeInv_setVisited ht huvs hfin
          have hT2 := relax_tree (pq.keyOf.read (pq.arr 0)) huvs
            (setVisited true (pq.arr 0) mem (pq.arr 0)).adjacencyList
            (fun e he => by rw [hadj] at he; exact he)
            (fun e he => hw _ huvs e (by rw [hadj] at he; exact he))
            (setVisited true (pq.arr 0) mem, (minPQ.pop pq).2)
            (setVisited_self _ _ _).1
            (by rw [hkd]; exact (setVisited_self _ _ _).2.1) hT1
          obtain ⟨r1, r2, r3⟩ := relax_inv (pq.keyOf.read (pq.arr 0)) hreach
            (setVisited true (pq.arr 0) mem (pq.arr 0)).adjacencyList
            (fun e he => by rw [hadj] at he; exact he) _ hL
          cases hr : relax (pq.keyOf.read (pq.arr 0)) (pq.arr 0)
              (setVisited true (pq.arr 0) mem (pq.arr 0)).adjacencyList
              (setVisited true (pq.arr 0) mem, (minPQ.pop pq).2) with
          | mk o s2 =>
            rw [hr] at r1 r2 r3 hT2
            cases o with
            | throw e =>
              simp only
              exact hT2
            | ret a =>
              simp only
              exact ih s2 (r2 rfl) hT2

/-- The invariant of the parent links holds in the store that `Dijkstra` leaves
on a graph with non-negative weights, whether it returned or threw. -/
theorem Dijkstra_tree (g : DirectedGraph) (startVertex : Nat) (mem : Store T D) (s : Nat)
    (hf : findStart startVertex (resetAll g.vertices mem) g.vertices = some s)
    (hw : NonNegWeights mem g.vertices) :
    TreeInv mem s g.vertices (Dijkstra g startVertex mem).2 := by
  obtain ⟨_, f2⟩ := loopInv_init g mem s (findStart_mem hf)
  have hl := dijkstraLoop_tree g.vertices.length _ f2
    (treeInv_init g.vertices mem s (findStart_mem hf)) hw
  rw [Dijkstra_of_found g startVertex mem s hf]
  cases hd : dijkstraLoop g.vertices.length
      (setDistance 0 s (resetAll g.vertices mem),
        (insertAll (setDistance 0 s (resetAll g.vertices mem)) g.vertices
          (minPQ.new g.vertices.length)).2) with
  | mk o st =>
    obtain ⟨mem3, pq3⟩ := st
    rw [hd] at hl
    cases o with
    | throw e => exact hl
    | ret a => exact hl

/-- The vertex found by the search for the source is `startVertex` itself or
carries its value. -/
theorem findStart_match {startVertex : Nat} {mem : Store T D} {vs : List Nat} {s : Nat}
    (h : findStart startVertex mem vs = some s) :
    s = startVertex ∨ (mem s).value = (mem startVertex).value := by
  induction vs with
  | nil => simp [findStart] at h
  | cons v vs ih =>
    unfold findStart at h
    by_cases hm : v = startVertex ∨ (mem v).value = (mem startVertex).value
    · rw [if_pos hm] at h
      simp only [Option.some.injEq] at h
      subst h; exact hm
    · rw [if_neg hm] at h; exact ih h

/-- The vertex found by the search for the source is the first match in the
order of the vertex vector. -/
theorem findStart_split {startVertex : Nat} {mem : Store T D} {vs : List Nat} {s : Nat}
    (h : findStart startVertex mem vs = some s) :
    ∃ pre post, vs = pre ++ s :: post ∧
      ∀ v, v ∈ pre → v ≠ startVertex ∧ (mem v).value ≠ (mem startVertex).value := by
  induction vs with
  | nil => simp [findStart] at h
  | cons v vs ih =>
    unfold findStart at h
    by_cases hm : v = startVertex ∨ (mem v).value = (mem startVertex).value
    · rw [if_pos hm] at h
      simp only [Option.some.injEq] at h
      subst h
      exact ⟨[], vs, rfl, fun x hx => by cases hx⟩
    · rw [if_neg hm] at h
      obtain ⟨pre, post, e1, e2⟩ := ih h
      refine ⟨v :: pre, post, by rw [e1]; rfl, ?_⟩
      intro x hx
      rcases List.mem_cons.mp hx with hxv | hxp
      · rw [hxv]
        exact ⟨fun hc => hm (Or.inl hc), fun hc => hm (Or.inr hc)⟩
      · exact e2 x hxp

/-- The search started from the vertex it found finds that vertex again. -/
theorem findStart_idem {startVertex : Nat} {mem : Store T D} {vs : List Nat} {s : Nat}
    (h : findStart startVertex mem vs = some s) : findStart s mem vs = some s := by
  have hs := findStart_match h
  induction vs with
  | nil => simp [findStart] at h
  | cons v vs ih =>
    unfold findStart at h ⊢
    by_cases hm : v = startVertex ∨ (mem v).value = (mem startVertex).value
    · rw [if_pos hm] at h
      simp only [Option.some.injEq] at h
      subst h
      rw [if_pos (Or.inl rfl)]
    · rw [if_neg hm] at h
      have hn : ¬ (v = s ∨ (mem v).value = (mem s).value) := by
        rintro (hc | hc)
        · apply hm
          rcases hs with h1 | h1
          · exact Or.inl (hc.trans h1)
          · exact Or.inr (by rw [hc]; exact h1)
        · apply hm
          rcases hs with h1 | h1
          · exact Or.inr (by rw [hc, h1])
          · exact Or.inr (hc.trans h1)
      rw [if_neg hn]
      exact ih h

/-- `Dijkstra` called with `startVertex` does what it does when called with the
vertex its search finds. -/
theorem Dijkstra_eq_of_found (g : DirectedGraph) (startVertex : Nat) (mem : Store T D) (s : Nat)
    (hf : findStart startVertex mem g.vertices = some s) :
    Dijkstra g startVertex mem = Dijkstra g s mem := by
  have h1 : findStart startVertex (resetAll g.vertices mem) g.vertices = some s := by
    rw [findStart_resetAll]; exact hf
  have h2 : findStart s (resetAll g.vertices mem) g.vertices = some s := findStart_idem h1
  unfold Dijkstra
  simp only [h1, h2]

end DirectedGraph

/-! ## The route walked back along the parent links -/

namespace Vertex

variable {T D : Type} [DecidableEq D]

theorem walkEnd_cons (u : Nat) (st : Nat × D) (rest : List (Nat × D)) :
    walkEnd u (st :: rest) = walkEnd st.1 rest := by
  cases rest with
  | nil => rfl
  | cons r rs =>
    unfold walkEnd
    rw [List.getLast?_cons_cons, List.getLast?_eq_getLast _ (List.cons_ne_nil r rs)]

theorem walkEnd_concat (u : Nat) (steps : List (Nat × D)) (st : Nat × D) :
    walkEnd u (steps ++ [st]) = st.1 := by
  unfold walkEnd
  rw [List.getLast?_concat]

/-- A walk followed by a walk from its end is a walk. -/
theorem isWalk_append (mem : Store T D) (u : Nat) (a b : List (Nat × D)) :
    isWalk mem u (a ++ b) = (isWalk mem u a && isWalk mem (walkEnd u a) b) := by
  induction a generalizing u with
  | nil => simp [isWalk, walkEnd]
  | cons st a ih =>
    obtain ⟨v, w⟩ := st
    rw [List.cons_append, walkEnd_cons]
    show ((mem u).adjacencyList.any (fun e => decide (e.1 = v) && decide (e.2.1 = w))
        && isWalk mem v (a ++ b))
      = (((mem u).adjacencyList.any (fun e => decide (e.1 = v) && decide (e.2.1 = w))
        && isWalk mem v a) && isWalk mem (walkEnd v a) b)
    rw [ih v, Bool.and_assoc]

theorem walkWeight_concat [AddMonoid D] (steps : List (Nat × D)) (st : Nat × D) :
    walkWeight (steps ++ [st]) = walkWeight steps + st.2 := by
  unfold walkWeight
  rw [List.map_append, List.sum_append]
  simp

end Vertex

namespace DirectedGraph

open Vertex

variable {T D : Type} [DecidableEq T] [LinearOrderedAddCommMonoidWithTop D] [DecidableEq D]

/-- A vertex linked to the source by parent links: the backtracking loop started
at it ends, the vertices it visits are, read backwards, a walk from the source
along edges of the graph, and the weight of that walk is the distance of the
vertex. -/
theorem chain_walk {mem0 mem : Store T D} {s : Nat} {vs : List Nat}
    (h : TreeInv mem0 s vs mem) (x : Nat) (hc : VChain mem s x) (hx : x ∈ vs) :
    ∃ (chain : List Nat) (steps : List (Nat × D)),
      (∀ fuel, chain.length ≤ fuel → backtrack mem fuel (some x) = some chain) ∧
      chain.reverse = s :: steps.map (fun st => st.1) ∧
      isWalk mem0 s steps = true ∧ walkEnd s steps = x ∧
      walkWeight steps = (mem x).distance := by
  revert hx
  induction hc with
  | root =>
    intro _
    refine ⟨[s], [], ?_, rfl, rfl, rfl, ?_⟩
    · intro fuel hf
      cases fuel with
      | zero => simp at hf
      | succ f =>
        unfold backtrack
        rw [h.src.2]
        cases f <;> rfl
    · rw [h.src.1]; rfl
  | @step x p hp hv _ ih =>
    intro hx
    obtain ⟨p1, _, w, name, p3, p4⟩ := h.par x hx p hp
    obtain ⟨chain, steps, c1, c2, c3, c4, c5⟩ := ih p1
    refine ⟨x :: chain, steps ++ [(x, w)], ?_, ?_, ?_, ?_, ?_⟩
    · intro fuel hf
      cases fuel with
      | zero => simp at hf
      | succ f =>
        unfold backtrack
        rw [hp, c1 f (by simpa using hf)]
        rfl
    · rw [List.reverse_cons, c2]
      simp
    · rw [isWalk_append, c3, c4]
      unfold isWalk
      simp only [Bool.true_and, Bool.and_true, isWalk, List.any_eq_true]
      exact ⟨(x, w, name), p3, by simp⟩
    · exact walkEnd_concat _ _ _
    · rw [walkWeight_concat, c5, p4]

end DirectedGraph

/-- C32: when the search of `Dijkstra(start)` finds the vertex `s`, `s` is the
first vertex in the order of the vertex vector that is `start` itself or has
the value of `start` (no vertex before it is `start` or has its value, so an
owned `start` other than `s` comes after `s` and shares its value); the main
loop is entered with `s` at distance 0, and the whole result -- exception or
list, and every distance, parent and visited flag -- is that of `Dijkstra(s)`;
on a graph with non-negative weights `s` is left with distance 0 and no
parent. -/
theorem C32_source_used {T D : Type} [DecidableEq T] [LinearOrderedAddCommMonoidWithTop D]
    (g : DirectedGraph) (start : Nat) (mem : Store T D) (s : Nat)
    (hf : DirectedGraph.findStart start mem g.vertices = some s) :
    (s = start ∨ (mem s).value = (mem start).value) ∧
      (∃ pre post, g.vertices = pre ++ s :: post ∧
        (∀ v, v ∈ pre → v ≠ start ∧ (mem v).value ≠ (mem start).value) ∧
        (start ∈ g.vertices → start ≠ s →
          start ∈ post ∧ (mem s).value = (mem start).value)) ∧
      g.Dijkstra start mem = g.Dijkstra s mem ∧
      g.Dijkstra start mem =
        (match DirectedGraph.dijkstraLoop g.vertices.length
            (Vertex.setDistance 0 s (DirectedGraph.resetAll g.vertices mem),
              (DirectedGraph.insertAll
                (Vertex.setDistance 0 s (DirectedGraph.resetAll g.vertices mem)) g.vertices
                (minPQ.new g.vertices.length)).2) with
          | (.throw e, (mem3, _)) => (.throw e, mem3)
          | (.ret _, (mem3, _)) => (.ret (DirectedGraph.collect mem3 g.vertices []), mem3)) ∧
      (Vertex.setDistance 0 s (DirectedGraph.resetAll g.vertices mem) s).distance = 0 ∧
      (DirectedGraph.NonNegWeights mem g.vertices →
        ((g.Dijkstra start mem).2 s).distance = 0 ∧
          ((g.Dijkstra start mem).2 s).parent = none) := by
  have hf' : DirectedGraph.findStart start (DirectedGraph.resetAll g.vertices mem) g.vertices
      = some s := by rw [DirectedGraph.findStart_resetAll]; exact hf
  have hm := DirectedGraph.findStart_match hf
  obtain ⟨pre, post, e1, e2⟩ := DirectedGraph.findStart_split hf
  refine ⟨hm, ⟨pre, post, e1, e2, ?_⟩, DirectedGraph.Dijkstra_eq_of_found g start mem s hf,
    DirectedGraph.Dijkstra_of_found g start mem s hf', (Vertex.setDistance_self _ _ _).1,
    fun hw => (DirectedGraph.Dijkstra_tree g start mem s hf' hw).src⟩
  intro hin hne
  constructor
  · rw [e1, List.mem_append, List.mem_cons] at hin
    rcases hin with h | h | h
    · exact absurd rfl (e2 start h).1
    · exact absurd h hne
    · exact h
  · rcases hm with h | h
    · exact absurd h.symm hne
    · exact h

/-- Witness of C32 on `gB`, where the vertices 0 and 1 share the value 7: with
vertex 1 passed as start the search finds vertex 0, and the result is that of
`Dijkstra(0)`: vertex 0 has distance 0 and vertex 1 is left at +infinity. -/
theorem C32_source_used_witness :
    DirectedGraph.findStart 1 memB gB.vertices = some 0 ∧
      gB.Dijkstra 1 memB = gB.Dijkstra 0 memB ∧
      ((gB.Dijkstra 1 memB).2 0).distance = 0 ∧
      ((gB.Dijkstra 1 memB).2 1).distance = ⊤ ∧
      (memB 0).value = (memB 1).value :=
  have hf : DirectedGraph.findStart 1 memB gB.vertices = some 0 := by decide
  ⟨hf, (C32_source_used gB 1 memB 0 hf).2.2.1, by decide, by decide,
    ((C32_source_used gB 1 memB 0 hf).1.elim (fun h => absurd h (by decide)) id)⟩

/-- C33: for every graph with non-negative weights and every start vertex
matched in it, with `s` the source actually used, in the store left by
`Dijkstra(start)`: the source has distance 0 and no parent; every other owned
vertex `v` with a finite distance has a parent `p`, an owned vertex with an
edge `p -> v` of some weight `w` such that distance(v) = distance(p) + w; the
backtracking loop of `find_path` started at any owned vertex with a finite
distance ends after finitely many steps (with any larger bound too), and the
vertices it visits are, reversed, the source followed by the targets of a walk
from the source along edges of the graph whose total weight is the reported
distance (the route of `find_path` is the values of these vertices); hence the
reported distance is not below any lower bound of the weights of the walks from
the source to the vertex. -/
theorem C33_parent_tree {T D : Type} [DecidableEq T] [LinearOrderedAddCommMonoidWithTop D]
    [DecidableEq D] (g : DirectedGraph) (start : Nat) (mem : Store T D) (s : Nat)
    (hf : DirectedGraph.findStart start mem g.vertices = some s)
    (hw : DirectedGraph.NonNegWeights mem g.vertices) :
    (((g.Dijkstra start mem).2 s).distance = 0 ∧ ((g.Dijkstra start mem).2 s).parent = none) ∧
      (∀ v, v ∈ g.vertices → v ≠ s → ((g.Dijkstra start mem).2 v).distance ≠ ⊤ →
        ∃ p w name, ((g.Dijkstra start mem).2 v).parent = some p ∧ p ∈ g.vertices ∧
          (v, w, name) ∈ (mem p).adjacencyList ∧
          ((g.Dijkstra start mem).2 v).distance = ((g.Dijkstra start mem).2 p).distance + w) ∧
      (∀ v, v ∈ g.vertices → ((g.Dijkstra start mem).2 v).distance ≠ ⊤ →
        ∃ (chain : List Nat) (steps : List (Nat × D)),
          (∀ fuel, chain.length ≤ fuel →
            Vertex.backtrack (g.Dijkstra start mem).2 fuel (some v) = some chain ∧
            Vertex.route (g.Dijkstra start mem).2 fuel v
              = some ((s :: steps.map (fun st => st.1)).map
                  (fun y => ((g.Dijkstra start mem).2 y).value))) ∧
          chain.reverse = s :: steps.map (fun st => st.1) ∧
          Vertex.isWalk mem s steps = true ∧ Vertex.walkEnd s steps = v ∧
          Vertex.walkWeight steps = ((g.Dijkstra start mem).2 v).distance) ∧
      (∀ v, v ∈ g.vertices → ∀ b : D,
        (∀ steps, Vertex.isWalk mem s steps = true → Vertex.walkEnd s steps = v →
          b ≤ Vertex.walkWeight steps) →
        b ≤ ((g.Dijkstra start mem).2 v).distance) := by
  have hf' : DirectedGraph.findStart start (DirectedGraph.resetAll g.vertices mem) g.vertices
      = some s := by rw [DirectedGraph.findStart_resetAll]; exact hf
  have hT := DirectedGraph.Dijkstra_tree g start mem s hf' hw
  have hs : s ∈ g.vertices := DirectedGraph.findStart_mem hf
  have hchain : ∀ v, v ∈ g.vertices → ((g.Dijkstra start mem).2 v).distance ≠ ⊤ →
      Vertex.VChain (g.Dijkstra start mem).2 s v := by
    intro v hv hd
    by_cases hvs : v = s
    · rw [hvs]; exact Vertex.VChain.root
    · cases hp : ((g.Dijkstra start mem).2 v).parent with
      | none => exact absurd hp (hT.fin v hv hvs hd)
      | some p =>
        obtain ⟨p1, p2, _⟩ := hT.par v hv p hp
        exact Vertex.VChain.step hp p2 (hT.chain p p1 p2)
  have hwalk : ∀ v, v ∈ g.vertices → ((g.Dijkstra start mem).2 v).distance ≠ ⊤ →
      ∃ (chain : List Nat) (steps : List (Nat × D)),
        (∀ fuel, chain.length ≤ fuel →
          Vertex.backtrack (g.Dijkstra start mem).2 fuel (some v) = some chain) ∧
        chain.reverse = s :: steps.map (fun st => st.1) ∧
        Vertex.isWalk mem s steps = true ∧ Vertex.walkEnd s steps = v ∧
        Vertex.walkWeight steps = ((g.Dijkstra start mem).2 v).distance :=
    fun v hv hd => DirectedGraph.chain_walk hT v (hchain v hv hd) hv
  refine ⟨hT.src, ?_, ?_, ?_⟩
  · intro v hv hvs hd
    cases hp : ((g.Dijkstra start mem).2 v).parent with
    | none => exact absurd hp (hT.fin v hv hvs hd)
    | some p =>
      obtain ⟨p1, _, w, name, p3, p4⟩ := hT.par v hv p hp
      exact ⟨p, w, name, rfl, p1, p3, p4⟩
  · intro v hv hd
    obtain ⟨chain, steps, c1, c2, c3, c4, c5⟩ := hwalk v hv hd
    refine ⟨chain, steps, fun fuel hfuel => ⟨c1 fuel hfuel, ?_⟩, c2, c3, c4, c5⟩
    unfold Vertex.route
    rw [c1 fuel hfuel, Option.map_some', ← List.map_reverse, c2]
  · intro v hv b hb
    by_cases hd : ((g.Dijkstra start mem).2 v).distance = ⊤
    · rw [hd]; exact le_top
    · obtain ⟨_, steps, _, _, c3, c4, c5⟩ := hwalk v hv hd
      rw [← c5]
      exact hb steps c3 c4

/-- Witness of C33 on `gC1` with start vertex 0, the run in which vertex 3 is
reported at distance 5: the source has distance 0 and no parent, vertex 3 has
the parent 0 with the edge 0 -> 3 of weight 5, and the backtracking loop from
vertex 3 visits 3 and 0, the route 0, 3. -/
theorem C33_parent_tree_witness :
    DirectedGraph.findStart 0 memC1 gC1.vertices = some 0 ∧
      DirectedGraph.NonNegWeights memC1 gC1.vertices ∧
      (((gC1.Dijkstra 0 memC1).2 0).distance = 0 ∧ ((gC1.Dijkstra 0 memC1).2 0).parent = none) ∧
      (∃ p w name, ((gC1.Dijkstra 0 memC1).2 3).parent = some p ∧ p ∈ gC1.vertices ∧
        (3, w, name) ∈ (memC1 p).adjacencyList ∧
        ((gC1.Dijkstra 0 memC1).2 3).distance = ((gC1.Dijkstra 0 memC1).2 p).distance + w) ∧
      ((gC1.Dijkstra 0 memC1).2 3).parent = some 0 ∧
      Vertex.backtrack (gC1.Dijkstra 0 memC1).2 4 (some 3) = some [3, 0] ∧
      Vertex.route (gC1.Dijkstra 0 memC1).2 4 3 = some [0, 3] :=
  have hf : DirectedGraph.findStart 0 memC1 gC1.vertices = some 0 := by decide
  have hw : DirectedGraph.NonNegWeights memC1 gC1.vertices := by
    unfold DirectedGraph.NonNegWeights; decide
  ⟨hf, hw, (C33_parent_tree gC1 0 memC1 0 hf hw).1,
    (C33_parent_tree gC1 0 memC1 0 hf hw).2.1 3 (by decide) (by decide) (by decide),
    by decide, by decide, by decide⟩

/-! ## Runs of the queue that leave a value twice in the array -/

/-- C8, the failing run: nine calls on an empty queue of capacity 5, all of which
return normally and which insert five pairwise different values, leave a queue
of three elements whose array holds 5, 5, 3, each with key 1, so that it
satisfies the min-heap property (the last call, `updateKey(2, 4)`, starts its
sift-up at slot 3, past the end of the queue, where the index map left stale by
`heapify` places the value 4, and exchanges the copy of 5 left there with the
value 4 of slot 1). `pop` returns
(1, 5) and the size drops to 2, but the value 5 is still held afterwards, in
slot 0, and its key has changed from 1 to 0: `pop` has not removed exactly the
entry it returned, and a retained value has not kept its key. -/
theorem C8_failing_run :
    (minPQ.runOps opsC8run (minPQ.new 5)).1 = true ∧
      (minPQ.runOps opsC8run (minPQ.new 5)).2.numElements = 3 ∧
      (List.range 3).map (minPQ.runOps opsC8run (minPQ.new 5)).2.arr = [5, 5, 3] ∧
      (minPQ.runOps opsC8run (minPQ.new 5)).2.keyOf 5 = some 1 ∧
      (minPQ.runOps opsC8run (minPQ.new 5)).2.keyOf 3 = some 1 ∧
      minPQ.IsHeap (minPQ.runOps opsC8run (minPQ.new 5)).2 ∧
      (minPQ.pop (minPQ.runOps opsC8run (minPQ.new 5)).2).1 = .ret (1, 5) ∧
      (minPQ.pop (minPQ.runOps opsC8run (minPQ.new 5)).2).2.numElements = 2 ∧
      (List.range 2).map (minPQ.pop (minPQ.runOps opsC8run (minPQ.new 5)).2).2.arr = [5, 3] ∧
      minPQ.Holds (minPQ.pop (minPQ.runOps opsC8run (minPQ.new 5)).2).2 5 ∧
      (minPQ.pop (minPQ.runOps opsC8run (minPQ.new 5)).2).2.keyOf 5 = some 0 := by
  have hn : (minPQ.runOps opsC8run (minPQ.new 5)).2.numElements = 3 := by decide
  refine ⟨by decide, hn, by decide, by decide, by decide, ?_, by decide, by decide, by decide,
    ⟨0, by decide, by decide⟩, by decide⟩
  unfold minPQ.IsHeap minPQ.HeapArr
  rw [hn]
  intro j hj hjn
  interval_cases j <;> decide

/-- C11, the failing run: eleven calls on an empty queue of capacity 5, all of
which return normally and which insert five pairwise different values, leave a
queue of one element, the value 5 in slot 0, for which the key map has no entry
(a `pop` that returned another copy of 5 erased it); the array satisfies the
min-heap property. `top` returns (0, 5), with a key the value never had, and
leaves an entry for 5 in the key map: the keys are not unchanged. -/
theorem C11_failing_run :
    (minPQ.runOps opsC11run (minPQ.new 5)).1 = true ∧
      (minPQ.runOps opsC11run (minPQ.new 5)).2.numElements = 1 ∧
      (minPQ.runOps opsC11run (minPQ.new 5)).2.arr 0 = 5 ∧
      (minPQ.runOps opsC11run (minPQ.new 5)).2.keyOf 5 = none ∧
      minPQ.IsHeap (minPQ.runOps opsC11run (minPQ.new 5)).2 ∧
      (minPQ.top (minPQ.runOps opsC11run (minPQ.new 5)).2).1 = .ret (0, 5) ∧
      (minPQ.top (minPQ.runOps opsC11run (minPQ.new 5)).2).2.keyOf 5 = some 0 ∧
      (minPQ.top (minPQ.runOps opsC11run (minPQ.new 5)).2).2
        ≠ (minPQ.runOps opsC11run (minPQ.new 5)).2 := by
  have hn : (minPQ.runOps opsC11run (minPQ.new 5)).2.numElements = 1 := by decide
  have hk : (minPQ.top (minPQ.runOps opsC11run (minPQ.new 5)).2).2.keyOf 5 = some 0 := by decide
  have hk0 : (minPQ.runOps opsC11run (minPQ.new 5)).2.keyOf 5 = none := by decide
  refine ⟨by decide, hn, by decide, hk0, ?_, by decide, hk, ?_⟩
  · unfold minPQ.IsHeap minPQ.HeapArr
    rw [hn]
    intro j hj hjn
    omega
  · intro h
    rw [h, hk0] at hk
    cases hk

/-- C13, the failing run: the nine calls of `opsC8run` on an empty queue of
capacity 5, all of which return normally, leave a queue of three elements whose
array holds 5, 5, 3, each with key 1, so that it satisfies the min-heap
property. `heapSort` returns 5, 5, 3: the value 5 occurs twice in the result. -/
theorem C13_failing_run :
    (minPQ.runOps opsC8run (minPQ.new 5)).1 = true ∧
      (minPQ.runOps opsC8run (minPQ.new 5)).2.numElements = 3 ∧
      (List.range 3).map (minPQ.runOps opsC8run (minPQ.new 5)).2.arr = [5, 5, 3] ∧
      (List.range 3).map
          (fun i => (minPQ.runOps opsC8run (minPQ.new 5)).2.keyOf
            ((minPQ.runOps opsC8run (minPQ.new 5)).2.arr i))
        = [some 1, some 1, some 1] ∧
      minPQ.IsHeap (minPQ.runOps opsC8run (minPQ.new 5)).2 ∧
      (minPQ.heapSort (minPQ.runOps opsC8run (minPQ.new 5)).2).1 = [5, 5, 3] ∧
      ¬ (minPQ.heapSort (minPQ.runOps opsC8run (minPQ.new 5)).2).1.Nodup := by
  have hn : (minPQ.runOps opsC8run (minPQ.new 5)).2.numElements = 3 := by decide
  refine ⟨by decide, hn, by decide, by decide, ?_, by decide, by decide⟩
  unfold minPQ.IsHeap minPQ.HeapArr
  rw [hn]
  intro j hj hjn
  interval_cases j <;> decide
